import Mathlib

/-!
# ABCU course planner: the chained hash table of `ProjectTwo.cpp`

A shallow embedding of the helper functions (`isPrime`, `nextPrime`, `trim`, `splitCSV`,
`containsDigit`), of the class `CourseHashTable` (`hash`, `reSize`, `Insert`, `searchCourse`,
`printAll`, `Clear`) and of `loadCourses`, followed by theorems about them.

Conventions of the embedding.

* `unsigned int` is a natural number below `2 ^ 32` and `size_t` one below `2 ^ 64`; where the
  source computes in such a type and the result can wrap, the reduction is written out.
  `numElements` and `chainLength` only ever count live nodes, so they are kept as plain
  naturals.
* A `std::string` is a Lean `String`; a character stands for the `char` holding its code,
  and `operator<` on strings is the lexicographic order of the codes (`stringLt`).
* A singly linked chain (`Node* next`) is the list of the nodes that follow the head.
* A loop or a recursion that the source does not bound takes a `fuel` argument; running out of
  it is reported (`none`, or `Fault.fuel`), so that a result of the model is a result of the
  program, and a run that exhausts every fuel is a run that does not return.
-/

namespace ProjectTwo

/-! ## Machine constants -/

/-- The number of values of `unsigned int`. -/
def UINT_MOD : Nat := 2 ^ 32

/-- The number of values of `size_t`. -/
def SIZE_T_MOD : Nat := 2 ^ 64

/-- The constant `UINT_MAX` of `<climits>`, which marks an empty bucket head. -/
def UINT_MAX : Nat := 2 ^ 32 - 1

/-- The constant `DEFAULT_SIZE`. -/
def DEFAULT_SIZE : Nat := 31

/-! ## Prime sizing -/

/-- The `for` loop of `isPrime`: `i` is a `size_t`, and the loop runs while `i <= num / i`. -/
def isPrimeLoop (num : Nat) : Nat → Nat → Option Bool
  | 0, _ => none
  | fuel + 1, i =>
    if i ≤ num / i then
      if num % i = 0 ∨ num % ((i + 2) % SIZE_T_MOD) = 0 then some false
      else isPrimeLoop num fuel ((i + 6) % SIZE_T_MOD)
    else some true

/-- The function `isPrime`; the loop gets `num` units of fuel. -/
def isPrime (num : Nat) : Option Bool :=
  if num ≤ 1 then some false
  else if num ≤ 3 then some true
  else if num % 2 = 0 ∨ num % 3 = 0 then some false
  else isPrimeLoop num num 5

/-- The `while` loop of `nextPrime`: `num += 2` is computed in `unsigned int`. -/
def nextPrimeLoop : Nat → Nat → Option Nat
  | 0, _ => none
  | fuel + 1, num =>
    match isPrime num with
    | none => none
    | some true => some num
    | some false => nextPrimeLoop fuel ((num + 2) % UINT_MOD)

/-- The function `nextPrime`. The loop steps through odd values of `unsigned int`, of which
there are `2 ^ 31`: a loop that has not stopped after that many rounds never stops. -/
def nextPrime (num : Nat) : Option Nat :=
  if num ≤ 2 then some 2
  else
    let num := if num % 2 = 0 then (num + 1) % UINT_MOD else num
    nextPrimeLoop (2 ^ 31) num

/-- No number from 2 up to (not including) `i` divides `n`. -/
def NoDivisorBelow (n i : Nat) : Prop := ∀ d, 2 ≤ d → d < i → ¬ d ∣ n

/-- The number `p` is the smallest prime that is at least `n`. -/
def IsSmallestPrimeGE (n p : Nat) : Prop := p.Prime ∧ n ≤ p ∧ ∀ q, q.Prime → n ≤ q → p ≤ q

/-! ## Data model -/

/-- The structure `Course`. -/
structure Course where
  courseNumber : String
  name : String
  prerequisites : List String
  deriving DecidableEq

/-- The value of `Course()`: what `searchCourse` returns when nothing is found. -/
def emptyCourse : Course := ⟨"", "", []⟩

/-- A node of a chain, without its `next` pointer. -/
structure ChainNode where
  course : Course
  key : Nat
  deriving DecidableEq

/-- A bucket head (`Node` stored inline in `buckets`): its own fields and the chain that
hangs from `next`. -/
structure Node where
  course : Course
  key : Nat
  next : List ChainNode
  deriving DecidableEq

/-- The value of the default constructor `Node()`. -/
def Node.empty : Node := ⟨emptyCourse, UINT_MAX, []⟩

/-- The class `CourseHashTable`: its three data members (`maxChainLength` is a constant). -/
structure CourseHashTable where
  buckets : List Node
  tableSize : Nat
  numElements : Nat
  deriving DecidableEq

/-- The member `maxChainLength`. -/
def maxChainLength : Nat := 4

/-- What went wrong in a run that did not return a value. -/
inductive Fault where
  /-- The exception `std::out_of_range` thrown by `buckets.at(key)`. -/
  | outOfRange
  /-- The fuel of the model ran out. -/
  | fuel
  deriving DecidableEq

/-- The lines that `Insert` and `reSize` write to `cout`. -/
inductive Out where
  /-- The line "Chain length n exceeds threshold." -/
  | chainExceeds (chainLength : Nat)
  /-- The line "Resizing hash table from a to b buckets." -/
  | resizing (oldSize newSize : Nat)
  deriving DecidableEq

deriving instance DecidableEq for Except

/-- The result of a call that changes the table: the new table and the lines printed. -/
abbrev Run := Except Fault (CourseHashTable × List Out)

namespace CourseHashTable

/-- The size constructor `CourseHashTable(unsigned int size)`. -/
def ofSize (size : Nat) : CourseHashTable :=
  ⟨List.replicate size Node.empty, size, 0⟩

/-- The default constructor `CourseHashTable()`. -/
def default : CourseHashTable := ofSize DEFAULT_SIZE

/-- The conversion of a `char` to `unsigned int` in `hashValue * 31 + currChar`: `char` is
signed, so a code of 128 or more is a negative value and wraps. -/
def charValue (c : Char) : Nat :=
  if c.toNat < 128 then c.toNat else UINT_MOD - 256 + c.toNat % 256

/-- The local variable `hashValue` of `hash` after its loop, an `unsigned int`. -/
def hashValue (courseNumber : String) : Nat :=
  courseNumber.data.foldl (fun h c => (h * 31 + charValue c) % UINT_MOD) 0

/-- The member function `hash`. -/
def hash (t : CourseHashTable) (courseNumber : String) : Nat :=
  hashValue courseNumber % t.tableSize

/-- The member function `Size`. -/
def Size (t : CourseHashTable) : Nat := t.numElements

/-- The records of one bucket, head first, as the loops of `reSize` and `printAll` visit
them: nothing when the head is empty. -/
def bucketCourses (node : Node) : List Course :=
  if node.key ≠ UINT_MAX then node.course :: node.next.map (fun n => n.course) else []

/-- The records that the loops `for (i = 0; i < tableSize; i++)` of `reSize` and `printAll`
visit, in bucket order and then chain order. -/
def allCourses (t : CourseHashTable) : List Course :=
  (t.buckets.take t.tableSize).flatMap bucketCourses

/-- The `while` loop of `Insert` that walks the chain: the chain with the matching node
overwritten, or `none` when the end is reached without a match. -/
def chainUpdate (course : Course) : List ChainNode → Option (List ChainNode)
  | [] => none
  | n :: rest =>
    if n.course.courseNumber = course.courseNumber then some ({ n with course := course } :: rest)
    else (chainUpdate course rest).map (fun r => n :: r)

/-- The body of `Insert` down to the comment "check if resize is needed": the table as it
stands there, with the value of `chainLength` when a node was appended at the end of a chain,
and with `none` where the source has returned before (empty head filled, record updated). -/
def insertStep (t : CourseHashTable) (course : Course) :
    Except Fault (CourseHashTable × Option Nat) :=
  let key := t.hash course.courseNumber
  match t.buckets[key]? with
  | none => .error .outOfRange
  | some node =>
    if node.key = UINT_MAX then
      .ok ({ t with buckets := t.buckets.set key ⟨course, key, []⟩,
                    numElements := t.numElements + 1 }, none)
    else if node.course.courseNumber = course.courseNumber then
      .ok ({ t with buckets := t.buckets.set key { node with course := course } }, none)
    else
      match chainUpdate course node.next with
      | some next =>
        .ok ({ t with buckets := t.buckets.set key { node with next := next } }, none)
      | none =>
        .ok ({ t with buckets :=
                        t.buckets.set key { node with next := node.next ++ [⟨course, key⟩] },
                      numElements := t.numElements + 1 },
             some (1 + node.next.length + 1))

/-- The body of `Insert`, with the call of `reSize` taken as a parameter. -/
def InsertWith (reSize : CourseHashTable → Run) (t : CourseHashTable) (course : Course) : Run :=
  match insertStep t course with
  | .error e => .error e
  | .ok (t1, none) => .ok (t1, [])
  | .ok (t1, some chainLength) =>
    if chainLength > maxChainLength then
      match reSize t1 with
      | .ok (t2, out) => .ok (t2, Out.chainExceeds chainLength :: out)
      | .error e => .error e
    else .ok (t1, [])

/-- The rehash loop of `reSize`: the records are inserted one after another into the new
table, and the lines printed are collected. -/
def rehash (ins : CourseHashTable → Course → Run) :
    CourseHashTable × List Out → List Course → Run
  | acc, [] => .ok acc
  | (newTable, out), c :: cs =>
    match ins newTable c with
    | .ok (newTable1, out1) => rehash ins (newTable1, out ++ out1) cs
    | .error e => .error e

/-- The body of `reSize`, with the `Insert` of the new table taken as a parameter.
`tableSize * 2` is a `size_t` that is narrowed to the `unsigned int` parameter of
`nextPrime`. After the swap the table has the members of the new one. -/
def reSizeWith (ins : CourseHashTable → Course → Run) (t : CourseHashTable) : Run :=
  match nextPrime (((t.tableSize * 2) % SIZE_T_MOD) % UINT_MOD) with
  | none => .error .fuel
  | some newSize =>
    rehash ins (ofSize newSize, [Out.resizing t.tableSize newSize]) t.allCourses

/-- The member function `Insert`. One unit of fuel is used for each level of the recursion
`Insert`, `reSize`, `Insert`. -/
def Insert : Nat → CourseHashTable → Course → Run
  | 0, _, _ => .error .fuel
  | fuel + 1, t, course => InsertWith (reSizeWith (Insert fuel)) t course

/-- The member function `reSize`, called from an `Insert` that has `fuel + 1` units. -/
def reSize (fuel : Nat) (t : CourseHashTable) : Run := reSizeWith (Insert fuel) t

/-- The loop of `searchCourse` over the head and its chain. -/
def searchChain (courseNumber : String) : List Course → Course
  | [] => emptyCourse
  | c :: rest => if c.courseNumber = courseNumber then c else searchChain courseNumber rest

/-- The member function `searchCourse`. -/
def searchCourse (t : CourseHashTable) (courseNumber : String) : Except Fault Course :=
  let key := t.hash courseNumber
  match t.buckets[key]? with
  | none => .error .outOfRange
  | some node =>
    if node.key = UINT_MAX then .ok emptyCourse
    else .ok (searchChain courseNumber (node.course :: node.next.map (fun n => n.course)))

/-- The order `operator<` of `std::string`: the strings are compared character by character
as unsigned values, and a proper beginning of a string is less than the string. -/
def stringLt : List Char → List Char → Bool
  | _, [] => false
  | [], _ :: _ => true
  | a :: s, b :: r =>
    if a.toNat < b.toNat then true else if b.toNat < a.toNat then false else stringLt s r

/-- The comparison that `printAll` passes to `std::sort`:
`a.courseNumber < b.courseNumber`. -/
def courseLt (a b : Course) : Bool := stringLt a.courseNumber.data b.courseNumber.data

/-- Insertion of one record into an ordered list: after the records that are not greater. -/
def sortInsert (c : Course) : List Course → List Course
  | [] => [c]
  | d :: rest => if courseLt c d = true then c :: d :: rest else d :: sortInsert c rest

/-- The call `std::sort(allCourses.begin(), allCourses.end(), cmp)` of the standard library,
taken as a sort by insertion with the comparison `cmp = courseLt`. -/
def sortCourses : List Course → List Course
  | [] => []
  | c :: rest => sortInsert c (sortCourses rest)

/-- The member function `printAll`: the list of records that it prints, in order (for each it
prints the number and the name, and at the end the length of the list). -/
def printAll (t : CourseHashTable) : List Course := sortCourses t.allCourses

/-- The member function `Clear`. -/
def Clear (t : CourseHashTable) : CourseHashTable :=
  { t with buckets := (t.buckets.take t.tableSize).map (fun _ => Node.empty)
                        ++ t.buckets.drop t.tableSize,
           numElements := 0 }

/-- Successive calls of `Insert` with the records of a list, each with the same fuel. -/
def insertAll (fuel : Nat) : CourseHashTable × List Out → List Course → Run
  | acc, [] => .ok acc
  | (t, out), c :: cs =>
    match Insert fuel t c with
    | .ok (t1, out1) => insertAll fuel (t1, out ++ out1) cs
    | .error e => .error e

/-! ## The loader -/

/-- The characters that `trim` skips: space, tab, newline and carriage return. -/
def isSpaceChar (c : Char) : Bool :=
  c.toNat = 32 ∨ c.toNat = 9 ∨ c.toNat = 10 ∨ c.toNat = 13

/-- The function `trim` on the characters of the text: what lies between the first and the
last character that is not skipped, and nothing when all are skipped. -/
def trimChars (text : List Char) : List Char :=
  ((text.dropWhile isSpaceChar).reverse.dropWhile isSpaceChar).reverse

/-- The function `trim`. -/
def trim (text : String) : String := ⟨trimChars text.data⟩

/-- The loop `while (getline(parse, field, ','))` of `splitCSV` over the characters left in
the stream, with the characters of the field read so far. A comma ends a field; at the end
of the stream `getline` gives the field read if it has a character and fails if not. -/
def splitCSVLoop : List Char → List Char → List String
  | [], field => if field = [] then [] else [trim ⟨field⟩]
  | c :: rest, field =>
    if c = ',' then trim ⟨field⟩ :: splitCSVLoop rest [] else splitCSVLoop rest (field ++ [c])

/-- The function `splitCSV`. -/
def splitCSV (line : String) : List String := splitCSVLoop line.data []

/-- The function `containsDigit`: `isdigit` holds of the characters `0` to `9`. -/
def containsDigit (course : String) : Bool :=
  course.data.any (fun c => 48 ≤ c.toNat ∧ c.toNat ≤ 57)

/-- The loop "add prerequisites" of `loadCourses` over the fields after the second: the
list of prerequisites, or `none` when the loop has met a token that it rejects. -/
def parsePrereqs : List String → Option (List String)
  | [] => some []
  | prereq :: rest =>
    if prereq = "" then parsePrereqs rest
    else if prereq.length < 4 ∨ containsDigit prereq = false then none
    else (parsePrereqs rest).map (fun ps => prereq :: ps)

/-- The part of the loop body of `loadCourses` from `splitCSV` to the end of the loop over
the prerequisites: the course object built from the line, or `none` where the source prints
an error, clears the table and returns false. -/
def parseLine (line : String) : Option Course :=
  let fields := splitCSV line
  if fields.length < 2 then none
  else
    match fields with
    | f0 :: f1 :: more =>
      if f0 = "" ∨ f1 = "" then none
      else (parsePrereqs more).map (fun ps => ⟨f0, f1, ps⟩)
    | _ => none

/-- The loop `while (getline(file, line))` of `loadCourses` over the lines left in the file,
with the set `courseNumbers`, the vector `courses` and the table: `none` with the cleared
table where the source returns false inside the loop, and the final `courseNumbers` and
`courses` with the table when the loop has run to the end of the file. -/
def loadLoop (fuel : Nat) : List String → List String → List Course → CourseHashTable →
    Except Fault (Option (List String × List Course) × CourseHashTable)
  | [], courseNumbers, courses, ht => .ok (some (courseNumbers, courses), ht)
  | line :: rest, courseNumbers, courses, ht =>
    if line = "" then loadLoop fuel rest courseNumbers courses ht
    else
      match parseLine line with
      | none => .ok (none, ht.Clear)
      | some course =>
        if course.courseNumber ∈ courseNumbers then .ok (none, ht.Clear)
        else
          match Insert fuel ht course with
          | .error e => .error e
          | .ok (ht1, _) =>
            loadLoop fuel rest (course.courseNumber :: courseNumbers) (courses ++ [course]) ht1

/-- The function `loadCourses` on a file that has been opened, given as the list of its
lines: the value returned and the table. Each call of `Insert` gets `fuel` units. -/
def loadCourses (fuel : Nat) (lines : List String) (ht : CourseHashTable) :
    Except Fault (Bool × CourseHashTable) :=
  match loadLoop fuel lines [] [] ht.Clear with
  | .error e => .error e
  | .ok (none, ht1) => .ok (false, ht1)
  | .ok (some (courseNumbers, courses), ht1) =>
    if courses.all (fun course => course.prerequisites.all (fun prereq =>
        decide (prereq ∈ courseNumbers))) then .ok (true, ht1)
    else .ok (false, ht1.Clear)

/-- The loop of `loadCourses` accepts every line of the file, given the course numbers seen
before: each non-empty line yields a course object whose number has not been seen. -/
def Accepted : List String → List String → Prop
  | [], _ => True
  | line :: rest, courseNumbers =>
    if line = "" then Accepted rest courseNumbers
    else ∃ c, parseLine line = some c ∧ c.courseNumber ∉ courseNumbers ∧
      Accepted rest (c.courseNumber :: courseNumbers)

/-- The course number that a line carries: its first field, trimmed. -/
def lineId (line : String) : Option String := (splitCSV line).head?

/-- Some line of the file carries the course number of an earlier line. -/
def HasDuplicate (lines : List String) : Prop :=
  ∃ (i j : Nat) (a b k : String), i < j ∧ lines[i]? = some a ∧ lines[j]? = some b ∧
    b ≠ "" ∧ lineId a = some k ∧ lineId b = some k

/-- The value of the polynomial `c_0 * 31^(n-1) + ... + c_(n-1)` of the character codes,
computed over the natural numbers by `h := 31 * h + c` from `h = 0`. -/
def polyValue (courseNumber : String) : Nat :=
  courseNumber.data.foldl (fun h c => 31 * h + c.toNat) 0

/-- The slots of the table that hold a record: the occupied bucket heads and all chain
nodes. -/
def storedCourses (t : CourseHashTable) : List Course :=
  (t.buckets.take t.tableSize).flatMap (fun node =>
    (if node.key ≠ UINT_MAX then [node.course] else []) ++ node.next.map (fun n => n.course))

/-- The number of occupied bucket heads plus the number of chain nodes. -/
def occupiedSlots (t : CourseHashTable) : Nat :=
  ((t.buckets.take t.tableSize).filter (fun node => decide (node.key ≠ UINT_MAX))).length
    + ((t.buckets.take t.tableSize).map (fun node => node.next.length)).sum

/-! ## Specification vocabulary -/

/-- The course numbers of a list of records. -/
def ids (l : List Course) : List String := l.map (fun c => c.courseNumber)

/-- What `Insert` does to the records of one bucket: the record with the same number is
replaced, and a record with a new number is added at the end. -/
def upsert (c : Course) : List Course → List Course
  | [] => [c]
  | d :: rest => if d.courseNumber = c.courseNumber then c :: rest else d :: upsert c rest

/-- The state of bucket `i` of a table of `size` buckets is consistent: an empty head has no
chain, the `key` fields hold the index, every record hashes to the index, and no course
number occurs twice. -/
structure BucketWF (size i : Nat) (node : Node) : Prop where
  next_nil : node.key = UINT_MAX → node.next = []
  key_eq : node.key ≠ UINT_MAX → node.key = i
  next_key : ∀ n ∈ node.next, n.key = i
  placed : ∀ c ∈ bucketCourses node, hashValue c.courseNumber % size = i
  nodup : (ids (bucketCourses node)).Nodup

/-- The table is well formed: `buckets` has `tableSize` entries, `tableSize` is a prime that
fits `unsigned int`, every bucket is consistent and `numElements` counts the records. -/
structure WF (t : CourseHashTable) : Prop where
  length_eq : t.buckets.length = t.tableSize
  prime : t.tableSize.Prime
  size_lt : t.tableSize < UINT_MOD
  bucket : ∀ i node, t.buckets[i]? = some node → BucketWF t.tableSize i node
  count : t.numElements = t.allCourses.length

/-- No bucket holds more than `maxChainLength` records. -/
def ChainBound (t : CourseHashTable) : Prop :=
  ∀ node ∈ t.buckets, (bucketCourses node).length ≤ maxChainLength

/-- The invariant of the table between two calls. -/
def TableInv (t : CourseHashTable) : Prop := WF t ∧ ChainBound t

/-- The effect of a call on the stored records: the record is there, and the others are
those of before with a different course number. -/
def MemChar (t : CourseHashTable) (c : Course) (t1 : CourseHashTable) : Prop :=
  ∀ x, x ∈ t1.allCourses ↔ x = c ∨ (x ∈ t.allCourses ∧ x.courseNumber ≠ c.courseNumber)

/-- The call `Insert(course)` on `t` returns, leaving the table `t1` and having printed
`out`. -/
def Returns (t : CourseHashTable) (course : Course) (t1 : CourseHashTable) (out : List Out) :
    Prop :=
  ∃ fuel, Insert fuel t course = .ok (t1, out)

/-- The tables that a sequence of calls of `Insert` builds from the default table. -/
inductive InsertReachable : CourseHashTable → Prop
  | default : InsertReachable CourseHashTable.default
  | insert {t t1 : CourseHashTable} {out : List Out} (course : Course) :
      InsertReachable t → Returns t course t1 out → InsertReachable t1

/-- The tables that a sequence of calls of `Insert` and `Clear` builds from the default
table. -/
inductive Reachable : CourseHashTable → Prop
  | default : Reachable CourseHashTable.default
  | insert {t t1 : CourseHashTable} {out : List Out} (course : Course) :
      Reachable t → Returns t course t1 out → Reachable t1
  | clear {t : CourseHashTable} : Reachable t → Reachable t.Clear

/-- The tables that a sequence of calls of `Clear` and of `Insert` with records of non-empty
course number builds from the default table. These are the calls that the program makes:
`Insert` is called by `loadCourses`, after it has rejected a line whose course number is
empty, and by `reSize`, with the records of the table. -/
inductive ReachableNonEmpty : CourseHashTable → Prop
  | default : ReachableNonEmpty CourseHashTable.default
  | insert {t t1 : CourseHashTable} {out : List Out} (course : Course) :
      ReachableNonEmpty t → course.courseNumber ≠ "" → Returns t course t1 out →
      ReachableNonEmpty t1
  | clear {t : CourseHashTable} : ReachableNonEmpty t → ReachableNonEmpty t.Clear

/-- The records of a list that have the course number `k`. -/
def withNumber (k : String) (l : List Course) : List Course :=
  l.filter (fun x => decide (x.courseNumber = k))

/-- The number of calls of `reSize` that a piece of output reports. -/
def resizeCount (out : List Out) : Nat :=
  out.countP (fun o => match o with | .resizing _ _ => true | _ => false)

/-- The size that `reSize` chooses for a table of `size` buckets. -/
def growStep (size : Nat) : Option Nat := nextPrime (((size * 2) % SIZE_T_MOD) % UINT_MOD)

/-- The size after `k` successive calls of `reSize`, from a table of `size` buckets. -/
def growSteps : Nat → Nat → Option Nat
  | 0, size => some size
  | k + 1, size => (growStep size).bind (growSteps k)

/-- The table that successive calls of `Insert` with the records of a list build from the
default table (the default table itself when a call does not return within 8 levels). -/
def tableOf (cs : List Course) : CourseHashTable :=
  match insertAll 8 (CourseHashTable.default, []) cs with
  | .ok (t, _) => t
  | .error _ => CourseHashTable.default

/-- The table that `insertStep` leaves (the table itself when `at` throws). -/
def stepTable (t : CourseHashTable) (c : Course) : CourseHashTable :=
  match insertStep t c with
  | .ok (t1, _) => t1
  | .error _ => t

/-! ## Sample records -/

/-- The two records of scenario A. -/
def scenarioA : List Course :=
  [⟨"CS101", "Intro", []⟩, ⟨"CS201", "Data Structures", ["CS101"]⟩]

/-- Five records whose course numbers all hash to bucket 0 of a table of 31 buckets, and to
five different buckets of a table of 67. -/
def sameBucket31 : List Course :=
  [⟨"CSCI108", "Programming I", []⟩, ⟨"CSCI118", "Programming II", ["CSCI108"]⟩,
   ⟨"CSCI128", "Algorithms", ["CSCI118"]⟩, ⟨"CSCI138", "Databases", ["CSCI118"]⟩,
   ⟨"CSCI148", "Networks", ["CSCI128"]⟩]

/-- Five records whose course numbers all hash to bucket 23 of a table of 31 buckets and to
one bucket of a table of 67 buckets, but not to one bucket of a table of 137. -/
def sameBucket31and67 : List Course :=
  [⟨"CSCI100", "Computing", []⟩, ⟨"CSCI350", "Compilers", []⟩, ⟨"CSTH430", "Automata", []⟩,
   ⟨"CSYS440", "Systems", []⟩, ⟨"CSGL410", "Logic", []⟩]

/-- Five records whose course numbers all have the same `hashValue`. -/
def sameHashValue : List Course :=
  [⟨"AaAaAa", "One", []⟩, ⟨"AaAaBB", "Two", []⟩, ⟨"AaBBAa", "Three", []⟩,
   ⟨"AaBBBB", "Four", []⟩, ⟨"BBAaAa", "Five", []⟩]

/-- A file of six lines: five with the course numbers of `sameHashValue`, and a sixth that
repeats the course number of the first. -/
def sameHashValueLines : List String :=
  ["AaAaAa,One", "AaAaBB,Two", "AaBBAa,Three", "AaBBBB,Four", "BBAaAa,Five", "AaAaAa,Again"]

end CourseHashTable

open CourseHashTable

/-! ## Primality test -/

theorem prime_of_noDivisorBelow {n i : Nat} (hn : 2 ≤ n) (h : NoDivisorBelow n i)
    (hi : n < i * i) : n.Prime := by
  by_contra hp
  have h1 : n.minFac ^ 2 ≤ n := Nat.minFac_sq_le_self (by omega) hp
  have h2 : 2 ≤ n.minFac := (Nat.minFac_prime (by omega)).two_le
  have h3 : ¬ n.minFac < i := fun hlt => h _ h2 hlt (Nat.minFac_dvd n)
  have h4 : i * i ≤ n.minFac * n.minFac := Nat.mul_le_mul (by omega) (by omega)
  rw [pow_two] at h1
  omega

theorem noDivisorBelow_step {n i : Nat} (hi : 5 ≤ i) (hmod : i % 6 = 5)
    (h : NoDivisorBelow n i) (h0 : ¬ n % i = 0) (h2 : ¬ n % (i + 2) = 0) :
    NoDivisorBelow n (i + 6) := by
  intro d hd hlt hdvd
  have h2n : ¬ 2 ∣ n := h 2 (by omega) (by omega)
  have h3n : ¬ 3 ∣ n := h 3 (by omega) (by omega)
  by_cases hdi : d < i
  · exact h d hd hdi hdvd
  · have hcases : d = i ∨ d = i + 1 ∨ d = i + 2 ∨ d = i + 3 ∨ d = i + 4 ∨ d = i + 5 := by omega
    rcases hcases with rfl | rfl | rfl | rfl | rfl | rfl
    · exact h0 (Nat.mod_eq_zero_of_dvd hdvd)
    · exact h2n (Nat.dvd_trans (by omega) hdvd)
    · exact h2 (Nat.mod_eq_zero_of_dvd hdvd)
    · exact h2n (Nat.dvd_trans (by omega) hdvd)
    · exact h3n (Nat.dvd_trans (by omega) hdvd)
    · exact h2n (Nat.dvd_trans (by omega) hdvd)

theorem isPrimeLoop_eq {n : Nat} (hn : n < UINT_MOD) (hn2 : 2 ≤ n) :
    ∀ fuel i, 5 ≤ i → i % 6 = 5 → i ≤ n + 6 → n + 7 ≤ i + 6 * fuel → NoDivisorBelow n i →
      isPrimeLoop n fuel i = some (decide n.Prime) := by
  intro fuel
  induction fuel with
  | zero => intro i _ _ h1 h2 _; omega
  | succ fuel ih =>
    intro i hi hmod hle hfuel hno
    have hU : UINT_MOD = 4294967296 := by norm_num [UINT_MOD]
    have hS : SIZE_T_MOD = 18446744073709551616 := by norm_num [SIZE_T_MOD]
    unfold isPrimeLoop
    by_cases hg : i ≤ n / i
    · have hsq : i * i ≤ n := (Nat.le_div_iff_mul_le (by omega)).1 hg
      have hin : i ≤ n := le_trans hg (Nat.div_le_self _ _)
      have hlt2 : i + 2 < n := by nlinarith
      have e2 : (i + 2) % SIZE_T_MOD = i + 2 := Nat.mod_eq_of_lt (by omega)
      have e6 : (i + 6) % SIZE_T_MOD = i + 6 := Nat.mod_eq_of_lt (by omega)
      rw [if_pos hg, e2, e6]
      by_cases hd : n % i = 0 ∨ n % (i + 2) = 0
      · rw [if_pos hd]
        have hnp : ¬ n.Prime := by
          intro hp
          rcases hd with hd | hd
          · rcases (Nat.dvd_prime hp).1 (Nat.dvd_of_mod_eq_zero hd) with h | h <;> omega
          · rcases (Nat.dvd_prime hp).1 (Nat.dvd_of_mod_eq_zero hd) with h | h <;> omega
        simp [hnp]
      · rw [if_neg hd]
        push_neg at hd
        exact ih (i + 6) (by omega) (by omega) (by omega) (by omega)
          (noDivisorBelow_step hi hmod hno hd.1 hd.2)
    · rw [if_neg hg]
      have hsq : n < i * i := by
        by_contra hc
        exact hg ((Nat.le_div_iff_mul_le (by omega)).2 (by omega))
      simp [prime_of_noDivisorBelow hn2 hno hsq]

/-- On `unsigned int` arguments `isPrime` returns, and its value is whether the argument is
prime. -/
theorem isPrime_eq {n : Nat} (hn : n < UINT_MOD) : isPrime n = some (decide n.Prime) := by
  unfold isPrime
  by_cases h1 : n ≤ 1
  · have : ¬ n.Prime := fun hp => by have := hp.two_le; omega
    simp [h1, this]
  · rw [if_neg h1]
    by_cases h3 : n ≤ 3
    · have : n.Prime := by
        have : n = 2 ∨ n = 3 := by omega
        rcases this with rfl | rfl
        · exact Nat.prime_two
        · exact Nat.prime_three
      simp [h3, this]
    · rw [if_neg h3]
      by_cases h23 : n % 2 = 0 ∨ n % 3 = 0
      · rw [if_pos h23]
        have hnp : ¬ n.Prime := by
          intro hp
          rcases h23 with hd | hd
          · rcases (Nat.dvd_prime hp).1 (Nat.dvd_of_mod_eq_zero hd) with h | h <;> omega
          · rcases (Nat.dvd_prime hp).1 (Nat.dvd_of_mod_eq_zero hd) with h | h <;> omega
        simp [hnp]
      · rw [if_neg h23]
        push_neg at h23
        apply isPrimeLoop_eq hn (by omega) n 5 (by omega) (by omega) (by omega) (by omega)
        intro d hd hlt hdvd
        have hcases : d = 2 ∨ d = 3 ∨ d = 4 := by omega
        rcases hcases with rfl | rfl | rfl
        · exact h23.1 (Nat.mod_eq_zero_of_dvd hdvd)
        · exact h23.2 (Nat.mod_eq_zero_of_dvd hdvd)
        · exact h23.1 (Nat.mod_eq_zero_of_dvd (Nat.dvd_trans (by omega) hdvd))

namespace CourseHashTable

/-! ## Records of a bucket -/

theorem mem_ids {l : List Course} {k : String} :
    k ∈ ids l ↔ ∃ x ∈ l, x.courseNumber = k := by
  simp [ids]

theorem mem_upsert {c : Course} {l : List Course} (hl : (ids l).Nodup) (x : Course) :
    x ∈ upsert c l ↔ x = c ∨ (x ∈ l ∧ x.courseNumber ≠ c.courseNumber) := by
  induction l with
  | nil => simp [upsert]
  | cons d rest ih =>
    have hnd : (ids rest).Nodup := by
      simp only [ids, List.map_cons, List.nodup_cons] at hl ⊢; exact hl.2
    have hd : d.courseNumber ∉ ids rest := by
      simp only [ids, List.map_cons, List.nodup_cons] at hl ⊢; exact hl.1
    unfold upsert
    by_cases h : d.courseNumber = c.courseNumber
    · rw [if_pos h]
      simp only [List.mem_cons]
      constructor
      · rintro (rfl | hx)
        · exact Or.inl rfl
        · refine Or.inr ⟨Or.inr hx, fun hxc => hd ?_⟩
          rw [h, ← hxc]; exact mem_ids.2 ⟨x, hx, rfl⟩
      · rintro (rfl | ⟨rfl | hx, hne⟩)
        · exact Or.inl rfl
        · exact absurd h hne
        · exact Or.inr hx
    · rw [if_neg h]
      simp only [List.mem_cons, ih hnd]
      constructor
      · rintro (rfl | rfl | ⟨hx, hne⟩)
        · exact Or.inr ⟨Or.inl rfl, h⟩
        · exact Or.inl rfl
        · exact Or.inr ⟨Or.inr hx, hne⟩
      · rintro (rfl | ⟨rfl | hx, hne⟩)
        · exact Or.inr (Or.inl rfl)
        · exact Or.inl rfl
        · exact Or.inr (Or.inr ⟨hx, hne⟩)

theorem upsert_of_not_mem {c : Course} {l : List Course} (h : c.courseNumber ∉ ids l) :
    upsert c l = l ++ [c] := by
  induction l with
  | nil => rfl
  | cons d rest ih =>
    simp only [ids, List.map_cons, List.mem_cons, not_or] at h
    unfold upsert
    rw [if_neg (fun e => h.1 e.symm), ih h.2]; rfl

theorem ids_upsert_of_mem {c : Course} {l : List Course} (h : c.courseNumber ∈ ids l) :
    ids (upsert c l) = ids l := by
  induction l with
  | nil => simp [ids] at h
  | cons d rest ih =>
    unfold upsert
    by_cases hd : d.courseNumber = c.courseNumber
    · rw [if_pos hd]; simp [ids, hd]
    · rw [if_neg hd]
      have : c.courseNumber ∈ ids rest := by
        simp only [ids, List.map_cons, List.mem_cons] at h
        rcases h with h | h
        · exact absurd h.symm hd
        · exact h
      simp only [ids, List.map_cons] at ih ⊢
      rw [ih this]

theorem nodup_ids_upsert {c : Course} {l : List Course} (hl : (ids l).Nodup) :
    (ids (upsert c l)).Nodup := by
  by_cases h : c.courseNumber ∈ ids l
  · rw [ids_upsert_of_mem h]; exact hl
  · rw [upsert_of_not_mem h]
    simp only [ids, List.map_append, List.map_cons, List.map_nil] at h ⊢
    exact List.Nodup.append hl (List.nodup_singleton _) (by simpa using h)

theorem length_upsert {c : Course} {l : List Course} :
    (upsert c l).length = l.length + if c.courseNumber ∈ ids l then 0 else 1 := by
  by_cases h : c.courseNumber ∈ ids l
  · rw [if_pos h]
    have := congrArg List.length (ids_upsert_of_mem h)
    simpa [ids] using this
  · rw [if_neg h, upsert_of_not_mem h]; simp

theorem chainUpdate_none {c : Course} {ns : List ChainNode} (h : chainUpdate c ns = none) :
    c.courseNumber ∉ ids (ns.map (fun n => n.course)) := by
  induction ns with
  | nil => simp [ids]
  | cons n rest ih =>
    unfold chainUpdate at h
    by_cases hn : n.course.courseNumber = c.courseNumber
    · rw [if_pos hn] at h; exact absurd h (by simp)
    · rw [if_neg hn] at h
      have h1 : chainUpdate c rest = none := by simpa using h
      have := ih h1
      simp only [ids, List.map_cons, List.mem_cons, not_or, List.map_map] at this ⊢
      exact ⟨fun e => hn e.symm, this⟩

theorem chainUpdate_some {c : Course} {ns ns1 : List ChainNode} (h : chainUpdate c ns = some ns1) :
    ns1.map (fun n => n.course) = upsert c (ns.map (fun n => n.course)) ∧
      ns1.map (fun n => n.key) = ns.map (fun n => n.key) ∧
      c.courseNumber ∈ ids (ns.map (fun n => n.course)) := by
  induction ns generalizing ns1 with
  | nil => simp [chainUpdate] at h
  | cons n rest ih =>
    unfold chainUpdate at h
    by_cases hn : n.course.courseNumber = c.courseNumber
    · rw [if_pos hn] at h
      cases h
      simp [upsert, hn, ids]
    · rw [if_neg hn] at h
      cases hr : chainUpdate c rest with
      | none => rw [hr] at h; simp at h
      | some r =>
        rw [hr] at h
        simp only [Option.map_some', Option.some.injEq] at h
        subst h
        obtain ⟨h1, h2, h3⟩ := ih hr
        refine ⟨?_, ?_, ?_⟩
        · simp only [List.map_cons, upsert, if_neg hn, h1]
        · simp only [List.map_cons, h2]
        · simp only [ids, List.map_cons, List.mem_cons] at h3 ⊢
          exact Or.inr h3
/-! ## Records of a table -/

theorem allCourses_eq {t : CourseHashTable} (hlen : t.buckets.length = t.tableSize) :
    t.allCourses = t.buckets.flatMap bucketCourses := by
  unfold allCourses
  rw [List.take_of_length_le (by omega)]

theorem mem_allCourses {t : CourseHashTable} (hlen : t.buckets.length = t.tableSize)
    (x : Course) :
    x ∈ t.allCourses ↔ ∃ (i : Nat) (node : Node), t.buckets[i]? = some node ∧ x ∈ bucketCourses node := by
  rw [allCourses_eq hlen, List.mem_flatMap]
  constructor
  · rintro ⟨node, hn, hx⟩
    obtain ⟨i, hi⟩ := List.mem_iff_getElem?.1 hn
    exact ⟨i, node, hi, hx⟩
  · rintro ⟨i, node, hi, hx⟩
    exact ⟨node, List.mem_iff_getElem?.2 ⟨i, hi⟩, hx⟩

theorem mem_bucket_of_mem {t : CourseHashTable} (hlen : t.buckets.length = t.tableSize)
    (hb : ∀ (i : Nat) (node : Node), t.buckets[i]? = some node → BucketWF t.tableSize i node)
    {x : Course} (hx : x ∈ t.allCourses) :
    ∃ node, t.buckets[t.hash x.courseNumber]? = some node ∧ x ∈ bucketCourses node := by
  obtain ⟨i, node, hi, hxn⟩ := (mem_allCourses hlen x).1 hx
  have := (hb i node hi).placed x hxn
  refine ⟨node, ?_, hxn⟩
  unfold hash
  rw [this]; exact hi

theorem nodup_ids_allCourses {t : CourseHashTable} (hlen : t.buckets.length = t.tableSize)
    (hb : ∀ (i : Nat) (node : Node), t.buckets[i]? = some node → BucketWF t.tableSize i node) :
    (ids t.allCourses).Nodup := by
  rw [allCourses_eq hlen]
  unfold ids
  rw [List.map_flatMap, List.nodup_flatMap]
  constructor
  · intro node hn
    obtain ⟨i, hi⟩ := List.mem_iff_getElem?.1 hn
    exact (hb i node hi).nodup
  · rw [List.pairwise_iff_getElem]
    intro i j hi hj hij
    have h1 := hb i _ (List.getElem?_eq_getElem hi)
    have h2 := hb j _ (List.getElem?_eq_getElem hj)
    show List.Disjoint _ _
    intro k hk1 hk2
    obtain ⟨x, hx, rfl⟩ := List.mem_map.1 hk1
    obtain ⟨y, hy, hxy⟩ := List.mem_map.1 hk2
    have e1 := h1.placed x hx
    have e2 := h2.placed y hy
    rw [hxy] at e2
    omega

theorem length_filter_ne {l : List Course} (hl : (ids l).Nodup) (k : String) :
    (l.filter (fun x => decide (¬ x.courseNumber = k))).length + (if k ∈ ids l then 1 else 0)
      = l.length := by
  induction l with
  | nil => simp [ids]
  | cons d rest ih =>
    simp only [ids, List.map_cons, List.nodup_cons] at hl
    have ih1 := ih hl.2
    by_cases hd : d.courseNumber = k
    · have hk : k ∉ ids rest := by rw [← hd]; exact hl.1
      rw [if_neg hk] at ih1
      have hk1 : k ∈ ids (d :: rest) := by simp [ids, hd]
      rw [if_pos hk1, List.filter_cons_of_neg (by simp [hd]), List.length_cons]
      omega
    · have hiff : (k ∈ ids (d :: rest)) ↔ k ∈ ids rest := by
        simp only [ids, List.map_cons, List.mem_cons]
        constructor
        · rintro (h | h)
          · exact absurd h.symm hd
          · exact h
        · exact Or.inr
      rw [List.filter_cons_of_pos (by simp [hd]), List.length_cons, List.length_cons]
      simp only [hiff]
      omega

/-- A list with the members of another after `Insert` has one more element exactly when the
course number is new. -/
theorem length_of_mem_iff {l l1 : List Course} {c : Course} (hl : (ids l).Nodup)
    (hl1 : (ids l1).Nodup)
    (h : ∀ x, x ∈ l1 ↔ x = c ∨ (x ∈ l ∧ x.courseNumber ≠ c.courseNumber)) :
    l1.length = l.length + if c.courseNumber ∈ ids l then 0 else 1 := by
  have n1 : l1.Nodup := List.Nodup.of_map _ hl1
  have n0 : l.Nodup := List.Nodup.of_map _ hl
  have n2 : (c :: l.filter (fun x => decide (¬ x.courseNumber = c.courseNumber))).Nodup := by
    rw [List.nodup_cons]
    refine ⟨?_, n0.filter _⟩
    simp [List.mem_filter]
  have hp : l1.Perm (c :: l.filter (fun x => decide (¬ x.courseNumber = c.courseNumber))) := by
    rw [List.perm_ext_iff_of_nodup n1 n2]
    intro x
    rw [h x]
    simp [List.mem_filter]
  have := length_filter_ne hl c.courseNumber
  rw [hp.length_eq, List.length_cons]
  split_ifs at this ⊢ <;> omega
/-! ## One step of `Insert` -/

theorem bucketCourses_of_ne {node : Node} (h : node.key ≠ UINT_MAX) :
    bucketCourses node = node.course :: node.next.map (fun n => n.course) := by
  unfold bucketCourses; rw [if_pos h]

theorem bucketCourses_of_eq {node : Node} (h : node.key = UINT_MAX) :
    bucketCourses node = [] := by
  unfold bucketCourses; rw [if_neg (by simpa using h)]

/-- The shape of the result of `insertStep`: the bucket of the course number is replaced by
one whose records are the `upsert` of the old ones. -/
theorem insertStep_shape {t : CourseHashTable} {c : Course} {node : Node}
    (hget : t.buckets[t.hash c.courseNumber]? = some node)
    (hb : BucketWF t.tableSize (t.hash c.courseNumber) node)
    (hk : t.hash c.courseNumber ≠ UINT_MAX) :
    ∃ node1 : Node,
      insertStep t c = .ok
        (⟨t.buckets.set (t.hash c.courseNumber) node1, t.tableSize,
          t.numElements + if c.courseNumber ∈ ids (bucketCourses node) then 0 else 1⟩,
         if c.courseNumber ∈ ids (bucketCourses node) ∨ node.key = UINT_MAX then none
         else some ((bucketCourses node).length + 1)) ∧
      node1.key = t.hash c.courseNumber ∧
      (∀ n ∈ node1.next, n.key = t.hash c.courseNumber) ∧
      bucketCourses node1 = upsert c (bucketCourses node) := by
  unfold insertStep
  simp only [hget]
  by_cases he : node.key = UINT_MAX
  · refine ⟨⟨c, t.hash c.courseNumber, []⟩, ?_, rfl, by simp, ?_⟩
    · simp [he, bucketCourses_of_eq he, ids]
    · rw [bucketCourses_of_eq he, bucketCourses_of_ne hk]; rfl
  · rw [if_neg he]
    have hbc := bucketCourses_of_ne he
    by_cases hh : node.course.courseNumber = c.courseNumber
    · refine ⟨{ node with course := c }, ?_, hb.key_eq he, hb.next_key, ?_⟩
      · have : c.courseNumber ∈ ids (bucketCourses node) := by
          rw [hbc]; simp [ids, hh]
        simp [hh, this]
      · rw [hbc, bucketCourses_of_ne (by exact he)]
        simp [upsert, hh]
    · rw [if_neg hh]
      cases hu : chainUpdate c node.next with
      | some next =>
        obtain ⟨h1, h2, h3⟩ := chainUpdate_some hu
        refine ⟨{ node with next := next }, ?_, hb.key_eq he, ?_, ?_⟩
        · have : c.courseNumber ∈ ids (bucketCourses node) := by
            rw [hbc]
            simp only [ids, List.map_cons, List.mem_cons] at h3 ⊢
            exact Or.inr h3
          simp [this]
        · intro n hn
          have : n.key ∈ next.map (fun n => n.key) := List.mem_map.2 ⟨n, hn, rfl⟩
          rw [h2] at this
          obtain ⟨m, hm, hmk⟩ := List.mem_map.1 this
          rw [← hmk]; exact hb.next_key m hm
        · rw [hbc, bucketCourses_of_ne (by exact he)]
          simp only [upsert, if_neg hh, h1]
      | none =>
        have h3 := chainUpdate_none hu
        have hnot : c.courseNumber ∉ ids (bucketCourses node) := by
          rw [hbc]
          simp only [ids, List.map_cons, List.mem_cons, not_or] at h3 ⊢
          exact ⟨fun e => hh e.symm, h3⟩
        refine ⟨{ node with next := node.next ++ [⟨c, t.hash c.courseNumber⟩] }, ?_,
          hb.key_eq he, ?_, ?_⟩
        · have e1 : 1 + node.next.length + 1 = (bucketCourses node).length + 1 := by
            rw [hbc]; simp; omega
          have e2 : ¬ (c.courseNumber ∈ ids (bucketCourses node) ∨ node.key = UINT_MAX) := by
            rintro (h | h)
            · exact hnot h
            · exact he h
          rw [if_neg hnot, if_neg e2, e1]
        · intro n hn
          rcases List.mem_append.1 hn with h | h
          · exact hb.next_key n h
          · simp only [List.mem_singleton] at h; rw [h]
        · rw [upsert_of_not_mem hnot, hbc, bucketCourses_of_ne (by exact he)]
          simp
theorem hash_lt {t : CourseHashTable} (h : 0 < t.tableSize) (k : String) :
    t.hash k < t.tableSize := Nat.mod_lt _ h

theorem mem_ids_bucket_iff {t : CourseHashTable} (h : WF t) {node : Node} {k : String}
    (hget : t.buckets[t.hash k]? = some node) :
    k ∈ ids (bucketCourses node) ↔ k ∈ ids t.allCourses := by
  constructor
  · intro hk
    obtain ⟨x, hx, rfl⟩ := mem_ids.1 hk
    exact mem_ids.2 ⟨x, (mem_allCourses h.length_eq x).2 ⟨_, node, hget, hx⟩, rfl⟩
  · intro hk
    obtain ⟨x, hx, rfl⟩ := mem_ids.1 hk
    obtain ⟨node1, h1, h2⟩ := mem_bucket_of_mem h.length_eq h.bucket hx
    rw [hget] at h1
    cases h1
    exact mem_ids.2 ⟨x, h2, rfl⟩

/-- What `insertStep` does to a well-formed table. -/
theorem insertStep_spec {t : CourseHashTable} (c : Course) (h : WF t) :
    ∃ (t1 : CourseHashTable) (r : Option Nat) (node : Node),
      t.buckets[t.hash c.courseNumber]? = some node ∧
      insertStep t c = .ok (t1, r) ∧ WF t1 ∧ t1.tableSize = t.tableSize ∧
      (∀ x, x ∈ t1.allCourses ↔
        x = c ∨ (x ∈ t.allCourses ∧ x.courseNumber ≠ c.courseNumber)) ∧
      (r = if c.courseNumber ∈ ids t.allCourses ∨ node.key = UINT_MAX then none
           else some ((bucketCourses node).length + 1)) ∧
      (∀ nd ∈ t1.buckets, nd ∈ t.buckets ∨ bucketCourses nd = upsert c (bucketCourses node)) := by
  have hpos : 0 < t.tableSize := h.prime.pos
  have hlt := hash_lt hpos c.courseNumber
  have hlen := h.length_eq
  have hget : t.buckets[t.hash c.courseNumber]? = some (t.buckets[t.hash c.courseNumber]) :=
    List.getElem?_eq_getElem (by omega)
  generalize t.buckets[t.hash c.courseNumber] = node at hget
  have hb := h.bucket _ _ hget
  have hU : UINT_MOD = 4294967296 := by norm_num [UINT_MOD]
  have hM : UINT_MAX = 4294967295 := by norm_num [UINT_MAX]
  have hsz := h.size_lt
  have hk : t.hash c.courseNumber ≠ UINT_MAX := by omega
  obtain ⟨node1, hstep, hkey, hnext, hbc⟩ := insertStep_shape hget hb hk
  have hiff := mem_ids_bucket_iff h hget
  have hlen1 : (t.buckets.set (t.hash c.courseNumber) node1).length = t.tableSize := by
    rw [List.length_set]; exact hlen
  have hb1 : ∀ (i : Nat) (nd : Node),
      (t.buckets.set (t.hash c.courseNumber) node1)[i]? = some nd →
        BucketWF t.tableSize i nd := by
    intro i nd hi
    rw [List.getElem?_set] at hi
    by_cases hik : t.hash c.courseNumber = i
    · rw [if_pos hik, if_pos (by omega)] at hi
      cases hi
      subst hik
      refine ⟨fun e => absurd (hkey ▸ e) hk, fun _ => hkey, hnext, ?_, ?_⟩
      · intro x hx
        rw [hbc, mem_upsert hb.nodup] at hx
        rcases hx with rfl | ⟨hx, _⟩
        · rfl
        · exact hb.placed x hx
      · rw [hbc]; exact nodup_ids_upsert hb.nodup
    · rw [if_neg hik] at hi
      exact h.bucket i nd hi
  have hmem : ∀ x, x ∈ (⟨t.buckets.set (t.hash c.courseNumber) node1, t.tableSize,
      t.numElements + if c.courseNumber ∈ ids (bucketCourses node) then 0 else 1⟩ :
        CourseHashTable).allCourses ↔
      x = c ∨ (x ∈ t.allCourses ∧ x.courseNumber ≠ c.courseNumber) := by
    intro x
    rw [mem_allCourses hlen1, mem_allCourses hlen]
    constructor
    · rintro ⟨i, nd, hi, hx⟩
      simp only at hi
      rw [List.getElem?_set] at hi
      by_cases hik : t.hash c.courseNumber = i
      · rw [if_pos hik, if_pos (by omega)] at hi
        cases hi
        rw [hbc, mem_upsert hb.nodup] at hx
        rcases hx with rfl | ⟨hx, hne⟩
        · exact Or.inl rfl
        · exact Or.inr ⟨⟨_, node, hget, hx⟩, hne⟩
      · rw [if_neg hik] at hi
        refine Or.inr ⟨⟨i, nd, hi, hx⟩, fun e => hik ?_⟩
        have := (h.bucket i nd hi).placed x hx
        rw [e] at this
        exact this
    · rintro (rfl | ⟨⟨i, nd, hi, hx⟩, hne⟩)
      · refine ⟨t.hash x.courseNumber, node1, ?_, ?_⟩
        · simp only
          rw [List.getElem?_set, if_pos rfl, if_pos (by omega)]
        · rw [hbc, mem_upsert hb.nodup]; exact Or.inl rfl
      · by_cases hik : t.hash c.courseNumber = i
        · refine ⟨i, node1, ?_, ?_⟩
          · simp only
            rw [List.getElem?_set, if_pos hik, if_pos (by omega)]
          · subst hik
            rw [hget] at hi
            cases hi
            rw [hbc, mem_upsert hb.nodup]; exact Or.inr ⟨hx, hne⟩
        · refine ⟨i, nd, ?_, hx⟩
          simp only
          rw [List.getElem?_set, if_neg hik]; exact hi
  refine ⟨_, _, node, hget, hstep, ?_, rfl, hmem, ?_, ?_⟩
  · refine ⟨hlen1, h.prime, h.size_lt, hb1, ?_⟩
    have n1 := nodup_ids_allCourses (t := ⟨t.buckets.set (t.hash c.courseNumber) node1,
      t.tableSize, t.numElements + if c.courseNumber ∈ ids (bucketCourses node) then 0 else 1⟩)
      hlen1 hb1
    have n0 := nodup_ids_allCourses hlen h.bucket
    rw [length_of_mem_iff n0 n1 hmem, ← h.count]
    simp only [hiff]
  · simp only [hiff]
  · intro nd hnd
    obtain ⟨i, hi⟩ := List.mem_iff_getElem?.1 hnd
    simp only at hi
    rw [List.getElem?_set] at hi
    by_cases hik : t.hash c.courseNumber = i
    · rw [if_pos hik, if_pos (by omega)] at hi
      cases hi
      exact Or.inr hbc
    · rw [if_neg hik] at hi
      exact Or.inl (List.mem_iff_getElem?.2 ⟨i, hi⟩)
theorem chainBound_of_step {t t1 : CourseHashTable} {c : Course} {node : Node} {r : Option Nat}
    (h : WF t) (hcb : ChainBound t) (hget : t.buckets[t.hash c.courseNumber]? = some node)
    (hr : r = if c.courseNumber ∈ ids t.allCourses ∨ node.key = UINT_MAX then none
           else some ((bucketCourses node).length + 1))
    (hnd : ∀ nd ∈ t1.buckets,
      nd ∈ t.buckets ∨ bucketCourses nd = upsert c (bucketCourses node))
    (hsmall : ∀ len, r = some len → len ≤ maxChainLength) : ChainBound t1 := by
  intro nd hmem
  rcases hnd nd hmem with h1 | h1
  · exact hcb nd h1
  · rw [h1, length_upsert]
    have hnode := hcb node (List.mem_iff_getElem?.2 ⟨_, hget⟩)
    have hiff := mem_ids_bucket_iff h hget
    by_cases hin : c.courseNumber ∈ ids t.allCourses
    · rw [if_pos (hiff.2 hin)]; exact hnode
    · rw [if_neg (fun e => hin (hiff.1 e))]
      by_cases he : node.key = UINT_MAX
      · rw [bucketCourses_of_eq he]; simp [maxChainLength]
      · have : ¬ (c.courseNumber ∈ ids t.allCourses ∨ node.key = UINT_MAX) := by
          rintro (e | e)
          · exact hin e
          · exact he e
        rw [if_neg this] at hr
        exact hsmall _ hr

/-! ## Prime sizes -/

theorem nextPrimeLoop_sound : ∀ (fuel m p : Nat), m < UINT_MOD → nextPrimeLoop fuel m = some p →
    p.Prime ∧ p < UINT_MOD := by
  intro fuel
  induction fuel with
  | zero => intro m p _ h; simp [nextPrimeLoop] at h
  | succ fuel ih =>
    intro m p hm h
    unfold nextPrimeLoop at h
    rw [isPrime_eq hm] at h
    by_cases hp : m.Prime
    · simp only [hp, decide_True, Option.some.injEq] at h
      subst h; exact ⟨hp, hm⟩
    · simp only [hp, decide_False] at h
      exact ih _ p (Nat.mod_lt _ (by norm_num [UINT_MOD])) h

theorem nextPrime_sound {n p : Nat} (hn : n < UINT_MOD) (h : nextPrime n = some p) :
    p.Prime ∧ p < UINT_MOD := by
  unfold nextPrime at h
  by_cases h2 : n ≤ 2
  · rw [if_pos h2] at h
    cases h
    exact ⟨Nat.prime_two, by norm_num [UINT_MOD]⟩
  · rw [if_neg h2] at h
    refine nextPrimeLoop_sound _ _ p ?_ h
    split_ifs
    · exact Nat.mod_lt _ (by norm_num [UINT_MOD])
    · exact hn

/-! ## The empty table -/

theorem allCourses_ofSize (size : Nat) : (ofSize size).allCourses = [] := by
  unfold allCourses ofSize
  rw [List.flatMap_eq_nil_iff]
  intro node hn
  have := List.mem_of_mem_take hn
  rw [List.eq_of_mem_replicate this]
  rfl

theorem inv_ofSize {size : Nat} (hp : size.Prime) (hlt : size < UINT_MOD) : TableInv (ofSize size) := by
  refine ⟨⟨by simp [ofSize], hp, hlt, ?_, ?_⟩, ?_⟩
  · intro i node hi
    have hmem : node ∈ List.replicate size Node.empty := List.mem_iff_getElem?.2 ⟨i, hi⟩
    rw [List.eq_of_mem_replicate hmem]
    refine ⟨fun _ => rfl, fun h => absurd rfl h, by simp [Node.empty], ?_, ?_⟩
    · intro c hc; simp [bucketCourses, Node.empty] at hc
    · simp [bucketCourses, Node.empty, ids]
  · rw [allCourses_ofSize]; rfl
  · intro node hn
    rw [List.eq_of_mem_replicate hn]
    simp [bucketCourses, Node.empty]

theorem inv_default : TableInv CourseHashTable.default :=
  inv_ofSize (by norm_num [DEFAULT_SIZE]) (by norm_num [DEFAULT_SIZE, UINT_MOD])

/-! ## `Insert` keeps the invariant and stores the record -/

theorem rehash_spec {ins : CourseHashTable → Course → Run}
    (hins : ∀ t c t1 out, TableInv t → ins t c = .ok (t1, out) → TableInv t1 ∧ MemChar t c t1) :
    ∀ (cs : List Course) (acc : CourseHashTable × List Out) (t1 : CourseHashTable)
      (out : List Out), TableInv acc.1 → (ids cs).Nodup → rehash ins acc cs = .ok (t1, out) →
      TableInv t1 ∧ ∀ x, x ∈ t1.allCourses ↔
        x ∈ cs ∨ (x ∈ acc.1.allCourses ∧ x.courseNumber ∉ ids cs) := by
  intro cs
  induction cs with
  | nil =>
    rintro ⟨nt, o⟩ t1 out hinv _ h
    simp only [rehash, Except.ok.injEq, Prod.mk.injEq] at h
    obtain ⟨rfl, rfl⟩ := h
    exact ⟨hinv, fun x => by simp [ids]⟩
  | cons c cs ih =>
    rintro ⟨nt, o⟩ t1 out hinv hnd h
    simp only [ids, List.map_cons, List.nodup_cons] at hnd
    unfold rehash at h
    cases hc : ins nt c with
    | error e => rw [hc] at h; simp at h
    | ok r =>
      obtain ⟨nt1, o1⟩ := r
      rw [hc] at h
      simp only at h
      obtain ⟨hinv1, hmem1⟩ := hins nt c nt1 o1 hinv hc
      obtain ⟨hinv2, hmem2⟩ := ih (nt1, o ++ o1) t1 out hinv1 hnd.2 h
      refine ⟨hinv2, fun x => ?_⟩
      rw [hmem2 x, hmem1 x]
      simp only [ids, List.mem_cons, List.map_cons, not_or]
      constructor
      · rintro (hx | ⟨rfl | ⟨hx, hne⟩, hni⟩)
        · exact Or.inl (Or.inr hx)
        · exact Or.inl (Or.inl rfl)
        · exact Or.inr ⟨hx, hne, hni⟩
      · rintro ((rfl | hx) | ⟨hx, hne, hni⟩)
        · exact Or.inr ⟨Or.inl rfl, hnd.1⟩
        · exact Or.inl hx
        · exact Or.inr ⟨Or.inr ⟨hx, hne⟩, hni⟩
theorem reSizeWith_spec {ins : CourseHashTable → Course → Run}
    (hins : ∀ t c t1 out, TableInv t → ins t c = .ok (t1, out) → TableInv t1 ∧ MemChar t c t1)
    {t t1 : CourseHashTable} {out : List Out} (h : WF t)
    (hr : reSizeWith ins t = .ok (t1, out)) :
    TableInv t1 ∧ ∀ x, x ∈ t1.allCourses ↔ x ∈ t.allCourses := by
  unfold reSizeWith at hr
  cases hp : nextPrime (((t.tableSize * 2) % SIZE_T_MOD) % UINT_MOD) with
  | none => rw [hp] at hr; simp at hr
  | some p =>
    rw [hp] at hr
    simp only at hr
    obtain ⟨hprime, hlt⟩ := nextPrime_sound (Nat.mod_lt _ (by norm_num [UINT_MOD])) hp
    obtain ⟨hinv, hmem⟩ := rehash_spec hins t.allCourses (ofSize p, _) t1 out
      (inv_ofSize hprime hlt) (nodup_ids_allCourses h.length_eq h.bucket) hr
    refine ⟨hinv, fun x => ?_⟩
    rw [hmem x, allCourses_ofSize]
    simp

/-- A call of `Insert` that returns keeps the invariant of the table, stores the record and
keeps the records with other course numbers. -/
theorem Insert_spec : ∀ (fuel : Nat) (t : CourseHashTable) (c : Course) (t1 : CourseHashTable)
    (out : List Out), TableInv t → Insert fuel t c = .ok (t1, out) →
      TableInv t1 ∧ MemChar t c t1 := by
  intro fuel
  induction fuel with
  | zero => intro t c t1 out _ h; simp [Insert] at h
  | succ fuel ih =>
    intro t c t2 out hinv h
    obtain ⟨t1, r, node, hget, hstep, hwf1, _, hmem, hr, hnd⟩ := insertStep_spec c hinv.1
    unfold Insert InsertWith at h
    rw [hstep] at h
    cases r with
    | none =>
      simp only [Except.ok.injEq, Prod.mk.injEq] at h
      obtain ⟨rfl, rfl⟩ := h
      exact ⟨⟨hwf1, chainBound_of_step hinv.1 hinv.2 hget hr hnd (by simp)⟩, hmem⟩
    | some len =>
      simp only at h
      by_cases hlen : len > maxChainLength
      · rw [if_pos hlen] at h
        cases hrs : reSizeWith (Insert fuel) t1 with
        | error e => rw [hrs] at h; simp at h
        | ok res =>
          obtain ⟨t3, o3⟩ := res
          rw [hrs] at h
          simp only [Except.ok.injEq, Prod.mk.injEq] at h
          obtain ⟨rfl, rfl⟩ := h
          obtain ⟨hinv3, hmem3⟩ := reSizeWith_spec ih hwf1 hrs
          exact ⟨hinv3, fun x => by rw [hmem3 x, hmem x]⟩
      · rw [if_neg hlen] at h
        simp only [Except.ok.injEq, Prod.mk.injEq] at h
        obtain ⟨rfl, rfl⟩ := h
        refine ⟨⟨hwf1, chainBound_of_step hinv.1 hinv.2 hget hr hnd ?_⟩, hmem⟩
        intro l hl
        cases hl
        omega

theorem Returns.spec {t t1 : CourseHashTable} {c : Course} {out : List Out}
    (h : Returns t c t1 out) (hinv : TableInv t) : TableInv t1 ∧ MemChar t c t1 := by
  obtain ⟨fuel, hf⟩ := h
  exact Insert_spec fuel t c t1 out hinv hf

theorem inv_Clear {t : CourseHashTable} (h : TableInv t) : TableInv t.Clear := by
  have hlen := h.1.length_eq
  have hb : t.Clear.buckets = List.replicate t.tableSize Node.empty := by
    unfold Clear
    simp only
    rw [List.take_of_length_le (by omega), List.drop_of_length_le (by omega), List.append_nil,
      ← hlen]
    exact List.map_const' _ _
  have : t.Clear = ofSize t.tableSize := by
    have h2 : t.Clear.tableSize = t.tableSize := rfl
    have h3 : t.Clear.numElements = 0 := rfl
    cases hc : t.Clear with
    | mk b s n =>
      rw [hc] at hb h2 h3
      simp only at hb h2 h3
      subst hb h2 h3
      rfl
  rw [this]
  exact inv_ofSize h.1.prime h.1.size_lt

theorem Clear_eq_ofSize {t : CourseHashTable} (hlen : t.buckets.length = t.tableSize) :
    t.Clear = ofSize t.tableSize := by
  unfold Clear ofSize
  rw [List.take_of_length_le (by omega), List.drop_of_length_le (by omega), List.append_nil,
    ← hlen]
  congr 1
  exact List.map_const' _ _

theorem InsertReachable.reachable {t : CourseHashTable} (h : InsertReachable t) : Reachable t := by
  induction h with
  | default => exact Reachable.default
  | insert c _ hr ih => exact Reachable.insert c ih hr

theorem Reachable.inv {t : CourseHashTable} (h : Reachable t) : TableInv t := by
  induction h with
  | default => exact inv_default
  | insert c _ hr ih => exact (hr.spec ih).1
  | clear _ ih => exact inv_Clear ih
/-! ## `searchCourse` -/

theorem searchChain_of_mem {l : List Course} (hl : (ids l).Nodup) {x : Course} (hx : x ∈ l) :
    searchChain x.courseNumber l = x := by
  induction l with
  | nil => simp at hx
  | cons d rest ih =>
    simp only [ids, List.map_cons, List.nodup_cons] at hl
    unfold searchChain
    rcases List.mem_cons.1 hx with rfl | hx1
    · rw [if_pos rfl]
    · have : d.courseNumber ≠ x.courseNumber := fun e =>
        hl.1 (e ▸ mem_ids.2 ⟨x, hx1, rfl⟩)
      rw [if_neg this]
      exact ih hl.2 hx1

theorem searchChain_of_not_mem {l : List Course} {k : String} (hk : k ∉ ids l) :
    searchChain k l = emptyCourse := by
  induction l with
  | nil => rfl
  | cons d rest ih =>
    simp only [ids, List.map_cons, List.mem_cons, not_or] at hk
    unfold searchChain
    rw [if_neg (fun e => hk.1 e.symm)]
    exact ih hk.2

theorem searchCourse_eq {t : CourseHashTable} (h : WF t) (k : String) :
    ∃ node, t.buckets[t.hash k]? = some node ∧
      t.searchCourse k = .ok (searchChain k (bucketCourses node)) := by
  have hlt := hash_lt h.prime.pos k
  have hlen := h.length_eq
  have hget : t.buckets[t.hash k]? = some (t.buckets[t.hash k]) :=
    List.getElem?_eq_getElem (by omega)
  refine ⟨_, hget, ?_⟩
  unfold searchCourse
  simp only [hget]
  split_ifs with he
  · rw [bucketCourses_of_eq he]; rfl
  · rw [bucketCourses_of_ne he]

theorem searchCourse_of_mem {t : CourseHashTable} (h : WF t) {x : Course}
    (hx : x ∈ t.allCourses) : t.searchCourse x.courseNumber = .ok x := by
  obtain ⟨node, hget, hs⟩ := searchCourse_eq h x.courseNumber
  obtain ⟨node1, h1, h2⟩ := mem_bucket_of_mem h.length_eq h.bucket hx
  rw [hget] at h1
  cases h1
  rw [hs, searchChain_of_mem (h.bucket _ _ hget).nodup h2]

theorem searchCourse_of_not_mem {t : CourseHashTable} (h : WF t) {k : String}
    (hk : k ∉ ids t.allCourses) : t.searchCourse k = .ok emptyCourse := by
  obtain ⟨node, hget, hs⟩ := searchCourse_eq h k
  rw [hs, searchChain_of_not_mem (fun e => hk ((mem_ids_bucket_iff h hget).1 e))]

/-! ## More fuel changes no result -/

theorem rehash_mono {ins ins1 : CourseHashTable → Course → Run}
    (h : ∀ t c r, ins t c = .ok r → ins1 t c = .ok r) :
    ∀ (cs : List Course) (acc : CourseHashTable × List Out) (r : CourseHashTable × List Out),
      rehash ins acc cs = .ok r → rehash ins1 acc cs = .ok r := by
  intro cs
  induction cs with
  | nil => rintro ⟨nt, o⟩ r hr; simpa [rehash] using hr
  | cons c cs ih =>
    rintro ⟨nt, o⟩ r hr
    unfold rehash at hr ⊢
    cases hc : ins nt c with
    | error e => rw [hc] at hr; simp at hr
    | ok r1 =>
      obtain ⟨nt1, o1⟩ := r1
      rw [hc] at hr
      rw [h nt c _ hc]
      exact ih _ _ hr

theorem InsertWith_mono {rs rs1 : CourseHashTable → Run}
    (h : ∀ t r, rs t = .ok r → rs1 t = .ok r) (t : CourseHashTable) (c : Course)
    (r : CourseHashTable × List Out) (hr : InsertWith rs t c = .ok r) :
    InsertWith rs1 t c = .ok r := by
  unfold InsertWith at hr ⊢
  cases hs : insertStep t c with
  | error e => rw [hs] at hr; simp at hr
  | ok res =>
    obtain ⟨t1, o⟩ := res
    rw [hs] at hr
    cases o with
    | none => exact hr
    | some len =>
      simp only at hr ⊢
      by_cases hlen : len > maxChainLength
      · rw [if_pos hlen] at hr ⊢
        cases h1 : rs t1 with
        | error e => rw [h1] at hr; simp at hr
        | ok r1 =>
          obtain ⟨t2, o2⟩ := r1
          rw [h1] at hr
          rw [h t1 _ h1]
          exact hr
      · rw [if_neg hlen] at hr ⊢
        exact hr

theorem Insert_succ : ∀ (fuel : Nat) (t : CourseHashTable) (c : Course)
    (r : CourseHashTable × List Out), Insert fuel t c = .ok r → Insert (fuel + 1) t c = .ok r := by
  intro fuel
  induction fuel with
  | zero => intro t c r h; simp [Insert] at h
  | succ fuel ih =>
    intro t c r h
    unfold Insert at h ⊢
    refine InsertWith_mono ?_ t c r h
    intro t1 r1 h1
    unfold reSizeWith at h1 ⊢
    cases hp : nextPrime (((t1.tableSize * 2) % SIZE_T_MOD) % UINT_MOD) with
    | none => rw [hp] at h1; simp at h1
    | some p =>
      rw [hp] at h1
      exact rehash_mono ih _ _ _ h1

theorem Insert_mono {fuel fuel1 : Nat} (hle : fuel ≤ fuel1) {t : CourseHashTable} {c : Course}
    {r : CourseHashTable × List Out} (h : Insert fuel t c = .ok r) :
    Insert fuel1 t c = .ok r := by
  induction hle with
  | refl => exact h
  | step _ ih => exact Insert_succ _ _ _ _ ih

/-- A call has at most one result, whatever the fuel. -/
theorem Returns.unique {t t1 t2 : CourseHashTable} {c : Course} {out1 out2 : List Out}
    (h1 : Returns t c t1 out1) (h2 : Returns t c t2 out2) : t1 = t2 ∧ out1 = out2 := by
  obtain ⟨f1, e1⟩ := h1
  obtain ⟨f2, e2⟩ := h2
  have a := Insert_mono (le_max_left f1 f2) e1
  have b := Insert_mono (le_max_right f1 f2) e2
  rw [a] at b
  simp only [Except.ok.injEq, Prod.mk.injEq] at b
  exact b
/-! ## Sorting -/

theorem stringLt_asymm : ∀ (a b : List Char), stringLt a b = true → stringLt b a = false := by
  intro a
  induction a with
  | nil => intro b _; cases b <;> rfl
  | cons x s ih =>
    intro b h
    cases b with
    | nil => simp [stringLt] at h
    | cons y r =>
      unfold stringLt at h ⊢
      by_cases h1 : x.toNat < y.toNat
      · rw [if_neg (by omega), if_pos h1]
      · rw [if_neg h1] at h
        by_cases h2 : y.toNat < x.toNat
        · rw [if_pos h2] at h; simp at h
        · rw [if_neg h2] at h
          rw [if_neg h2, if_neg h1]
          exact ih r h

theorem stringLt_trans : ∀ (a b c : List Char), stringLt a b = true → stringLt b c = true →
    stringLt a c = true := by
  intro a
  induction a with
  | nil =>
    intro b c h1 h2
    cases c with
    | nil => cases b <;> simp [stringLt] at h2
    | cons z q => rfl
  | cons x s ih =>
    intro b c h1 h2
    cases b with
    | nil => simp [stringLt] at h1
    | cons y r =>
      cases c with
      | nil => simp [stringLt] at h2
      | cons z q =>
        unfold stringLt at h1 h2 ⊢
        by_cases hxy : x.toNat < y.toNat
        · by_cases hyz : y.toNat < z.toNat
          · rw [if_pos (by omega)]
          · rw [if_neg hyz] at h2
            by_cases hzy : z.toNat < y.toNat
            · rw [if_pos hzy] at h2; simp at h2
            · rw [if_pos (by omega)]
        · rw [if_neg hxy] at h1
          by_cases hyx : y.toNat < x.toNat
          · rw [if_pos hyx] at h1; simp at h1
          · rw [if_neg hyx] at h1
            by_cases hyz : y.toNat < z.toNat
            · rw [if_pos (by omega)]
            · rw [if_neg hyz] at h2
              by_cases hzy : z.toNat < y.toNat
              · rw [if_pos hzy] at h2; simp at h2
              · rw [if_neg hzy] at h2
                rw [if_neg (by omega), if_neg (by omega)]
                exact ih r q h1 h2

theorem mem_sortInsert {c x : Course} {l : List Course} :
    x ∈ sortInsert c l ↔ x = c ∨ x ∈ l := by
  induction l with
  | nil => simp [sortInsert]
  | cons d rest ih =>
    unfold sortInsert
    split_ifs
    · simp
    · simp only [List.mem_cons, ih]
      constructor
      · rintro (h | h | h)
        · exact Or.inr (Or.inl h)
        · exact Or.inl h
        · exact Or.inr (Or.inr h)
      · rintro (h | h | h)
        · exact Or.inr (Or.inl h)
        · exact Or.inl h
        · exact Or.inr (Or.inr h)

theorem length_sortInsert (c : Course) (l : List Course) :
    (sortInsert c l).length = l.length + 1 := by
  induction l with
  | nil => rfl
  | cons d rest ih =>
    unfold sortInsert
    split_ifs
    · rfl
    · simp [ih]

theorem length_sortCourses (l : List Course) : (sortCourses l).length = l.length := by
  induction l with
  | nil => rfl
  | cons c rest ih => simp [sortCourses, length_sortInsert, ih]

theorem mem_sortCourses {x : Course} {l : List Course} : x ∈ sortCourses l ↔ x ∈ l := by
  induction l with
  | nil => simp [sortCourses]
  | cons c rest ih => simp [sortCourses, mem_sortInsert, ih]

theorem pairwise_sortInsert {c : Course} {l : List Course}
    (h : l.Pairwise (fun a b => courseLt b a = false)) :
    (sortInsert c l).Pairwise (fun a b => courseLt b a = false) := by
  induction l with
  | nil => simp [sortInsert]
  | cons d rest ih =>
    rw [List.pairwise_cons] at h
    unfold sortInsert
    by_cases hcd : courseLt c d = true
    · rw [if_pos hcd, List.pairwise_cons]
      refine ⟨?_, List.pairwise_cons.2 h⟩
      intro y hy
      rcases List.mem_cons.1 hy with rfl | hy1
      · exact stringLt_asymm _ _ hcd
      · have := h.1 y hy1
        by_contra hc
        have hyc : courseLt y c = true := by simpa using hc
        have := stringLt_trans _ _ _ hyc hcd
        unfold courseLt at *
        simp_all
    · rw [if_neg hcd, List.pairwise_cons]
      refine ⟨?_, ih h.2⟩
      intro y hy
      rcases mem_sortInsert.1 hy with rfl | hy1
      · simpa using hcd
      · exact h.1 y hy1

theorem pairwise_sortCourses (l : List Course) :
    (sortCourses l).Pairwise (fun a b => courseLt b a = false) := by
  induction l with
  | nil => simp [sortCourses]
  | cons c rest ih => exact pairwise_sortInsert ih

/-! ## Counting -/

theorem Insert_numElements {fuel : Nat} {t t1 : CourseHashTable} {c : Course} {out : List Out}
    (hinv : TableInv t) (h : Insert fuel t c = .ok (t1, out)) :
    t1.numElements = t.numElements + if c.courseNumber ∈ ids t.allCourses then 0 else 1 := by
  obtain ⟨hinv1, hmem⟩ := Insert_spec fuel t c t1 out hinv h
  rw [hinv1.1.count, hinv.1.count]
  exact length_of_mem_iff (nodup_ids_allCourses hinv.1.length_eq hinv.1.bucket)
    (nodup_ids_allCourses hinv1.1.length_eq hinv1.1.bucket) hmem

theorem insertAll_spec (fuel : Nat) : ∀ (cs : List Course) (t : CourseHashTable) (o : List Out)
    (t1 : CourseHashTable) (out : List Out), TableInv t → (ids cs).Nodup →
    (∀ c ∈ cs, c.courseNumber ∉ ids t.allCourses) → insertAll fuel (t, o) cs = .ok (t1, out) →
    TableInv t1 ∧ t1.numElements = t.numElements + cs.length ∧
      ∀ x, x ∈ t1.allCourses ↔ x ∈ cs ∨ x ∈ t.allCourses := by
  intro cs
  induction cs with
  | nil =>
    intro t o t1 out hinv _ _ h
    simp only [insertAll, Except.ok.injEq, Prod.mk.injEq] at h
    obtain ⟨rfl, rfl⟩ := h
    exact ⟨hinv, rfl, fun x => by simp⟩
  | cons c cs ih =>
    intro t o t2 out hinv hnd hnew h
    simp only [ids, List.map_cons, List.nodup_cons] at hnd
    unfold insertAll at h
    cases hc : Insert fuel t c with
    | error e => rw [hc] at h; simp at h
    | ok r =>
      obtain ⟨t1, o1⟩ := r
      rw [hc] at h
      simp only at h
      obtain ⟨hinv1, hmem1⟩ := Insert_spec fuel t c t1 o1 hinv hc
      have hn1 := Insert_numElements hinv hc
      rw [if_neg (hnew c (List.mem_cons_self _ _))] at hn1
      have hnew1 : ∀ d ∈ cs, d.courseNumber ∉ ids t1.allCourses := by
        intro d hd hin
        obtain ⟨x, hx, hxd⟩ := mem_ids.1 hin
        rcases (hmem1 x).1 hx with rfl | ⟨hx0, _⟩
        · exact hnd.1 (hxd ▸ mem_ids.2 ⟨d, hd, rfl⟩)
        · exact hnew d (List.mem_cons_of_mem _ hd) (mem_ids.2 ⟨x, hx0, hxd⟩)
      obtain ⟨hinv2, hn2, hmem2⟩ := ih t1 (o ++ o1) t2 out hinv1 hnd.2 hnew1 h
      refine ⟨hinv2, by rw [hn2, hn1, List.length_cons]; omega, fun x => ?_⟩
      rw [hmem2 x, hmem1 x, List.mem_cons]
      constructor
      · rintro (h | rfl | ⟨h, _⟩)
        · exact Or.inl (Or.inr h)
        · exact Or.inl (Or.inl rfl)
        · exact Or.inr h
      · rintro ((rfl | h) | h)
        · exact Or.inr (Or.inl rfl)
        · exact Or.inl h
        · by_cases hx : x = c
          · exact Or.inr (Or.inl hx)
          · refine Or.inr (Or.inr ⟨h, fun e => ?_⟩)
            exact hnew c (List.mem_cons_self _ _) (mem_ids.2 ⟨x, h, e⟩)

theorem insertAll_reachable (fuel : Nat) : ∀ (cs : List Course) (t : CourseHashTable)
    (o : List Out) (t1 : CourseHashTable) (out : List Out), InsertReachable t →
    insertAll fuel (t, o) cs = .ok (t1, out) → InsertReachable t1 := by
  intro cs
  induction cs with
  | nil =>
    intro t o t1 out hr h
    simp only [insertAll, Except.ok.injEq, Prod.mk.injEq] at h
    obtain ⟨rfl, rfl⟩ := h
    exact hr
  | cons c cs ih =>
    intro t o t2 out hr h
    unfold insertAll at h
    cases hc : Insert fuel t c with
    | error e => rw [hc] at h; simp at h
    | ok r =>
      obtain ⟨t1, o1⟩ := r
      rw [hc] at h
      exact ih t1 (o ++ o1) t2 out (InsertReachable.insert c hr ⟨fuel, hc⟩) h

theorem insertReachable_tableOf (cs : List Course) : InsertReachable (tableOf cs) := by
  unfold tableOf
  cases h : insertAll 8 (CourseHashTable.default, []) cs with
  | error e => exact InsertReachable.default
  | ok r =>
    obtain ⟨t, o⟩ := r
    exact insertAll_reachable 8 cs _ _ t o InsertReachable.default h
/-! ## Growth of the capacity -/

theorem resizeCount_append (a b : List Out) :
    resizeCount (a ++ b) = resizeCount a + resizeCount b := by
  unfold resizeCount; exact List.countP_append _ _ _

theorem resizeCount_chainExceeds (n : Nat) (o : List Out) :
    resizeCount (Out.chainExceeds n :: o) = resizeCount o := by
  unfold resizeCount; simp [List.countP_cons]

theorem resizeCount_resizing (a b : Nat) (o : List Out) :
    resizeCount (Out.resizing a b :: o) = resizeCount o + 1 := by
  unfold resizeCount; simp [List.countP_cons]

theorem growSteps_succ (k size : Nat) :
    growSteps (k + 1) size = (growStep size).bind (growSteps k) := rfl

theorem growSteps_add (a b size : Nat) :
    growSteps (a + b) size = (growSteps a size).bind (growSteps b) := by
  induction a generalizing size with
  | zero => simp [growSteps]
  | succ a ih =>
    rw [Nat.succ_add, growSteps_succ, growSteps_succ]
    cases growStep size with
    | none => rfl
    | some p => simp [ih]

theorem insertStep_tableSize {t t1 : CourseHashTable} {c : Course} {r : Option Nat}
    (h : insertStep t c = .ok (t1, r)) : t1.tableSize = t.tableSize := by
  unfold insertStep at h
  simp only at h
  split at h
  · simp at h
  · split_ifs at h
    · simp only [Except.ok.injEq, Prod.mk.injEq] at h; rw [← h.1]
    · simp only [Except.ok.injEq, Prod.mk.injEq] at h; rw [← h.1]
    · split at h <;>
        (simp only [Except.ok.injEq, Prod.mk.injEq] at h; rw [← h.1])

theorem rehash_growth {ins : CourseHashTable → Course → Run}
    (hins : ∀ t c t1 out, ins t c = .ok (t1, out) →
      growSteps (resizeCount out) t.tableSize = some t1.tableSize) :
    ∀ (cs : List Course) (nt : CourseHashTable) (o : List Out) (t1 : CourseHashTable)
      (out : List Out), rehash ins (nt, o) cs = .ok (t1, out) →
      ∃ o1, out = o ++ o1 ∧ growSteps (resizeCount o1) nt.tableSize = some t1.tableSize := by
  intro cs
  induction cs with
  | nil =>
    intro nt o t1 out h
    simp only [rehash, Except.ok.injEq, Prod.mk.injEq] at h
    obtain ⟨rfl, rfl⟩ := h
    exact ⟨[], by simp, rfl⟩
  | cons c cs ih =>
    intro nt o t2 out h
    unfold rehash at h
    cases hc : ins nt c with
    | error e => rw [hc] at h; simp at h
    | ok r =>
      obtain ⟨nt1, o1⟩ := r
      rw [hc] at h
      simp only at h
      obtain ⟨o2, rfl, hg⟩ := ih nt1 (o ++ o1) t2 out h
      refine ⟨o1 ++ o2, by simp, ?_⟩
      rw [resizeCount_append, growSteps_add, hins nt c nt1 o1 hc]
      exact hg

theorem reSizeWith_growth {ins : CourseHashTable → Course → Run}
    (hins : ∀ t c t1 out, ins t c = .ok (t1, out) →
      growSteps (resizeCount out) t.tableSize = some t1.tableSize)
    {t t1 : CourseHashTable} {out : List Out} (h : reSizeWith ins t = .ok (t1, out)) :
    ∃ p o1, growStep t.tableSize = some p ∧ out = Out.resizing t.tableSize p :: o1 ∧
      growSteps (resizeCount o1) p = some t1.tableSize := by
  unfold reSizeWith at h
  cases hp : nextPrime (((t.tableSize * 2) % SIZE_T_MOD) % UINT_MOD) with
  | none => rw [hp] at h; simp at h
  | some p =>
    rw [hp] at h
    simp only at h
    obtain ⟨o1, ho, hg⟩ := rehash_growth hins _ _ _ _ _ h
    exact ⟨p, o1, hp, ho, hg⟩

/-- The capacity after a call of `Insert` results from the capacity before by as many steps
of growth as the call has printed lines "Resizing hash table". -/
theorem Insert_growth : ∀ (fuel : Nat) (t : CourseHashTable) (c : Course)
    (t1 : CourseHashTable) (out : List Out), Insert fuel t c = .ok (t1, out) →
      growSteps (resizeCount out) t.tableSize = some t1.tableSize := by
  intro fuel
  induction fuel with
  | zero => intro t c t1 out h; simp [Insert] at h
  | succ fuel ih =>
    intro t c t2 out h
    unfold Insert InsertWith at h
    cases hs : insertStep t c with
    | error e => rw [hs] at h; simp at h
    | ok res =>
      obtain ⟨t1, r⟩ := res
      rw [hs] at h
      have hsz := insertStep_tableSize hs
      cases r with
      | none =>
        simp only [Except.ok.injEq, Prod.mk.injEq] at h
        obtain ⟨rfl, rfl⟩ := h
        rw [← hsz]; rfl
      | some len =>
        simp only at h
        by_cases hlen : len > maxChainLength
        · rw [if_pos hlen] at h
          cases hrs : reSizeWith (Insert fuel) t1 with
          | error e => rw [hrs] at h; simp at h
          | ok res =>
            obtain ⟨t3, o3⟩ := res
            rw [hrs] at h
            simp only [Except.ok.injEq, Prod.mk.injEq] at h
            obtain ⟨rfl, rfl⟩ := h
            obtain ⟨p, o1, hp, rfl, hg⟩ := reSizeWith_growth ih hrs
            rw [resizeCount_chainExceeds, resizeCount_resizing, growSteps_succ, ← hsz, hp]
            exact hg
        · rw [if_neg hlen] at h
          simp only [Except.ok.injEq, Prod.mk.injEq] at h
          obtain ⟨rfl, rfl⟩ := h
          rw [← hsz]; rfl

/-- A call of `Insert` that appends a node to a chain of `maxChainLength` records prints the
line of `reSize`. -/
theorem Insert_overflow_out {fuel : Nat} {t t1 t2 : CourseHashTable} {c : Course}
    {len : Nat} {out : List Out} (hs : insertStep t c = .ok (t1, some len))
    (hlen : len > maxChainLength) (h : Insert fuel t c = .ok (t2, out)) :
    ∃ p o1, growStep t.tableSize = some p ∧
      out = Out.chainExceeds len :: Out.resizing t.tableSize p :: o1 := by
  cases fuel with
  | zero => simp [Insert] at h
  | succ fuel =>
    unfold Insert InsertWith at h
    rw [hs] at h
    simp only [if_pos hlen] at h
    cases hrs : reSizeWith (Insert fuel) t1 with
    | error e => rw [hrs] at h; simp at h
    | ok res =>
      obtain ⟨t3, o3⟩ := res
      rw [hrs] at h
      simp only [Except.ok.injEq, Prod.mk.injEq] at h
      obtain ⟨rfl, rfl⟩ := h
      obtain ⟨p, o1, hp, rfl, _⟩ := reSizeWith_growth (Insert_growth fuel) hrs
      rw [insertStep_tableSize hs] at hp
      exact ⟨p, o1, hp, by rw [insertStep_tableSize hs]⟩

/-! ## The prime that `nextPrime` finds -/

theorem nextPrimeLoop_le : ∀ (fuel m p q : Nat), 3 ≤ m → m % 2 = 1 → q.Prime → m ≤ q →
    q < UINT_MOD → nextPrimeLoop fuel m = some p → m ≤ p ∧ p ≤ q := by
  intro fuel
  induction fuel with
  | zero => intro m p q _ _ _ _ _ h; simp [nextPrimeLoop] at h
  | succ fuel ih =>
    intro m p q h3 hodd hq hmq hqlt h
    have hU : UINT_MOD = 4294967296 := by norm_num [UINT_MOD]
    unfold nextPrimeLoop at h
    rw [isPrime_eq (by omega)] at h
    by_cases hp : m.Prime
    · simp only [hp, decide_True, Option.some.injEq] at h
      subst h; exact ⟨le_refl _, hmq⟩
    · simp only [hp, decide_False] at h
      have hne : m ≠ q := fun e => hp (e ▸ hq)
      have hqodd : q % 2 = 1 := by
        rcases hq.eq_two_or_odd with h2 | h2
        · omega
        · exact h2
      have hm2 : m + 2 ≤ q := by omega
      rw [Nat.mod_eq_of_lt (by omega)] at h
      have := ih (m + 2) p q (by omega) (by omega) hq hm2 hqlt h
      exact ⟨by omega, this.2⟩

/-- Up to `2 ^ 31` the result of `nextPrime` is the smallest prime from the argument on. -/
theorem nextPrime_minimal {n p : Nat} (hn : n ≤ 2 ^ 31) (h : nextPrime n = some p) :
    IsSmallestPrimeGE n p := by
  have hU : UINT_MOD = 4294967296 := by norm_num [UINT_MOD]
  obtain ⟨hprime, hplt⟩ := nextPrime_sound (by omega) h
  unfold nextPrime at h
  by_cases h2 : n ≤ 2
  · rw [if_pos h2] at h
    cases h
    exact ⟨Nat.prime_two, h2, fun q hq _ => hq.two_le⟩
  · rw [if_neg h2] at h
    simp only at h
    have hm : (if n % 2 = 0 then (n + 1) % UINT_MOD else n) = if n % 2 = 0 then n + 1 else n := by
      split_ifs
      · exact Nat.mod_eq_of_lt (by omega)
      · rfl
    rw [hm] at h
    have key : ∀ q, q.Prime → n ≤ q → q < UINT_MOD → n ≤ p ∧ p ≤ q := by
      intro q hq hnq hqlt
      have hqodd : q % 2 = 1 := by
        rcases hq.eq_two_or_odd with e | e
        · omega
        · exact e
      have := nextPrimeLoop_le _ _ p q (by split_ifs <;> omega) (by split_ifs <;> omega) hq
        (by split_ifs <;> omega) hqlt h
      constructor
      · have := this.1; split_ifs at this <;> omega
      · exact this.2
    obtain ⟨q, hq, hnq, hq2⟩ := Nat.exists_prime_lt_and_le_two_mul n (by omega)
    have hqne : q ≠ 4294967296 := by
      rintro rfl
      have : (2 : Nat) = 4294967296 :=
        (Nat.prime_dvd_prime_iff_eq Nat.prime_two hq).1 (by norm_num)
      omega
    have h1 := key q hq (by omega) (by omega)
    refine ⟨hprime, h1.1, fun q1 hq1 hnq1 => ?_⟩
    by_cases hlt : q1 < UINT_MOD
    · exact (key q1 hq1 hnq1 hlt).2
    · omega
/-! ## Calls that do not resize -/

theorem insertAll_eq_rehash (fuel : Nat) : ∀ (cs : List Course)
    (acc : CourseHashTable × List Out), insertAll fuel acc cs = rehash (Insert fuel) acc cs := by
  intro cs
  induction cs with
  | nil => intro acc; rfl
  | cons c cs ih =>
    rintro ⟨t, o⟩
    unfold insertAll rehash
    cases Insert fuel t c with
    | error e => rfl
    | ok r => obtain ⟨t1, o1⟩ := r; exact ih _

theorem bucket_length_le {t : CourseHashTable} (h : WF t) {k : Nat} {node : Node}
    (hget : t.buckets[k]? = some node) :
    (bucketCourses node).length ≤ t.numElements ∧
      ((bucketCourses node).length = t.numElements → ∀ x ∈ t.allCourses, x ∈ bucketCourses node) := by
  have hnd : (bucketCourses node).Nodup := List.Nodup.of_map _ (h.bucket k node hget).nodup
  have hsub : bucketCourses node ⊆ t.allCourses := fun x hx =>
    (mem_allCourses h.length_eq x).2 ⟨k, node, hget, hx⟩
  have hsp := List.subperm_of_subset hnd hsub
  rw [h.count]
  refine ⟨hsp.length_le, fun heq x hx => ?_⟩
  have hperm := hsp.perm_of_length_le (le_of_eq heq.symm)
  exact hperm.mem_iff.2 hx

/-- A call of `Insert` on a table with fewer than `maxChainLength` records, or with
`maxChainLength` records of which one lies in another bucket, returns without resizing. -/
theorem Insert_no_resize {t : CourseHashTable} (hinv : TableInv t) (c : Course)
    (hcond : t.numElements < maxChainLength ∨ (t.numElements ≤ maxChainLength ∧
      ∃ x ∈ t.allCourses, hashValue x.courseNumber % t.tableSize
        ≠ hashValue c.courseNumber % t.tableSize)) (fuel : Nat) :
    ∃ t1, Insert (fuel + 1) t c = .ok (t1, []) ∧ t1.tableSize = t.tableSize := by
  obtain ⟨t1, r, node, hget, hstep, _, hsize, _, hr, _⟩ := insertStep_spec c hinv.1
  refine ⟨t1, ?_, hsize⟩
  unfold Insert InsertWith
  rw [hstep]
  cases r with
  | none => rfl
  | some len =>
    have hlen : ¬ len > maxChainLength := by
      split_ifs at hr
      simp only [Option.some.injEq] at hr
      obtain ⟨hle, heq⟩ := bucket_length_le hinv.1 hget
      rcases hcond with h1 | ⟨h1, x, hx, hne⟩
      · omega
      · have : (bucketCourses node).length ≠ t.numElements := by
          intro e
          exact hne ((hinv.1.bucket _ _ hget).placed x (heq e x hx))
        omega
    simp only [if_neg hlen]

theorem rehash_no_resize (fuel : Nat) : ∀ (cs : List Course) (nt : CourseHashTable)
    (o : List Out), TableInv nt → (ids cs).Nodup →
    (∀ c ∈ cs, c.courseNumber ∉ ids nt.allCourses) →
    (nt.numElements + cs.length ≤ maxChainLength ∨
      (nt.numElements + cs.length ≤ maxChainLength + 1 ∧
        ∃ x y, (x ∈ nt.allCourses ∨ x ∈ cs) ∧ (y ∈ nt.allCourses ∨ y ∈ cs) ∧
          hashValue x.courseNumber % nt.tableSize ≠ hashValue y.courseNumber % nt.tableSize)) →
    ∃ t1, rehash (Insert (fuel + 1)) (nt, o) cs = .ok (t1, o) ∧ t1.tableSize = nt.tableSize := by
  intro cs
  induction cs with
  | nil => intro nt o _ _ _ _; exact ⟨nt, rfl, rfl⟩
  | cons c cs ih =>
    intro nt o hinv hnd hnew hcond
    have hM : maxChainLength = 4 := rfl
    simp only [ids, List.map_cons, List.nodup_cons] at hnd
    simp only [List.length_cons] at hcond
    have hc0 : c.courseNumber ∉ ids nt.allCourses := hnew c (List.mem_cons_self _ _)
    have hcond1 : nt.numElements < maxChainLength ∨ (nt.numElements ≤ maxChainLength ∧
        ∃ x ∈ nt.allCourses, hashValue x.courseNumber % nt.tableSize
          ≠ hashValue c.courseNumber % nt.tableSize) := by
      by_cases hlt : nt.numElements < maxChainLength
      · exact Or.inl hlt
      · rcases hcond with h1 | ⟨h1, x, y, hx, hy, hne⟩
        · omega
        · have hcs : cs = [] := List.length_eq_zero.1 (by omega)
          subst hcs
          refine Or.inr ⟨by omega, ?_⟩
          by_cases hxc : hashValue x.courseNumber % nt.tableSize
              = hashValue c.courseNumber % nt.tableSize
          · rcases hy with hy | hy
            · exact ⟨y, hy, fun e => hne (hxc.trans e.symm)⟩
            · simp only [List.mem_singleton] at hy
              subst hy
              exact absurd hxc hne
          · rcases hx with hx | hx
            · exact ⟨x, hx, hxc⟩
            · simp only [List.mem_singleton] at hx
              subst hx
              exact absurd rfl hxc
    obtain ⟨nt1, hI, hsz⟩ := Insert_no_resize hinv c hcond1 fuel
    obtain ⟨hinv1, hmem1⟩ := Insert_spec _ nt c nt1 [] hinv hI
    have hn1 := Insert_numElements hinv hI
    rw [if_neg hc0] at hn1
    have hsub : ∀ x, x ∈ nt.allCourses → x ∈ nt1.allCourses := fun x hx =>
      (hmem1 x).2 (Or.inr ⟨hx, fun e => hc0 (mem_ids.2 ⟨x, hx, e⟩)⟩)
    have hnew1 : ∀ d ∈ cs, d.courseNumber ∉ ids nt1.allCourses := by
      intro d hd hin
      obtain ⟨x, hx, hxd⟩ := mem_ids.1 hin
      rcases (hmem1 x).1 hx with rfl | ⟨hx0, _⟩
      · exact hnd.1 (hxd ▸ mem_ids.2 ⟨d, hd, rfl⟩)
      · exact hnew d (List.mem_cons_of_mem _ hd) (mem_ids.2 ⟨x, hx0, hxd⟩)
    have hcond2 : nt1.numElements + cs.length ≤ maxChainLength ∨
        (nt1.numElements + cs.length ≤ maxChainLength + 1 ∧
          ∃ x y, (x ∈ nt1.allCourses ∨ x ∈ cs) ∧ (y ∈ nt1.allCourses ∨ y ∈ cs) ∧
            hashValue x.courseNumber % nt1.tableSize
              ≠ hashValue y.courseNumber % nt1.tableSize) := by
      rcases hcond with h1 | ⟨h1, x, y, hx, hy, hne⟩
      · exact Or.inl (by omega)
      · refine Or.inr ⟨by omega, x, y, ?_, ?_, by rw [hsz]; exact hne⟩
        · rcases hx with hx | hx
          · exact Or.inl (hsub x hx)
          · rcases List.mem_cons.1 hx with rfl | hx
            · exact Or.inl ((hmem1 x).2 (Or.inl rfl))
            · exact Or.inr hx
        · rcases hy with hy | hy
          · exact Or.inl (hsub y hy)
          · rcases List.mem_cons.1 hy with rfl | hy
            · exact Or.inl ((hmem1 y).2 (Or.inl rfl))
            · exact Or.inr hy
    obtain ⟨t2, hR, hsz2⟩ := ih nt1 (o ++ []) hinv1 hnd.2 hnew1 hcond2
    refine ⟨t2, ?_, by rw [hsz2, hsz]⟩
    unfold rehash
    rw [hI]
    simp only
    rw [List.append_nil] at hR
    rw [List.append_nil]
    exact hR
theorem mem_five {x c1 c2 c3 c4 c5 : Course} :
    x ∈ [c1, c2, c3, c4, c5] ↔ x ∈ [c1, c2, c3, c4] ∨ x = c5 := by
  simp only [List.mem_cons, List.mem_singleton, List.not_mem_nil, or_false]
  tauto

/-! ## Records with one hash value -/

theorem rehash_error {ins : CourseHashTable → Course → Run}
    (hspec : ∀ t c t1 out, TableInv t → ins t c = .ok (t1, out) → TableInv t1 ∧ MemChar t c t1)
    (herr : ∀ t c e, TableInv t → ins t c = .error e → e = Fault.fuel) :
    ∀ (cs : List Course) (nt : CourseHashTable) (o : List Out) (e : Fault), TableInv nt →
      rehash ins (nt, o) cs = .error e → e = Fault.fuel := by
  intro cs
  induction cs with
  | nil => intro nt o e _ h; simp [rehash] at h
  | cons c cs ih =>
    intro nt o e hinv h
    unfold rehash at h
    cases hc : ins nt c with
    | error e1 =>
      rw [hc] at h
      simp only [Except.error.injEq] at h
      subst h
      exact herr nt c e1 hinv hc
    | ok r =>
      obtain ⟨nt1, o1⟩ := r
      rw [hc] at h
      exact ih nt1 _ e (hspec nt c nt1 o1 hinv hc).1 h

/-- On a table that satisfies the invariant, `Insert` does not throw: a run of the model
that gives no table has run out of fuel. -/
theorem Insert_error : ∀ (fuel : Nat) (t : CourseHashTable) (c : Course) (e : Fault),
    TableInv t → Insert fuel t c = .error e → e = Fault.fuel := by
  intro fuel
  induction fuel with
  | zero => intro t c e _ h; simp only [Insert, Except.error.injEq] at h; exact h.symm
  | succ fuel ih =>
    intro t c e hinv h
    obtain ⟨t1, r, node, _, hstep, hwf1, _, _, _, _⟩ := insertStep_spec c hinv.1
    unfold Insert InsertWith at h
    rw [hstep] at h
    cases r with
    | none => simp at h
    | some len =>
      simp only at h
      by_cases hlen : len > maxChainLength
      · rw [if_pos hlen] at h
        cases hrs : reSizeWith (Insert fuel) t1 with
        | ok res => obtain ⟨t3, o3⟩ := res; rw [hrs] at h; simp at h
        | error e1 =>
          rw [hrs] at h
          simp only [Except.error.injEq] at h
          subst h
          unfold reSizeWith at hrs
          cases hp : nextPrime (((t1.tableSize * 2) % SIZE_T_MOD) % UINT_MOD) with
          | none => rw [hp] at hrs; simp only [Except.error.injEq] at hrs; exact hrs.symm
          | some p =>
            rw [hp] at hrs
            obtain ⟨hprime, hlt⟩ := nextPrime_sound (Nat.mod_lt _ (by norm_num [UINT_MOD])) hp
            exact rehash_error (Insert_spec fuel) ih _ _ _ e1 (inv_ofSize hprime hlt) hrs
      · rw [if_neg hlen] at h; simp at h

/-- A table that satisfies the invariant does not hold five records whose course numbers
have one hash value. -/
theorem length_le_of_same_hashValue {t : CourseHashTable} (hinv : TableInv t) (H : Nat)
    (l : List Course) (hl : l.Nodup) (hsub : l ⊆ t.allCourses)
    (hH : ∀ x ∈ l, hashValue x.courseNumber = H) : l.length ≤ maxChainLength := by
  cases l with
  | nil => simp
  | cons x rest =>
    obtain ⟨node, hget, _⟩ := mem_bucket_of_mem hinv.1.length_eq hinv.1.bucket
      (hsub (List.mem_cons_self x rest))
    have hsub2 : (x :: rest) ⊆ bucketCourses node := by
      intro y hy
      obtain ⟨node1, h1, h2⟩ := mem_bucket_of_mem hinv.1.length_eq hinv.1.bucket (hsub hy)
      have e : t.hash y.courseNumber = t.hash x.courseNumber := by
        unfold hash
        rw [hH y hy, hH x (List.mem_cons_self x rest)]
      rw [e, hget] at h1
      cases h1
      exact h2
    exact le_trans (List.subperm_of_subset hl hsub2).length_le
      (hinv.2 node (List.mem_iff_getElem?.2 ⟨_, hget⟩))

/-- A call of `Insert` with a new record whose course number has the hash value of four
stored records does not return. -/
theorem Insert_same_hashValue {t : CourseHashTable} (hinv : TableInv t) (c : Course)
    (l : List Course) (hl : l.Nodup) (hlen : l.length = 4) (hsub : l ⊆ t.allCourses)
    (hH : ∀ x ∈ l, hashValue x.courseNumber = hashValue c.courseNumber)
    (hnew : c.courseNumber ∉ ids t.allCourses) (fuel : Nat) :
    Insert fuel t c = .error Fault.fuel := by
  cases h : Insert fuel t c with
  | error e => rw [Insert_error fuel t c e hinv h]
  | ok r =>
    exfalso
    obtain ⟨t1, out⟩ := r
    obtain ⟨hinv1, hmem⟩ := Insert_spec fuel t c t1 out hinv h
    have hc : c ∉ l := fun hcl => hnew (mem_ids.2 ⟨c, hsub hcl, rfl⟩)
    have := length_le_of_same_hashValue hinv1 (hashValue c.courseNumber) (c :: l)
      (List.nodup_cons.2 ⟨hc, hl⟩)
      (by
        intro x hx
        rcases List.mem_cons.1 hx with rfl | hx1
        · exact (hmem x).2 (Or.inl rfl)
        · exact (hmem x).2 (Or.inr ⟨hsub hx1, fun e => hnew (mem_ids.2 ⟨x, hsub hx1, e⟩)⟩))
      (by
        intro x hx
        rcases List.mem_cons.1 hx with rfl | hx1
        · rfl
        · exact hH x hx1)
    rw [List.length_cons, hlen] at this
    exact absurd this (by decide)
/-- When the calls with the records of a list have returned, so have the calls with the
records of a beginning of the list. -/
theorem insertAll_append_ok (fuel : Nat) : ∀ (p s : List Course)
    (acc r : CourseHashTable × List Out), insertAll fuel acc (p ++ s) = .ok r →
    ∃ r1, insertAll fuel acc p = .ok r1 := by
  intro p
  induction p with
  | nil => intro s acc r _; exact ⟨acc, by cases acc; rfl⟩
  | cons c p ih =>
    rintro s ⟨t, o⟩ r h
    rw [List.cons_append] at h
    unfold insertAll at h ⊢
    cases hc : Insert fuel t c with
    | error e => rw [hc] at h; simp at h
    | ok r1 =>
      obtain ⟨t1, o1⟩ := r1
      rw [hc] at h
      exact ih s _ r h
/-! ## `nextPrime` returns -/

theorem nextPrimeLoop_succ (fuel num : Nat) :
    nextPrimeLoop (fuel + 1) num =
      match isPrime num with
      | none => none
      | some true => some num
      | some false => nextPrimeLoop fuel ((num + 2) % UINT_MOD) := rfl

theorem nextPrimeLoop_of_prime {fuel m : Nat} (hm : m < UINT_MOD) (hp : m.Prime) :
    nextPrimeLoop (fuel + 1) m = some m := by
  rw [nextPrimeLoop_succ, isPrime_eq hm]
  simp [hp]

theorem nextPrimeLoop_of_not_prime {fuel m : Nat} (hm : m < UINT_MOD) (hp : ¬ m.Prime) :
    nextPrimeLoop (fuel + 1) m = nextPrimeLoop fuel ((m + 2) % UINT_MOD) := by
  rw [nextPrimeLoop_succ, isPrime_eq hm]
  simp [hp]

/-- The loop of `nextPrime` stops when a prime lies ahead within reach of the fuel. -/
theorem nextPrimeLoop_total : ∀ (fuel m q : Nat), 3 ≤ m → m % 2 = 1 → q.Prime → m ≤ q →
    q < UINT_MOD → q < m + 2 * fuel → ∃ p, nextPrimeLoop fuel m = some p := by
  intro fuel
  induction fuel with
  | zero => intro m q _ _ _ h1 _ h2; omega
  | succ fuel ih =>
    intro m q h3 hodd hq hmq hqlt hfuel
    have hU : UINT_MOD = 4294967296 := by norm_num [UINT_MOD]
    by_cases hp : m.Prime
    · exact ⟨m, nextPrimeLoop_of_prime (by omega) hp⟩
    · have hne : m ≠ q := fun e => hp (e ▸ hq)
      have hqodd : q % 2 = 1 := by
        rcases hq.eq_two_or_odd with h2 | h2
        · omega
        · exact h2
      rw [nextPrimeLoop_of_not_prime (by omega) hp, Nat.mod_eq_of_lt (by omega)]
      exact ih (m + 2) q (by omega) (by omega) hq (by omega) hqlt (by omega)

/-- The loop of `nextPrime` past the last prime of `unsigned int`: the value wraps to 1 and
the loop stops at 3. -/
theorem nextPrimeLoop_wrap : ∀ (fuel m : Nat), 5 ≤ m → m % 2 = 1 → m < UINT_MOD →
    (∀ q, q.Prime → m ≤ q → UINT_MOD ≤ q) → UINT_MOD + 5 ≤ m + 2 * fuel →
    nextPrimeLoop fuel m = some 3 := by
  intro fuel
  induction fuel with
  | zero => intro m _ _ h1 _ h2; omega
  | succ fuel ih =>
    intro m h5 hodd hlt hno hfuel
    have hU : UINT_MOD = 4294967296 := by norm_num [UINT_MOD]
    have hp : ¬ m.Prime := fun hp => by have := hno m hp (le_refl _); omega
    rw [nextPrimeLoop_of_not_prime hlt hp]
    by_cases hw : m + 2 < UINT_MOD
    · rw [Nat.mod_eq_of_lt hw]
      exact ih (m + 2) (by omega) (by omega) hw
        (fun q hq hmq => hno q hq (by omega)) (by omega)
    · have hm : m = 4294967295 := by omega
      subst hm
      have e1 : (4294967295 + 2) % UINT_MOD = 1 := by rw [hU]
      rw [e1]
      obtain ⟨f1, rfl⟩ : ∃ f1, fuel = f1 + 2 := ⟨fuel - 2, by omega⟩
      rw [nextPrimeLoop_of_not_prime (by omega) (by norm_num)]
      have e2 : (1 + 2) % UINT_MOD = 3 := by rw [hU]
      rw [e2]
      exact nextPrimeLoop_of_prime (by omega) Nat.prime_three

/-- On every `unsigned int` argument `nextPrime` returns, and it returns a prime. -/
theorem nextPrime_total {n : Nat} (hn : n < UINT_MOD) :
    ∃ p, nextPrime n = some p ∧ p.Prime ∧ p < UINT_MOD := by
  have hU : UINT_MOD = 4294967296 := by norm_num [UINT_MOD]
  suffices h : ∃ p, nextPrime n = some p by
    obtain ⟨p, hp⟩ := h
    exact ⟨p, hp, nextPrime_sound hn hp⟩
  unfold nextPrime
  by_cases h2 : n ≤ 2
  · exact ⟨2, by rw [if_pos h2]⟩
  · rw [if_neg h2]
    simp only
    have hm : (if n % 2 = 0 then (n + 1) % UINT_MOD else n) = if n % 2 = 0 then n + 1 else n := by
      split_ifs
      · exact Nat.mod_eq_of_lt (by omega)
      · rfl
    rw [hm]
    have h31 : (2 : Nat) ^ 31 = 2147483648 := by norm_num
    by_cases hex : ∃ q, q.Prime ∧ (if n % 2 = 0 then n + 1 else n) ≤ q ∧ q < UINT_MOD
    · obtain ⟨q, hq, hmq, hqlt⟩ := hex
      exact nextPrimeLoop_total _ _ q (by split_ifs <;> omega) (by split_ifs <;> omega) hq hmq
        hqlt (by omega)
    · push_neg at hex
      have h3 : ¬ (if n % 2 = 0 then n + 1 else n) ≤ 3 := fun h =>
        absurd (hex 3 Nat.prime_three h) (by omega)
      exact ⟨3, nextPrimeLoop_wrap _ _ (by split_ifs at h3 ⊢ <;> omega)
        (by split_ifs <;> omega) (by split_ifs <;> omega) hex (by split_ifs at h3 ⊢ <;> omega)⟩
/-! ## `nextPrime` over all of `unsigned int` -/

/-- Trial division of 4294967291 by every number from 2 up to 65536. -/
theorem trialDivision_4294967291 :
    (List.range 65537).all (fun d => decide (d < 2) || 4294967291 % d != 0) = true := by
  decide!

/-- The largest prime of `unsigned int`. -/
theorem prime_4294967291 : Nat.Prime 4294967291 := by
  apply @prime_of_noDivisorBelow 4294967291 65537 (by norm_num) _ (by norm_num)
  intro d h2 hlt hdvd
  have h := List.all_eq_true.1 trialDivision_4294967291 d (List.mem_range.2 hlt)
  have hmod := Nat.mod_eq_zero_of_dvd hdvd
  simp [hmod] at h
  omega

/-- No prime of `unsigned int` lies above 4294967291. -/
theorem not_prime_above_4294967291 {q : Nat} (hq : q.Prime) (h : 4294967291 < q) :
    UINT_MOD ≤ q := by
  have hU : UINT_MOD = 4294967296 := by norm_num [UINT_MOD]
  by_contra hlt
  have hcases : q = 4294967292 ∨ q = 4294967293 ∨ q = 4294967294 ∨ q = 4294967295 := by omega
  rcases hcases with rfl | rfl | rfl | rfl
  · exact Nat.not_prime_mul' (show 2 * 2147483646 = 4294967292 by norm_num) (by norm_num)
      (by norm_num) hq
  · exact Nat.not_prime_mul' (show 9241 * 464773 = 4294967293 by norm_num) (by norm_num)
      (by norm_num) hq
  · exact Nat.not_prime_mul' (show 2 * 2147483647 = 4294967294 by norm_num) (by norm_num)
      (by norm_num) hq
  · exact Nat.not_prime_mul' (show 3 * 1431655765 = 4294967295 by norm_num) (by norm_num)
      (by norm_num) hq

/-- When a prime of `unsigned int` lies at or above the argument, the result of `nextPrime`
is the smallest prime from the argument on. -/
theorem nextPrime_minimal_of_prime {n p q : Nat} (hq : q.Prime) (hnq : n ≤ q)
    (hqlt : q < UINT_MOD) (h : nextPrime n = some p) : IsSmallestPrimeGE n p := by
  have hU : UINT_MOD = 4294967296 := by norm_num [UINT_MOD]
  obtain ⟨hprime, hplt⟩ := nextPrime_sound (by omega) h
  unfold nextPrime at h
  by_cases h2 : n ≤ 2
  · rw [if_pos h2] at h
    cases h
    exact ⟨Nat.prime_two, h2, fun q hq _ => hq.two_le⟩
  · rw [if_neg h2] at h
    simp only at h
    have hm : (if n % 2 = 0 then (n + 1) % UINT_MOD else n) = if n % 2 = 0 then n + 1 else n := by
      split_ifs
      · exact Nat.mod_eq_of_lt (by omega)
      · rfl
    rw [hm] at h
    have key : ∀ q, q.Prime → n ≤ q → q < UINT_MOD → n ≤ p ∧ p ≤ q := by
      intro q hq hnq hqlt
      have hqodd : q % 2 = 1 := by
        rcases hq.eq_two_or_odd with e | e
        · omega
        · exact e
      have := nextPrimeLoop_le _ _ p q (by split_ifs <;> omega) (by split_ifs <;> omega) hq
        (by split_ifs <;> omega) hqlt h
      constructor
      · have := this.1; split_ifs at this <;> omega
      · exact this.2
    have h1 := key q hq hnq hqlt
    refine ⟨hprime, h1.1, fun q1 hq1 hnq1 => ?_⟩
    by_cases hlt : q1 < UINT_MOD
    · exact (key q1 hq1 hnq1 hlt).2
    · omega

/-- Above the largest prime of `unsigned int` the loop of `nextPrime` wraps and stops at 3. -/
theorem nextPrime_above_4294967291 {n : Nat} (h : 4294967291 < n) (hn : n < UINT_MOD) :
    nextPrime n = some 3 := by
  have hU : UINT_MOD = 4294967296 := by norm_num [UINT_MOD]
  unfold nextPrime
  rw [if_neg (by omega)]
  simp only
  have hm : (if n % 2 = 0 then (n + 1) % UINT_MOD else n) = if n % 2 = 0 then n + 1 else n := by
    split_ifs
    · exact Nat.mod_eq_of_lt (by omega)
    · rfl
  rw [hm]
  exact nextPrimeLoop_wrap _ _ (by split_ifs <;> omega) (by split_ifs <;> omega)
    (by split_ifs <;> omega)
    (fun q hq hle => not_prime_above_4294967291 hq (by split_ifs at hle <;> omega))
    (by norm_num; split_ifs <;> omega)

/-! ## The bucket index is in range -/

theorem insertStep_ok {t : CourseHashTable} (hlen : t.buckets.length = t.tableSize)
    (hpos : 1 ≤ t.tableSize) (c : Course) :
    ∃ t1 r, insertStep t c = .ok (t1, r) ∧ t1.buckets.length = t.buckets.length := by
  have hlt := hash_lt hpos c.courseNumber
  have hget : t.buckets[t.hash c.courseNumber]? = some (t.buckets[t.hash c.courseNumber]) :=
    List.getElem?_eq_getElem (by omega)
  unfold insertStep
  simp only [hget]
  split_ifs
  · exact ⟨_, _, rfl, by simp⟩
  · exact ⟨_, _, rfl, by simp⟩
  · split
    · exact ⟨_, _, rfl, by simp⟩
    · exact ⟨_, _, rfl, by simp⟩

theorem searchCourse_ok {t : CourseHashTable} (hlen : t.buckets.length = t.tableSize)
    (hpos : 1 ≤ t.tableSize) (k : String) : ∃ c, t.searchCourse k = .ok c := by
  have hlt := hash_lt hpos k
  have hget : t.buckets[t.hash k]? = some (t.buckets[t.hash k]) :=
    List.getElem?_eq_getElem (by omega)
  unfold searchCourse
  simp only [hget]
  split_ifs
  · exact ⟨_, rfl⟩
  · exact ⟨_, rfl⟩

/-- On a table whose bucket array has `tableSize >= 1` entries, `Insert` does not throw:
a run of the model that gives no table has run out of fuel. -/
theorem Insert_not_outOfRange {t : CourseHashTable} (hlen : t.buckets.length = t.tableSize)
    (hpos : 1 ≤ t.tableSize) (c : Course) (fuel : Nat) (e : Fault)
    (h : Insert fuel t c = .error e) : e = Fault.fuel := by
  cases fuel with
  | zero => simp only [Insert, Except.error.injEq] at h; exact h.symm
  | succ fuel =>
    obtain ⟨t1, r, hstep, _⟩ := insertStep_ok hlen hpos c
    unfold Insert InsertWith at h
    rw [hstep] at h
    cases r with
    | none => simp at h
    | some len =>
      simp only at h
      by_cases hl : len > maxChainLength
      · rw [if_pos hl] at h
        cases hrs : reSizeWith (Insert fuel) t1 with
        | ok res => obtain ⟨t3, o3⟩ := res; rw [hrs] at h; simp at h
        | error e1 =>
          rw [hrs] at h
          simp only [Except.error.injEq] at h
          subst h
          unfold reSizeWith at hrs
          cases hp : nextPrime (((t1.tableSize * 2) % SIZE_T_MOD) % UINT_MOD) with
          | none => rw [hp] at hrs; simp only [Except.error.injEq] at hrs; exact hrs.symm
          | some p =>
            rw [hp] at hrs
            obtain ⟨hprime, hlt⟩ := nextPrime_sound (Nat.mod_lt _ (by norm_num [UINT_MOD])) hp
            exact rehash_error (Insert_spec fuel) (Insert_error fuel) _ _ _ e1
              (inv_ofSize hprime hlt) hrs
      · rw [if_neg hl] at h; simp at h
/-! ## The loader -/

theorem Clear_numElements (t : CourseHashTable) : t.Clear.numElements = 0 := rfl

theorem allCourses_Clear {t : CourseHashTable} (h : TableInv t) : t.Clear.allCourses = [] := by
  rw [Clear_eq_ofSize h.1.length_eq]; exact allCourses_ofSize _

/-- The loop of `loadCourses` on a table that satisfies the invariant ends in one of three
ways: a call of `Insert` does not return; a line is rejected and the table is cleared; or all
lines are accepted. -/
theorem loadLoop_classify (fuel : Nat) : ∀ (lines courseNumbers : List String)
    (courses : List Course) (ht : CourseHashTable), TableInv ht →
    loadLoop fuel lines courseNumbers courses ht = .error Fault.fuel ∨
    (∃ t, loadLoop fuel lines courseNumbers courses ht = .ok (none, t) ∧
      t.numElements = 0 ∧ t.allCourses = []) ∨
    (∃ r t, loadLoop fuel lines courseNumbers courses ht = .ok (some r, t) ∧ TableInv t ∧
      Accepted lines courseNumbers) := by
  intro lines
  induction lines with
  | nil =>
    intro nums courses ht hinv
    exact Or.inr (Or.inr ⟨_, _, rfl, hinv, trivial⟩)
  | cons line rest ih =>
    intro nums courses ht hinv
    unfold loadLoop Accepted
    by_cases hl : line = ""
    · simp only [if_pos hl]
      exact ih nums courses ht hinv
    · simp only [if_neg hl]
      cases hp : parseLine line with
      | none => exact Or.inr (Or.inl ⟨_, rfl, rfl, allCourses_Clear hinv⟩)
      | some c =>
        simp only
        by_cases hdup : c.courseNumber ∈ nums
        · rw [if_pos hdup]
          exact Or.inr (Or.inl ⟨_, rfl, rfl, allCourses_Clear hinv⟩)
        · rw [if_neg hdup]
          cases hI : Insert fuel ht c with
          | error e =>
            rw [Insert_error fuel ht c e hinv hI]
            exact Or.inl rfl
          | ok res =>
            obtain ⟨ht1, o⟩ := res
            simp only
            have hinv1 := (Insert_spec fuel ht c ht1 o hinv hI).1
            rcases ih (c.courseNumber :: nums) (courses ++ [c]) ht1 hinv1 with h | h | h
            · exact Or.inl h
            · exact Or.inr (Or.inl h)
            · obtain ⟨r, t, h1, h2, h3⟩ := h
              exact Or.inr (Or.inr ⟨r, t, h1, h2, c, rfl, hdup, h3⟩)

theorem Accepted_mem : ∀ (lines courseNumbers : List String), Accepted lines courseNumbers →
    ∀ line ∈ lines, line ≠ "" →
      ∃ c, parseLine line = some c ∧ c.courseNumber ∉ courseNumbers := by
  intro lines
  induction lines with
  | nil => intro _ _ line hl; simp at hl
  | cons l rest ih =>
    intro nums hacc line hmem hne
    unfold Accepted at hacc
    by_cases hl : l = ""
    · rw [if_pos hl] at hacc
      rcases List.mem_cons.1 hmem with rfl | h
      · exact absurd hl hne
      · exact ih nums hacc line h hne
    · rw [if_neg hl] at hacc
      obtain ⟨c, hc, hnew, hrest⟩ := hacc
      rcases List.mem_cons.1 hmem with rfl | h
      · exact ⟨c, hc, hnew⟩
      · obtain ⟨c2, hc2, hnew2⟩ := ih _ hrest line h hne
        exact ⟨c2, hc2, fun hin => hnew2 (List.mem_cons_of_mem _ hin)⟩

theorem lineId_of_parseLine {line : String} {c : Course} (h : parseLine line = some c) :
    lineId line = some c.courseNumber := by
  unfold parseLine at h
  unfold lineId
  simp only at h
  split_ifs at h
  split at h
  · rename_i f0 f1 more hf
    split_ifs at h
    cases hp : parsePrereqs more with
    | none => rw [hp] at h; simp at h
    | some ps =>
      rw [hp] at h
      simp only [Option.map_some', Option.some.injEq] at h
      subst h
      rw [hf]; rfl
  · simp at h

theorem lineId_empty : lineId "" = none := by decide

theorem Accepted_not_hasDuplicate : ∀ (lines courseNumbers : List String),
    Accepted lines courseNumbers → ¬ HasDuplicate lines := by
  intro lines
  induction lines with
  | nil =>
    rintro _ _ ⟨i, j, a, b, k, _, hi, _⟩
    simp at hi
  | cons l rest ih =>
    rintro nums hacc ⟨i, j, a, b, k, hij, hi, hj, hbne, ha, hb⟩
    obtain ⟨j1, rfl⟩ : ∃ j1, j = j1 + 1 := ⟨j - 1, by omega⟩
    rw [List.getElem?_cons_succ] at hj
    unfold Accepted at hacc
    cases i with
    | zero =>
      rw [List.getElem?_cons_zero] at hi
      cases hi
      have hl : l ≠ "" := by
        rintro rfl
        rw [lineId_empty] at ha
        simp at ha
      rw [if_neg hl] at hacc
      obtain ⟨c, hc, _, hrest⟩ := hacc
      have hk : c.courseNumber = k := by
        have := lineId_of_parseLine hc
        rw [ha] at this
        exact (Option.some.inj this).symm
      obtain ⟨c2, hc2, hnew2⟩ := Accepted_mem rest _ hrest b
        (List.mem_iff_getElem?.2 ⟨j1, hj⟩) hbne
      have hk2 : c2.courseNumber = k := by
        have := lineId_of_parseLine hc2
        rw [hb] at this
        exact (Option.some.inj this).symm
      exact hnew2 (by rw [hk2, hk]; exact List.mem_cons_self _ _)
    | succ i1 =>
      rw [List.getElem?_cons_succ] at hi
      have hd : HasDuplicate rest := ⟨i1, j1, a, b, k, by omega, hi, hj, hbne, ha, hb⟩
      by_cases hl : l = ""
      · rw [if_pos hl] at hacc
        exact ih nums hacc hd
      · rw [if_neg hl] at hacc
        obtain ⟨c, _, _, hrest⟩ := hacc
        exact ih _ hrest hd

/-- When the loop of `loadCourses` cannot accept the file, a call that returns has returned
false and left the table empty. -/
theorem loadCourses_of_not_accepted {lines : List String} {ht : CourseHashTable}
    (hinv : TableInv ht) (hna : ¬ Accepted lines []) (fuel : Nat) :
    loadCourses fuel lines ht = .error Fault.fuel ∨
      ∃ t, loadCourses fuel lines ht = .ok (false, t) ∧ t.Size = 0 ∧ t.allCourses = [] := by
  unfold loadCourses
  rcases loadLoop_classify fuel lines [] [] ht.Clear (inv_Clear hinv) with h | h | h
  · rw [h]; exact Or.inl rfl
  · obtain ⟨t, h1, h2, h3⟩ := h
    rw [h1]
    exact Or.inr ⟨t, rfl, h2, h3⟩
  · obtain ⟨r, t, _, _, h3⟩ := h
    exact absurd h3 hna

theorem parsePrereqs_none {more : List String} {p : String} (hp : p ∈ more) (hne : p ≠ "")
    (hbad : p.length < 4 ∨ containsDigit p = false) : parsePrereqs more = none := by
  induction more with
  | nil => simp at hp
  | cons q rest ih =>
    unfold parsePrereqs
    rcases List.mem_cons.1 hp with rfl | h
    · rw [if_neg hne, if_pos hbad]
    · by_cases hq : q = ""
      · rw [if_pos hq]; exact ih h
      · rw [if_neg hq]
        split_ifs
        · rfl
        · rw [ih h]; rfl
/-- A file with a line that carries the course number of an earlier line: a call of
`loadCourses` that returns has returned false and left the table empty. -/
theorem loadCourses_of_hasDuplicate {lines : List String} {ht : CourseHashTable}
    (hinv : TableInv ht) (hdup : HasDuplicate lines) (fuel : Nat) :
    loadCourses fuel lines ht = .error Fault.fuel ∨
      ∃ t, loadCourses fuel lines ht = .ok (false, t) ∧ t.Size = 0 ∧ t.allCourses = [] :=
  loadCourses_of_not_accepted hinv (fun hacc => Accepted_not_hasDuplicate _ _ hacc hdup) fuel

theorem loadLoop_cons_ok {fuel : Nat} {line : String} {rest courseNumbers : List String}
    {courses : List Course} {ht ht1 : CourseHashTable} {c : Course} {o : List Out}
    (hl : line ≠ "") (hp : parseLine line = some c) (hnew : c.courseNumber ∉ courseNumbers)
    (hI : Insert fuel ht c = .ok (ht1, o)) :
    loadLoop fuel (line :: rest) courseNumbers courses ht
      = loadLoop fuel rest (c.courseNumber :: courseNumbers) (courses ++ [c]) ht1 := by
  rw [loadLoop, if_neg hl, hp]
  simp only [if_neg hnew, hI]

theorem loadLoop_cons_error {fuel : Nat} {line : String} {rest courseNumbers : List String}
    {courses : List Course} {ht : CourseHashTable} {c : Course} {e : Fault}
    (hl : line ≠ "") (hp : parseLine line = some c) (hnew : c.courseNumber ∉ courseNumbers)
    (hI : Insert fuel ht c = .error e) :
    loadLoop fuel (line :: rest) courseNumbers courses ht = .error e := by
  rw [loadLoop, if_neg hl, hp]
  simp only [if_neg hnew, hI]
/-! ## The hash value as a polynomial -/

theorem charValue_of_ascii {c : Char} (h : c.toNat < 128) : charValue c = c.toNat := by
  unfold charValue; rw [if_pos h]

theorem foldl_hash_eq_mod : ∀ (l : List Char) (h h1 : Nat), (∀ c ∈ l, c.toNat < 128) →
    h = h1 % UINT_MOD →
    l.foldl (fun h c => (h * 31 + charValue c) % UINT_MOD) h
      = l.foldl (fun h c => 31 * h + c.toNat) h1 % UINT_MOD := by
  intro l
  induction l with
  | nil => intro h h1 _ e; exact e
  | cons c rest ih =>
    intro h h1 hascii e
    simp only [List.foldl_cons]
    apply ih _ _ (fun d hd => hascii d (List.mem_cons_of_mem _ hd))
    rw [e, charValue_of_ascii (hascii c (List.mem_cons_self _ _)), Nat.mul_comm 31 h1]
    conv_rhs => rw [Nat.add_mod, Nat.mul_mod]
    conv_lhs => rw [Nat.add_mod, Nat.mul_mod, Nat.mod_mod]

/-- For a course number of ASCII characters, `hashValue` is the value of the polynomial
reduced to `unsigned int`. -/
theorem hashValue_eq_polyValue_mod {k : String} (hascii : ∀ c ∈ k.data, c.toNat < 128) :
    hashValue k = polyValue k % UINT_MOD := by
  unfold hashValue polyValue
  exact foldl_hash_eq_mod k.data 0 0 hascii (by norm_num [UINT_MOD])
/-! ## Occupied slots -/

theorem flatMap_congr_mem {α β : Type} {f g : α → List β} :
    ∀ (l : List α), (∀ x ∈ l, f x = g x) → l.flatMap f = l.flatMap g := by
  intro l
  induction l with
  | nil => intro _; rfl
  | cons a rest ih =>
    intro h
    simp only [List.flatMap_cons]
    rw [h a (List.mem_cons_self _ _), ih (fun x hx => h x (List.mem_cons_of_mem _ hx))]

theorem length_flatMap_bucketCourses : ∀ (l : List Node),
    (∀ node ∈ l, node.key = UINT_MAX → node.next = []) →
    (l.flatMap bucketCourses).length
      = (l.filter (fun node => decide (node.key ≠ UINT_MAX))).length
        + (l.map (fun node => node.next.length)).sum := by
  intro l
  induction l with
  | nil => intro _; rfl
  | cons a rest ih =>
    intro h
    have ih1 := ih (fun x hx => h x (List.mem_cons_of_mem _ hx))
    simp only [List.flatMap_cons, List.length_append, List.map_cons, List.sum_cons, ih1]
    by_cases hk : a.key = UINT_MAX
    · rw [bucketCourses_of_eq hk, h a (List.mem_cons_self _ _) hk,
        List.filter_cons_of_neg (by simp [hk])]
      simp
    · rw [bucketCourses_of_ne hk, List.filter_cons_of_pos (by simp [hk])]
      simp only [List.length_cons, List.length_map]
      omega

theorem storedCourses_eq {t : CourseHashTable} (h : WF t) : t.storedCourses = t.allCourses := by
  unfold storedCourses allCourses
  apply flatMap_congr_mem
  intro node hn
  obtain ⟨i, hi⟩ := List.mem_iff_getElem?.1 (List.mem_of_mem_take hn)
  have hb := h.bucket i node hi
  by_cases hk : node.key = UINT_MAX
  · rw [bucketCourses_of_eq hk, hb.next_nil hk]
    simp [hk]
  · rw [bucketCourses_of_ne hk]
    simp [hk]

theorem occupiedSlots_eq {t : CourseHashTable} (h : WF t) :
    t.occupiedSlots = t.allCourses.length := by
  unfold occupiedSlots allCourses
  rw [length_flatMap_bucketCourses]
  intro node hn hk
  obtain ⟨i, hi⟩ := List.mem_iff_getElem?.1 (List.mem_of_mem_take hn)
  exact (h.bucket i node hi).next_nil hk
/-! ## The listing and the stored records -/

theorem perm_sortInsert (c : Course) (l : List Course) : (sortInsert c l).Perm (c :: l) := by
  induction l with
  | nil => exact List.Perm.refl _
  | cons d rest ih =>
    unfold sortInsert
    split_ifs
    · exact List.Perm.refl _
    · exact ((List.Perm.cons d ih).trans (List.Perm.swap c d rest))

theorem perm_sortCourses (l : List Course) : (sortCourses l).Perm l := by
  induction l with
  | nil => exact List.Perm.refl _
  | cons c rest ih =>
    unfold sortCourses
    exact (perm_sortInsert c _).trans (List.Perm.cons c ih)

theorem nodup_ids_printAll {t : CourseHashTable} (h : WF t) : (ids t.printAll).Nodup := by
  unfold printAll ids
  exact ((perm_sortCourses t.allCourses).map _).nodup_iff.2
    (nodup_ids_allCourses h.length_eq h.bucket)

theorem mem_printAll {t : CourseHashTable} (x : Course) :
    x ∈ t.printAll ↔ x ∈ t.allCourses := by
  unfold printAll; exact mem_sortCourses

theorem withNumber_of_mem {l : List Course} (hl : (ids l).Nodup) {x : Course} (hx : x ∈ l) :
    withNumber x.courseNumber l = [x] := by
  induction l with
  | nil => simp at hx
  | cons d rest ih =>
    simp only [ids, List.map_cons, List.nodup_cons] at hl
    unfold withNumber at ih ⊢
    rcases List.mem_cons.1 hx with rfl | hx1
    · rw [List.filter_cons_of_pos (by simp)]
      congr 1
      rw [List.filter_eq_nil_iff]
      intro y hy
      simp only [decide_eq_true_eq]
      intro e
      exact hl.1 (e ▸ mem_ids.2 ⟨y, hy, rfl⟩)
    · have hne : d.courseNumber ≠ x.courseNumber := fun e =>
        hl.1 (e ▸ mem_ids.2 ⟨x, hx1, rfl⟩)
      rw [List.filter_cons_of_neg (by simpa using hne)]
      exact ih hl.2 hx1

theorem withNumber_of_not_mem {l : List Course} {k : String} (hk : k ∉ ids l) :
    withNumber k l = [] := by
  unfold withNumber
  rw [List.filter_eq_nil_iff]
  intro y hy
  simp only [decide_eq_true_eq]
  intro e
  exact hk (mem_ids.2 ⟨y, hy, e⟩)

theorem ReachableNonEmpty.toReachable {t : CourseHashTable} (h : ReachableNonEmpty t) :
    Reachable t := by
  induction h with
  | default => exact Reachable.default
  | insert c _ _ hr ih => exact Reachable.insert c ih hr
  | clear _ ih => exact Reachable.clear ih

theorem ReachableNonEmpty.courseNumber_ne {t : CourseHashTable} (h : ReachableNonEmpty t) :
    ∀ x ∈ t.allCourses, x.courseNumber ≠ "" := by
  induction h with
  | default =>
    intro x hx
    rw [show CourseHashTable.default.allCourses = [] from allCourses_ofSize _] at hx
    simp at hx
  | insert c hprev hne hr ih =>
    intro x hx
    obtain ⟨_, hmem⟩ := hr.spec hprev.toReachable.inv
    rcases (hmem x).1 hx with rfl | ⟨hx0, _⟩
    · exact hne
    · exact ih x hx0
  | clear hprev _ =>
    intro x hx
    rw [allCourses_Clear hprev.toReachable.inv] at hx
    simp at hx

/-- The value of `searchCourse` on a well-formed table: the stored record with the course
number, or the empty record when no stored record has it. -/
theorem searchCourse_cases {t : CourseHashTable} (h : WF t) (k : String) :
    (∃ x ∈ t.allCourses, x.courseNumber = k ∧ t.searchCourse k = .ok x) ∨
      (k ∉ ids t.allCourses ∧ t.searchCourse k = .ok emptyCourse) := by
  by_cases hk : k ∈ ids t.allCourses
  · obtain ⟨x, hx, rfl⟩ := mem_ids.1 hk
    exact Or.inl ⟨x, hx, rfl, searchCourse_of_mem h hx⟩
  · exact Or.inr ⟨hk, searchCourse_of_not_mem h hk⟩

/-! ## Counts after calls that return -/

/-- Take a list of records with pairwise different course numbers whose calls of `Insert`,
made one after another on the default table, have all returned. Then for every beginning `p`
of the list the calls with the records of `p` have returned, and after them `Size()` is the
length of `p` and `printAll` lists as many records, whether or not a call has resized the
table. -/
theorem insertAll_count (fuel : Nat) (cs : List Course) (hnd : (ids cs).Nodup)
    (t : CourseHashTable) (out : List Out)
    (h : insertAll fuel (CourseHashTable.default, []) cs = .ok (t, out))
    (p : List Course) (hp : p <+: cs) :
    ∃ tp outp, insertAll fuel (CourseHashTable.default, []) p = .ok (tp, outp) ∧
      tp.Size = p.length ∧ tp.printAll.length = p.length := by
  obtain ⟨s, rfl⟩ := hp
  obtain ⟨⟨tp, outp⟩, hrun⟩ := insertAll_append_ok fuel p s _ _ h
  have hndp : (ids p).Nodup := by
    simp only [ids, List.map_append] at hnd
    exact (List.nodup_append.1 hnd).1
  obtain ⟨hinv, hn, _⟩ := insertAll_spec fuel p _ _ tp outp inv_default hndp
    (by intro c _; rw [show CourseHashTable.default.allCourses = [] from allCourses_ofSize _]
        simp [ids]) hrun
  have h0 : CourseHashTable.default.numElements = 0 := rfl
  rw [h0, Nat.zero_add] at hn
  refine ⟨tp, outp, hrun, hn, ?_⟩
  unfold printAll
  rw [length_sortCourses, ← hinv.1.count, hn]

set_option maxRecDepth 100000 in
/-- The counts at five records of which the fifth makes the default table resize: the state
after the first four and the state after all five. -/
theorem insertAll_count_sameBucket31 :
    (∃ tp outp, insertAll 2 (CourseHashTable.default, []) (sameBucket31.take 4)
        = .ok (tp, outp) ∧ tp.Size = 4 ∧ tp.printAll.length = 4) ∧
      (∃ tp outp, insertAll 2 (CourseHashTable.default, []) sameBucket31 = .ok (tp, outp) ∧
        tp.Size = 5 ∧ tp.printAll.length = 5) ∧
      (tableOf sameBucket31).tableSize = 67 :=
  ⟨insertAll_count 2 sameBucket31 (by decide) (tableOf sameBucket31)
      [Out.chainExceeds 5, Out.resizing 31 67] (by decide) (sameBucket31.take 4)
      (List.take_prefix 4 sameBucket31),
    insertAll_count 2 sameBucket31 (by decide) (tableOf sameBucket31)
      [Out.chainExceeds 5, Out.resizing 31 67] (by decide) sameBucket31 (List.prefix_refl _),
    by decide⟩

/-! ## The claims -/

/-- C1 (rehash preservation). Take a table built from the default table by calls of `Insert`
and a call of `Insert` on it that appends a node, finds the chain longer than
`maxChainLength` and so calls `reSize`; `t1` is the table at that point. The appended record
is stored in `t1`, and when the call of `Insert` has returned, `searchCourse` returns every
record stored in `t1` unchanged: same course number, same name, same prerequisites. -/
theorem rehash_preservation {t t1 t2 : CourseHashTable} {course : Course} {chainLength : Nat}
    {out : List Out} (hreach : InsertReachable t)
    (hstep : insertStep t course = .ok (t1, some chainLength))
    (hover : chainLength > maxChainLength) (hret : Returns t course t2 out) :
    course ∈ t1.allCourses ∧ (∃ out1, out = Out.chainExceeds chainLength :: out1) ∧
      ∀ x ∈ t1.allCourses, t2.searchCourse x.courseNumber = .ok x := by
  have hinv := hreach.reachable.inv
  obtain ⟨hinv2, hmem2⟩ := hret.spec hinv
  obtain ⟨t1', r, node, _, hstep', _, _, hmem1, _, _⟩ := insertStep_spec course hinv.1
  rw [hstep] at hstep'
  simp only [Except.ok.injEq, Prod.mk.injEq] at hstep'
  obtain ⟨rfl, rfl⟩ := hstep'
  refine ⟨(hmem1 course).2 (Or.inl rfl), ?_, ?_⟩
  · obtain ⟨fuel, hf⟩ := hret
    cases fuel with
    | zero => simp [Insert] at hf
    | succ fuel =>
      unfold Insert InsertWith at hf
      rw [hstep] at hf
      simp only [if_pos hover] at hf
      cases hrs : reSizeWith (Insert fuel) t1 with
      | error e => rw [hrs] at hf; simp at hf
      | ok res =>
        obtain ⟨t3, o3⟩ := res
        rw [hrs] at hf
        simp only [Except.ok.injEq, Prod.mk.injEq] at hf
        exact ⟨o3, hf.2.symm⟩
  · intro x hx
    exact searchCourse_of_mem hinv2.1 ((hmem2 x).2 ((hmem1 x).1 hx))

set_option maxRecDepth 100000 in
/-- C1, at the fifth of five records that share a bucket of the default table. -/
theorem rehash_preservation_witness :
    (⟨"CSCI148", "Networks", ["CSCI128"]⟩ : Course)
        ∈ (stepTable (tableOf (sameBucket31.take 4)) ⟨"CSCI148", "Networks", ["CSCI128"]⟩).allCourses ∧
      (∃ out1, [Out.chainExceeds 5, Out.resizing 31 67] = Out.chainExceeds 5 :: out1) ∧
      ∀ x ∈ (stepTable (tableOf (sameBucket31.take 4))
          ⟨"CSCI148", "Networks", ["CSCI128"]⟩).allCourses,
        (tableOf sameBucket31).searchCourse x.courseNumber = .ok x :=
  @rehash_preservation (tableOf (sameBucket31.take 4)) _ _
    ⟨"CSCI148", "Networks", ["CSCI128"]⟩ 5 _
    (insertReachable_tableOf _) (by decide) (by decide) ⟨2, by decide⟩

set_option maxRecDepth 100000 in
/-- C2 fails on the code. The five records of `sameHashValue` have pairwise different,
non-empty course numbers, which have one value of `hashValue`. The first four calls of
`Insert` on the default table return, and after them `Size()` is 4 and `printAll` lists four
records. The fifth call does not return (the defect of C7): the run of the five calls gives
no table with any amount of fuel, so the sequence of five calls has no state in which
`Size()` is 5 or `printAll` lists five records. -/
theorem count_fidelity_diverges :
    (ids sameHashValue).Nodup ∧
      (∀ c ∈ sameHashValue, c.courseNumber ≠ "" ∧ c.name ≠ "") ∧
      (∀ c ∈ sameHashValue, hashValue c.courseNumber = 1952508096) ∧
      (∃ t4, insertAll 1 (CourseHashTable.default, []) (sameHashValue.take 4) = .ok (t4, []) ∧
        t4.Size = 4 ∧ t4.printAll.length = 4) ∧
      ∀ fuel, insertAll fuel (CourseHashTable.default, []) sameHashValue
        = .error Fault.fuel := by
  refine ⟨by decide, by decide, by decide, ⟨tableOf (sameHashValue.take 4), by decide, by decide,
    by decide⟩, fun fuel => ?_⟩
  cases fuel with
  | zero => decide
  | succ f =>
    have hall : (tableOf (sameHashValue.take 4)).allCourses = sameHashValue.take 4 := by decide
    have h5 : Insert (f + 1) (tableOf (sameHashValue.take 4)) ⟨"BBAaAa", "Five", []⟩
        = .error Fault.fuel :=
      Insert_same_hashValue (insertReachable_tableOf _).reachable.inv _
        (sameHashValue.take 4) (by decide) (by decide) (by rw [hall]; exact fun _ h => h)
        (by decide) (by rw [hall]; decide) (f + 1)
    have h1 : Insert (f + 1) CourseHashTable.default ⟨"AaAaAa", "One", []⟩
        = .ok (tableOf (sameHashValue.take 1), []) :=
      Insert_mono (Nat.le_add_left 1 f) (show Insert 1 _ _ = _ by decide)
    have h2 : Insert (f + 1) (tableOf (sameHashValue.take 1)) ⟨"AaAaBB", "Two", []⟩
        = .ok (tableOf (sameHashValue.take 2), []) :=
      Insert_mono (Nat.le_add_left 1 f) (show Insert 1 _ _ = _ by decide)
    have h3 : Insert (f + 1) (tableOf (sameHashValue.take 2)) ⟨"AaBBAa", "Three", []⟩
        = .ok (tableOf (sameHashValue.take 3), []) :=
      Insert_mono (Nat.le_add_left 1 f) (show Insert 1 _ _ = _ by decide)
    have h4 : Insert (f + 1) (tableOf (sameHashValue.take 3)) ⟨"AaBBBB", "Four", []⟩
        = .ok (tableOf (sameHashValue.take 4), []) :=
      Insert_mono (Nat.le_add_left 1 f) (show Insert 1 _ _ = _ by decide)
    unfold sameHashValue
    simp only [insertAll, h1, h2, h3, h4, h5, List.append_nil]

/-- C3 (update semantics). On a table built from the default table by calls of `Insert` and
`Clear`, a call of `Insert` with a record whose course number is stored returns (at once,
without calling `reSize`), leaves `Size()` and the capacity as they were, and afterwards
`searchCourse` returns the new record for that number. -/
theorem update_semantics {t : CourseHashTable} (hreach : Reachable t) (r : Course)
    (hstored : r.courseNumber ∈ ids t.allCourses) (fuel : Nat) :
    ∃ t1, Insert (fuel + 1) t r = .ok (t1, []) ∧ t1.Size = t.Size ∧
      t1.tableSize = t.tableSize ∧ t1.searchCourse r.courseNumber = .ok r := by
  have hinv := hreach.inv
  obtain ⟨t1, o, node, _, hstep, hwf1, hsize, hmem, hr, _⟩ := insertStep_spec r hinv.1
  rw [if_pos (Or.inl hstored)] at hr
  subst hr
  have hI : Insert (fuel + 1) t r = .ok (t1, []) := by
    unfold Insert InsertWith
    rw [hstep]
  refine ⟨t1, hI, ?_, hsize, searchCourse_of_mem hwf1 ((hmem r).2 (Or.inl rfl))⟩
  have := Insert_numElements hinv hI
  rw [if_pos hstored] at this
  exact this

set_option maxRecDepth 100000 in
/-- C3, at a record of scenario A with a new name. -/
theorem update_semantics_witness :
    ∃ t1, Insert 1 (tableOf scenarioA) ⟨"CS101", "Introduction", ["CS201"]⟩ = .ok (t1, []) ∧
      t1.Size = (tableOf scenarioA).Size ∧ t1.tableSize = (tableOf scenarioA).tableSize ∧
      t1.searchCourse "CS101" = .ok ⟨"CS101", "Introduction", ["CS201"]⟩ :=
  update_semantics (insertReachable_tableOf scenarioA).reachable
    ⟨"CS101", "Introduction", ["CS201"]⟩ (by decide) 0

set_option maxRecDepth 100000 in
/-- C4 (lookup after insert). On a table built from the default table by calls of `Insert`
and `Clear`, when `Insert` with a record of non-empty course number has returned,
`searchCourse` returns that record for its number, whatever path `Insert` took (empty head,
update, new chain node, resize). Scenario A: the two calls return, after them
`searchCourse("CS201")` is the record with name "Data Structures" and prerequisites
`["CS101"]`, and `printAll` lists `CS101`, `CS201` in this order. -/
theorem lookup_after_insert :
    (∀ (t t1 : CourseHashTable) (r : Course) (out : List Out), Reachable t →
      r.courseNumber ≠ "" → Returns t r t1 out → t1.searchCourse r.courseNumber = .ok r) ∧
    (∃ t, insertAll 1 (CourseHashTable.default, []) scenarioA = .ok (t, []) ∧
      t.searchCourse "CS201" = .ok ⟨"CS201", "Data Structures", ["CS101"]⟩ ∧
      ids t.printAll = ["CS101", "CS201"]) := by
  constructor
  · intro t t1 r out hreach _ hret
    obtain ⟨hinv1, hmem⟩ := hret.spec hreach.inv
    exact searchCourse_of_mem hinv1.1 ((hmem r).2 (Or.inl rfl))
  · exact ⟨tableOf scenarioA, by decide, by decide, by decide⟩

set_option maxRecDepth 100000 in
/-- C4, at the insertion that makes the default table resize. -/
theorem lookup_after_insert_witness :
    (tableOf sameBucket31).searchCourse "CSCI148" = .ok ⟨"CSCI148", "Networks", ["CSCI128"]⟩ :=
  lookup_after_insert.1 (tableOf (sameBucket31.take 4)) (tableOf sameBucket31)
    ⟨"CSCI148", "Networks", ["CSCI128"]⟩ [Out.chainExceeds 5, Out.resizing 31 67]
    (insertReachable_tableOf _).reachable (by decide) ⟨2, by decide⟩

set_option maxRecDepth 100000 in
/-- C5 as stated fails. The first four records of `sameBucket31and67` are in bucket 23 of the
default table; `Insert` of the fifth appends a fifth node to that bucket and calls `reSize`.
In the new table of 67 buckets the five records again share a bucket, so the `Insert` of the
rehash calls `reSize` once more, and the call returns with 137 buckets, which is not the
smallest prime from `2 * 31` on. -/
theorem capacity_growth_nested :
    InsertReachable (tableOf (sameBucket31and67.take 4)) ∧
      insertStep (tableOf (sameBucket31and67.take 4)) ⟨"CSGL410", "Logic", []⟩
        = .ok (stepTable (tableOf (sameBucket31and67.take 4)) ⟨"CSGL410", "Logic", []⟩, some 5) ∧
      5 > maxChainLength ∧
      Returns (tableOf (sameBucket31and67.take 4)) ⟨"CSGL410", "Logic", []⟩
        (tableOf sameBucket31and67)
        [Out.chainExceeds 5, Out.resizing 31 67, Out.chainExceeds 5, Out.resizing 67 137] ∧
      (tableOf (sameBucket31and67.take 4)).tableSize = 31 ∧
      (tableOf sameBucket31and67).tableSize = 137 ∧
      ¬ IsSmallestPrimeGE (2 * (tableOf (sameBucket31and67.take 4)).tableSize)
          (tableOf sameBucket31and67).tableSize := by
  refine ⟨insertReachable_tableOf _, by decide, by decide, ⟨3, by decide⟩, by decide,
    by decide, ?_⟩
  rw [show (tableOf (sameBucket31and67.take 4)).tableSize = 31 by decide,
    show (tableOf sameBucket31and67).tableSize = 137 by decide]
  rintro ⟨_, _, h⟩
  have := h 67 (by norm_num) (by norm_num)
  omega

/-- C5, amended. Take a table built from the default table by calls of `Insert` and a call
of `Insert` on it that appends a node and finds more than `maxChainLength` records in the
bucket. When the call returns, `reSize` has been called at least once, and the capacity
results from the capacity at the call by as many steps `c ↦ nextPrime(2 * c)` (the argument
narrowed to `unsigned int`) as `reSize` has been called; when that was once and the capacity
was at most `2 ^ 30`, the new capacity is the smallest prime from twice the old on. -/
theorem capacity_growth {t t1 t2 : CourseHashTable} {course : Course} {chainLength : Nat}
    {out : List Out} (_hreach : InsertReachable t)
    (hstep : insertStep t course = .ok (t1, some chainLength))
    (hover : chainLength > maxChainLength) (hret : Returns t course t2 out) :
    1 ≤ resizeCount out ∧ growSteps (resizeCount out) t.tableSize = some t2.tableSize ∧
      (resizeCount out = 1 → t.tableSize ≤ 2 ^ 30 →
        IsSmallestPrimeGE (2 * t.tableSize) t2.tableSize) := by
  obtain ⟨fuel, hf⟩ := hret
  have hg := Insert_growth fuel t course t2 out hf
  obtain ⟨p, o1, _, hout⟩ := Insert_overflow_out hstep hover hf
  refine ⟨?_, hg, ?_⟩
  · rw [hout, resizeCount_chainExceeds, resizeCount_resizing]; omega
  · intro h1 hsmall
    rw [h1, growSteps_succ] at hg
    cases hp : growStep t.tableSize with
    | none => rw [hp] at hg; simp at hg
    | some q =>
      rw [hp] at hg
      simp only [growSteps, Option.some_bind, Option.some.injEq] at hg
      subst hg
      unfold growStep at hp
      have hS : SIZE_T_MOD = 18446744073709551616 := by norm_num [SIZE_T_MOD]
      have hU : UINT_MOD = 4294967296 := by norm_num [UINT_MOD]
      have h30 : (2 : Nat) ^ 30 = 1073741824 := by norm_num
      have h31 : (2 : Nat) ^ 31 = 2147483648 := by norm_num
      rw [hS, hU, Nat.mod_eq_of_lt (by omega), Nat.mod_eq_of_lt (by omega), Nat.mul_comm] at hp
      exact nextPrime_minimal (by omega) hp

set_option maxRecDepth 100000 in
/-- C5 amended, at the fifth of five records that share a bucket of the default table only:
one call of `reSize`, from 31 to 67 buckets. -/
theorem capacity_growth_witness :
    (tableOf (sameBucket31.take 4)).tableSize = 31 ∧ (tableOf sameBucket31).tableSize = 67 ∧
      1 ≤ resizeCount [Out.chainExceeds 5, Out.resizing 31 67] ∧
      growSteps (resizeCount [Out.chainExceeds 5, Out.resizing 31 67])
        (tableOf (sameBucket31.take 4)).tableSize = some (tableOf sameBucket31).tableSize ∧
      (resizeCount [Out.chainExceeds 5, Out.resizing 31 67] = 1 →
        (tableOf (sameBucket31.take 4)).tableSize ≤ 2 ^ 30 →
        IsSmallestPrimeGE (2 * (tableOf (sameBucket31.take 4)).tableSize)
          (tableOf sameBucket31).tableSize) :=
  ⟨by decide, by decide,
    @capacity_growth (tableOf (sameBucket31.take 4))
      (stepTable (tableOf (sameBucket31.take 4)) ⟨"CSCI148", "Networks", ["CSCI128"]⟩)
      (tableOf sameBucket31) ⟨"CSCI148", "Networks", ["CSCI128"]⟩ 5
      [Out.chainExceeds 5, Out.resizing 31 67]
      (insertReachable_tableOf _) (by decide) (by decide) ⟨2, by decide⟩⟩

set_option maxRecDepth 100000 in
/-- C6 as stated fails. The five records of `sameBucket31and67` have different, non-empty
course numbers that all hash to bucket 23 of the default table; the first four calls of
`Insert` do not resize, and the fifth returns after two calls of `reSize` (31 to 67, then 67
to 137 buckets), so no run of it has exactly one. -/
theorem scenarioC_two_resizes :
    (ids sameBucket31and67).Nodup ∧ (∀ c ∈ sameBucket31and67, c.courseNumber ≠ "") ∧
      (∀ c ∈ sameBucket31and67, CourseHashTable.default.hash c.courseNumber = 23) ∧
      insertAll 1 (CourseHashTable.default, []) (sameBucket31and67.take 4)
        = .ok (tableOf (sameBucket31and67.take 4), []) ∧
      Returns (tableOf (sameBucket31and67.take 4)) ⟨"CSGL410", "Logic", []⟩
        (tableOf sameBucket31and67)
        [Out.chainExceeds 5, Out.resizing 31 67, Out.chainExceeds 5, Out.resizing 67 137] ∧
      ¬ ∃ t5 out, Returns (tableOf (sameBucket31and67.take 4)) ⟨"CSGL410", "Logic", []⟩ t5 out ∧
          resizeCount out = 1 := by
  have hret : Returns (tableOf (sameBucket31and67.take 4)) ⟨"CSGL410", "Logic", []⟩
      (tableOf sameBucket31and67)
      [Out.chainExceeds 5, Out.resizing 31 67, Out.chainExceeds 5, Out.resizing 67 137] :=
    ⟨3, by decide⟩
  refine ⟨by decide, by decide, by decide, by decide, hret, ?_⟩
  rintro ⟨t5, out, h, hcount⟩
  obtain ⟨_, rfl⟩ := h.unique hret
  revert hcount
  decide

/-- C6, amended. Take five records with pairwise different, non-empty course numbers that
all hash to one bucket of the default table (31 buckets). The calls of `Insert` with the
first four return without resizing. A call with the fifth that returns has called `reSize`
at least once, and afterwards `searchCourse` returns each of the five records for its
number. When the five numbers do not all hash to one bucket of a table of 67 as well, the
call with the fifth does return, after exactly one call of `reSize`, from 31 to 67
buckets. -/
theorem scenarioC (c1 c2 c3 c4 c5 : Course) (hnd : (ids [c1, c2, c3, c4, c5]).Nodup)
    (_hne : ∀ c ∈ [c1, c2, c3, c4, c5], c.courseNumber ≠ "") (b : Nat)
    (hb : ∀ c ∈ [c1, c2, c3, c4, c5], CourseHashTable.default.hash c.courseNumber = b)
    (fuel : Nat) :
    ∃ t4, insertAll (fuel + 1) (CourseHashTable.default, []) [c1, c2, c3, c4] = .ok (t4, []) ∧
      t4.tableSize = 31 ∧
      (∀ t5 out, Returns t4 c5 t5 out → 1 ≤ resizeCount out ∧
        ∀ c ∈ [c1, c2, c3, c4, c5], t5.searchCourse c.courseNumber = .ok c) ∧
      ((¬ ∃ b1, ∀ c ∈ [c1, c2, c3, c4, c5], hashValue c.courseNumber % 67 = b1) →
        ∃ t5, Insert (fuel + 2) t4 c5 = .ok (t5, [Out.chainExceeds 5, Out.resizing 31 67]) ∧
          resizeCount [Out.chainExceeds 5, Out.resizing 31 67] = 1 ∧ t5.tableSize = 67) := by
  have hM : maxChainLength = 4 := rfl
  have hnd4 : (ids [c1, c2, c3, c4]).Nodup := by
    have : [c1, c2, c3, c4, c5] = [c1, c2, c3, c4] ++ [c5] := rfl
    rw [this] at hnd
    simp only [ids, List.map_append] at hnd
    exact (List.nodup_append.1 hnd).1
  have hc5new : c5.courseNumber ∉ ids [c1, c2, c3, c4] := by
    have : [c1, c2, c3, c4, c5] = [c1, c2, c3, c4] ++ [c5] := rfl
    rw [this] at hnd
    simp only [ids, List.map_append] at hnd
    intro hin
    exact (List.nodup_append.1 hnd).2.2 hin (by simp)
  have hd0 : CourseHashTable.default.allCourses = [] := allCourses_ofSize _
  have hnew0 : ∀ c ∈ [c1, c2, c3, c4], c.courseNumber ∉ ids CourseHashTable.default.allCourses := by
    intro c _; rw [hd0]; simp [ids]
  -- the first four calls
  obtain ⟨t4, hR4, hsz4⟩ := rehash_no_resize fuel [c1, c2, c3, c4] CourseHashTable.default []
    inv_default hnd4 hnew0 (Or.inl (by simp [hM, CourseHashTable.default, ofSize]))
  rw [← insertAll_eq_rehash] at hR4
  have hsz31 : t4.tableSize = 31 := hsz4
  obtain ⟨hinv4, hn4, hmem4⟩ := insertAll_spec _ _ _ _ t4 [] inv_default hnd4 hnew0 hR4
  have hn4' : t4.numElements = 4 := by
    rw [hn4]; rfl
  have hall4 : ∀ x, x ∈ t4.allCourses ↔ x ∈ [c1, c2, c3, c4] := by
    intro x; rw [hmem4 x, hd0]; simp
  have hhash4 : ∀ x ∈ t4.allCourses, t4.hash x.courseNumber = b := by
    intro x hx
    have hx5 : x ∈ [c1, c2, c3, c4, c5] := mem_five.2 (Or.inl ((hall4 x).1 hx))
    have := hb x hx5
    unfold CourseHashTable.hash at this ⊢
    rw [hsz31]; exact this
  have hhash5 : t4.hash c5.courseNumber = b := by
    have := hb c5 (by simp)
    unfold CourseHashTable.hash at this ⊢
    rw [hsz31]; exact this
  have hc5 : c5.courseNumber ∉ ids t4.allCourses := by
    intro hin
    obtain ⟨x, hx, hxe⟩ := mem_ids.1 hin
    exact hc5new (mem_ids.2 ⟨x, (hall4 x).1 hx, hxe⟩)
  -- the step of the fifth call
  obtain ⟨t1, r, node, hget, hstep, hwf1, hsize1, hmem1, hr, _⟩ := insertStep_spec c5 hinv4.1
  have hsubset : t4.allCourses ⊆ bucketCourses node := by
    intro x hx
    obtain ⟨node1, h1, h2⟩ := mem_bucket_of_mem hinv4.1.length_eq hinv4.1.bucket hx
    rw [hhash4 x hx, ← hhash5, hget] at h1
    cases h1
    exact h2
  have hlen4 : (bucketCourses node).length = 4 := by
    have h1 := (bucket_length_le hinv4.1 hget).1
    have h2 := (List.subperm_of_subset (List.Nodup.of_map _
      (nodup_ids_allCourses hinv4.1.length_eq hinv4.1.bucket)) hsubset).length_le
    rw [← hinv4.1.count] at h2
    omega
  have hkey : node.key ≠ UINT_MAX := by
    intro e
    rw [bucketCourses_of_eq e] at hlen4
    simp at hlen4
  have hr5 : r = some 5 := by
    rw [hr, if_neg (by rintro (h | h); exact hc5 h; exact hkey h), hlen4]
  subst hr5
  refine ⟨t4, hR4, hsz31, ?_, ?_⟩
  · -- a call that returns
    rintro t5 out ⟨f, hf⟩
    obtain ⟨p, o1, _, hout⟩ := Insert_overflow_out hstep (by decide) hf
    obtain ⟨hinv5, hmem5⟩ := Insert_spec f t4 c5 t5 out hinv4 hf
    refine ⟨by rw [hout, resizeCount_chainExceeds, resizeCount_resizing]; omega, ?_⟩
    intro c hc
    apply searchCourse_of_mem hinv5.1
    rw [hmem5 c, hall4 c]
    rcases mem_five.1 hc with h | h
    · exact Or.inr ⟨h, fun e => hc5new (mem_ids.2 ⟨c, h, e⟩)⟩
    · exact Or.inl h
  · -- the rehash in a table of 67 buckets
    intro h67
    have hn1 := nodup_ids_allCourses hwf1.length_eq hwf1.bucket
    have hlen1 : t1.allCourses.length = 5 := by
      have := length_of_mem_iff (nodup_ids_allCourses hinv4.1.length_eq hinv4.1.bucket) hn1
        hmem1
      rw [if_neg hc5, ← hinv4.1.count, hn4'] at this
      exact this
    have hall1 : ∀ x, x ∈ t1.allCourses ↔ x ∈ [c1, c2, c3, c4, c5] := by
      intro x
      rw [hmem1 x, hall4 x, mem_five]
      constructor
      · rintro (h | ⟨h, _⟩)
        · exact Or.inr h
        · exact Or.inl h
      · rintro (h | h)
        · exact Or.inr ⟨h, fun e => hc5new (mem_ids.2 ⟨x, h, e⟩)⟩
        · exact Or.inl h
    have hpair : ∃ x y, (x ∈ (ofSize 67).allCourses ∨ x ∈ t1.allCourses) ∧
        (y ∈ (ofSize 67).allCourses ∨ y ∈ t1.allCourses) ∧
        hashValue x.courseNumber % (ofSize 67).tableSize
          ≠ hashValue y.courseNumber % (ofSize 67).tableSize := by
      by_contra hno
      apply h67
      refine ⟨hashValue c1.courseNumber % 67, fun c hc => ?_⟩
      by_contra hne1
      exact hno ⟨c, c1, Or.inr ((hall1 c).2 hc), Or.inr ((hall1 c1).2 (by simp)), hne1⟩
    obtain ⟨t5, hR5, hsz5⟩ := rehash_no_resize fuel t1.allCourses (ofSize 67)
      [Out.resizing 31 67] (inv_ofSize (by norm_num) (by norm_num [UINT_MOD])) hn1
      (by intro c _; rw [allCourses_ofSize]; simp [ids])
      (Or.inr ⟨by rw [hlen1]; simp [ofSize, hM], hpair⟩)
    refine ⟨t5, ?_, by decide, hsz5⟩
    unfold Insert InsertWith
    rw [hstep]
    simp only [show (5 : Nat) > maxChainLength by decide, if_true]
    unfold reSizeWith
    rw [hsize1, hsz31, show nextPrime (((31 * 2) % SIZE_T_MOD) % UINT_MOD) = some 67 by decide]
    simp only
    rw [hR5]

set_option maxRecDepth 100000 in
/-- C6 amended, at the five records of `sameBucket31`, which lie in bucket 0 of the default
table and in five buckets of a table of 67. -/
theorem scenarioC_witness :
    ∃ t4 t5, insertAll 1 (CourseHashTable.default, [])
        [⟨"CSCI108", "Programming I", []⟩, ⟨"CSCI118", "Programming II", ["CSCI108"]⟩,
         ⟨"CSCI128", "Algorithms", ["CSCI118"]⟩, ⟨"CSCI138", "Databases", ["CSCI118"]⟩]
          = .ok (t4, []) ∧
      t4.tableSize = 31 ∧
      Insert 2 t4 ⟨"CSCI148", "Networks", ["CSCI128"]⟩
        = .ok (t5, [Out.chainExceeds 5, Out.resizing 31 67]) ∧
      resizeCount [Out.chainExceeds 5, Out.resizing 31 67] = 1 ∧ t5.tableSize = 67 ∧
      ∀ c ∈ sameBucket31, t5.searchCourse c.courseNumber = .ok c := by
  obtain ⟨t4, h1, h2, h3, h4⟩ := scenarioC ⟨"CSCI108", "Programming I", []⟩
    ⟨"CSCI118", "Programming II", ["CSCI108"]⟩ ⟨"CSCI128", "Algorithms", ["CSCI118"]⟩
    ⟨"CSCI138", "Databases", ["CSCI118"]⟩ ⟨"CSCI148", "Networks", ["CSCI128"]⟩
    (by decide) (by decide) 0 (by decide) 0
  obtain ⟨t5, hI, hc, hs⟩ := h4 (by
    rintro ⟨b1, h⟩
    have e1 := h ⟨"CSCI108", "Programming I", []⟩ (by decide)
    have e2 := h ⟨"CSCI118", "Programming II", ["CSCI108"]⟩ (by decide)
    rw [← e2] at e1
    revert e1
    decide)
  exact ⟨t4, t5, h1, h2, hI, hc, hs, (h3 t5 _ ⟨2, hI⟩).2⟩

set_option maxRecDepth 100000 in
/-- C7 fails on the code. The five records of `sameHashValue` have non-empty course numbers
and names, and their course numbers have one value of `hashValue`, so they share a bucket
whatever the capacity. The first four calls of `Insert` on the default table return; the
fifth does not: it appends a fifth node and calls `reSize`, whose rehash puts the same five
records into one bucket of the new table and calls `reSize` again, and so on at every level,
so that the run gives no table with any amount of fuel. -/
theorem Insert_diverges :
    Reachable (tableOf (sameHashValue.take 4)) ∧
      (tableOf (sameHashValue.take 4)).allCourses = sameHashValue.take 4 ∧
      (∀ c ∈ sameHashValue, c.courseNumber ≠ "" ∧ c.name ≠ "") ∧
      (∀ c ∈ sameHashValue, hashValue c.courseNumber = 1952508096) ∧
      ∀ fuel, Insert fuel (tableOf (sameHashValue.take 4)) ⟨"BBAaAa", "Five", []⟩
        = .error Fault.fuel := by
  have hall : (tableOf (sameHashValue.take 4)).allCourses = sameHashValue.take 4 := by decide
  refine ⟨(insertReachable_tableOf _).reachable, hall, by decide, by decide, fun fuel => ?_⟩
  apply Insert_same_hashValue (insertReachable_tableOf _).reachable.inv _
    (sameHashValue.take 4) (by decide) (by decide) (by rw [hall]; exact fun _ h => h)
    (by decide) (by rw [hall]; decide)

/-- C8 (sort correctness). For a table built from the default table by calls of `Insert`, in
any order, the list that `printAll` prints is in non-decreasing order of course number: for
positions `i < j`, the number at `j` is not less than the number at `i` in the order
`operator<` of strings. -/
theorem sort_correctness {t : CourseHashTable} (_hreach : InsertReachable t) (i j : Nat)
    (hi : i < t.printAll.length) (hj : j < t.printAll.length) (hij : i < j) :
    stringLt t.printAll[j].courseNumber.data t.printAll[i].courseNumber.data = false := by
  have h := pairwise_sortCourses t.allCourses
  rw [List.pairwise_iff_getElem] at h
  exact h i j hi hj hij

set_option maxRecDepth 100000 in
/-- C8, at the first and the last line of the listing of five records. -/
theorem sort_correctness_witness :
    ids (tableOf sameBucket31and67).printAll
        = ["CSCI100", "CSCI350", "CSGL410", "CSTH430", "CSYS440"] ∧
      stringLt ((tableOf sameBucket31and67).printAll.get ⟨4, by decide⟩).courseNumber.data
        ((tableOf sameBucket31and67).printAll.get ⟨0, by decide⟩).courseNumber.data = false :=
  ⟨by decide, sort_correctness (insertReachable_tableOf sameBucket31and67) 0 4 (by decide) (by decide)
    (by decide)⟩

/-- C9 (clear). For a table built from the default table by calls of `Insert` and `Clear`:
after `Clear()`, `Size()` is 0, `printAll` lists nothing, `searchCourse` returns the empty
record for every course number (those stored before among them), and a second `Clear()`
leaves the very same table. -/
theorem clear_spec {t : CourseHashTable} (hreach : Reachable t) :
    t.Clear.Size = 0 ∧ t.Clear.printAll = [] ∧
      (∀ k, t.Clear.searchCourse k = .ok emptyCourse) ∧ t.Clear.Clear = t.Clear := by
  have hinv := hreach.inv
  have hc := Clear_eq_ofSize hinv.1.length_eq
  have hinvc := inv_Clear hinv
  have hall : t.Clear.allCourses = [] := by rw [hc]; exact allCourses_ofSize _
  refine ⟨rfl, ?_, ?_, ?_⟩
  · unfold printAll; rw [hall]; rfl
  · intro k
    exact searchCourse_of_not_mem hinvc.1 (by rw [hall]; simp [ids])
  · rw [Clear_eq_ofSize hinvc.1.length_eq, hc]; rfl

set_option maxRecDepth 100000 in
/-- C9, at the table of scenario A. -/
theorem clear_spec_witness :
    (tableOf scenarioA).searchCourse "CS201" = .ok ⟨"CS201", "Data Structures", ["CS101"]⟩ ∧
      (tableOf scenarioA).Clear.Size = 0 ∧ (tableOf scenarioA).Clear.printAll = [] ∧
      (∀ k, (tableOf scenarioA).Clear.searchCourse k = .ok emptyCourse) ∧
      (tableOf scenarioA).Clear.Clear = (tableOf scenarioA).Clear :=
  ⟨by decide, clear_spec (insertReachable_tableOf scenarioA).reachable⟩

/-- C10 (`isPrime`). For every `unsigned int` value `n`, `isPrime(n)` returns, and it returns
true exactly when `n` is prime, that is `n >= 2` and no `d` with `1 < d < n` divides `n`; it
returns false for `n <= 1`. The loop variable `i` does not wrap: whenever the loop condition
`i <= n / i` holds, `i + 2` and `i + 6` are below the range of `size_t`. -/
theorem isPrime_correct (n : Nat) (hn : n < UINT_MOD) :
    (isPrime n = some true ∨ isPrime n = some false) ∧
      (isPrime n = some true ↔ (2 ≤ n ∧ ∀ d, 1 < d → d < n → ¬ d ∣ n)) ∧
      (isPrime n = some true ↔ n.Prime) ∧
      (n ≤ 1 → isPrime n = some false) ∧
      (∀ i, i ≤ n / i → (i + 2) % SIZE_T_MOD = i + 2 ∧ (i + 6) % SIZE_T_MOD = i + 6) := by
  have h := isPrime_eq hn
  have hiff : isPrime n = some true ↔ n.Prime := by rw [h]; simp
  refine ⟨?_, ?_, hiff, ?_, ?_⟩
  · rw [h]; by_cases hp : n.Prime <;> simp [hp]
  · rw [hiff, Nat.prime_def_lt]
    constructor
    · rintro ⟨h2, hd⟩
      refine ⟨h2, fun d h1 hlt hdvd => ?_⟩
      have := hd d hlt hdvd
      omega
    · rintro ⟨h2, hd⟩
      refine ⟨h2, fun m hlt hdvd => ?_⟩
      by_contra hne
      have hm0 : m ≠ 0 := by
        rintro rfl
        rw [Nat.zero_dvd] at hdvd
        omega
      exact hd m (by omega) hlt hdvd
  · intro h1
    rw [h]
    have : ¬ n.Prime := fun hp => by have := hp.two_le; omega
    simp [this]
  · intro i hi
    have hU : UINT_MOD = 4294967296 := by norm_num [UINT_MOD]
    have hS : SIZE_T_MOD = 18446744073709551616 := by norm_num [SIZE_T_MOD]
    have : i ≤ n := le_trans hi (Nat.div_le_self _ _)
    exact ⟨Nat.mod_eq_of_lt (by omega), Nat.mod_eq_of_lt (by omega)⟩

/-- C10, at the prime 9973, where the loop runs up to `i = 95`. -/
theorem isPrime_correct_witness :
    isPrime 9973 = some true ∧ (2 ≤ 9973 ∧ ∀ d, 1 < d → d < 9973 → ¬ d ∣ 9973) :=
  ⟨by decide, (isPrime_correct 9973 (by decide)).2.1.1 (by decide)⟩
/-- C11 (prime sizing on the tested range). For every `n` from 0 to 10000, `nextPrime(n)`
returns, and its value `p` is the next prime at or above `n`: `p` is prime, `p >= n`, and no
prime `q` has `n <= q < p`. In particular `nextPrime(62) = 67` and
`nextPrime(0) = nextPrime(1) = nextPrime(2) = 2`. -/
theorem nextPrime_tested_range :
    (∀ n, n ≤ 10000 →
      ∃ p, nextPrime n = some p ∧ p.Prime ∧ n ≤ p ∧ ¬ ∃ q, q.Prime ∧ n ≤ q ∧ q < p) ∧
    nextPrime 62 = some 67 ∧ nextPrime 0 = some 2 ∧ nextPrime 1 = some 2 ∧
    nextPrime 2 = some 2 := by
  refine ⟨fun n hn => ?_, by decide, by decide, by decide, by decide⟩
  have hU : UINT_MOD = 4294967296 := by norm_num [UINT_MOD]
  obtain ⟨p, hp, _, _⟩ := nextPrime_total (n := n) (by omega)
  obtain ⟨hprime, hle, hmin⟩ := nextPrime_minimal (by norm_num; omega) hp
  refine ⟨p, hp, hprime, hle, ?_⟩
  rintro ⟨q, hq, hnq, hqp⟩
  have := hmin q hq hnq
  omega

/-- C11, at 9974, where the next prime is 10007. -/
theorem nextPrime_tested_range_witness :
    nextPrime 9974 = some 10007 ∧
      ∃ p, nextPrime 9974 = some p ∧ p.Prime ∧ 9974 ≤ p ∧
        ¬ ∃ q, q.Prime ∧ 9974 ≤ q ∧ q < p :=
  ⟨by decide, nextPrime_tested_range.1 9974 (by decide)⟩

/-- C12 as stated fails. The largest prime of `unsigned int` is below 4294967293; from
this odd argument the loop of `nextPrime` tests 4294967293 and 4294967295, `num += 2` wraps
to 1, and the loop stops at 3: the call returns, with a prime, but the prime is less than the
argument. -/
theorem nextPrime_wraps :
    4294967293 < UINT_MOD ∧ nextPrime 4294967293 = some 3 ∧ ¬ 4294967293 ≤ 3 := by
  have hU : UINT_MOD = 4294967296 := by norm_num [UINT_MOD]
  refine ⟨by omega, ?_, by omega⟩
  unfold nextPrime
  rw [if_neg (by omega)]
  simp only [show ¬ (4294967293 % 2 = 0) by omega, if_false]
  refine nextPrimeLoop_wrap _ _ (by omega) (by omega) (by omega) ?_ (by norm_num; omega)
  intro q hq hle
  by_contra hlt
  have hcases : q = 4294967293 ∨ q = 4294967294 ∨ q = 4294967295 := by omega
  rcases hcases with rfl | rfl | rfl
  · exact Nat.not_prime_mul' (show 9241 * 464773 = 4294967293 by norm_num) (by norm_num)
      (by norm_num) hq
  · exact Nat.not_prime_mul' (show 2 * 2147483647 = 4294967294 by norm_num) (by norm_num)
      (by norm_num) hq
  · exact Nat.not_prime_mul' (show 3 * 1431655765 = 4294967295 by norm_num) (by norm_num)
      (by norm_num) hq
/-- C12, amended. For every value `n` of `unsigned int`, with `num += 2` and `num++`
computed modulo `2 ^ 32`, `nextPrime(n)` returns, and it returns a prime `p` of
`unsigned int`. For `n` up to 4294967291, the largest prime of `unsigned int`, `p` is at
least `n`, and it is the smallest prime from `n` on. For the four values of `n` above
4294967291 the loop wraps and `p` is 3. -/
theorem nextPrime_unsigned (n : Nat) (hn : n < UINT_MOD) :
    ∃ p, nextPrime n = some p ∧ p.Prime ∧ p < UINT_MOD ∧
      (n ≤ 4294967291 → n ≤ p ∧ ∀ q, q.Prime → n ≤ q → p ≤ q) ∧
      (4294967291 < n → p = 3) := by
  obtain ⟨p, hp, hprime, hlt⟩ := nextPrime_total hn
  refine ⟨p, hp, hprime, hlt, fun hle => ?_, fun hgt => ?_⟩
  · exact (nextPrime_minimal_of_prime prime_4294967291 hle (by norm_num [UINT_MOD]) hp).2
  · have := nextPrime_above_4294967291 hgt hn
    rw [hp] at this
    exact Option.some.inj this

/-- C12 amended, at 62, the argument of the first resize of the default table: the result
is 67. -/
theorem nextPrime_unsigned_witness :
    62 < UINT_MOD ∧ nextPrime 62 = some 67 ∧
      ∃ p, nextPrime 62 = some p ∧ p.Prime ∧ p < UINT_MOD ∧
        (62 ≤ 4294967291 → 62 ≤ p ∧ ∀ q, q.Prime → 62 ≤ q → p ≤ q) ∧
        (4294967291 < 62 → p = 3) :=
  ⟨by decide, by decide, nextPrime_unsigned 62 (by decide)⟩

/-- C13 (hash range and determinism). For every course number and every table of capacity
`c` with `1 <= c < 2 ^ 32`, `hash` is below `c`, and it is the same in two tables of the same
capacity. Consequently, on a table whose bucket array has `tableSize` entries, the accesses
`buckets.at(hash(...))` are in range: `searchCourse` returns a record, and a run of `Insert`,
rehash included, never ends with `std::out_of_range`. -/
theorem hash_in_range (t : CourseHashTable) (k : String) (hpos : 1 ≤ t.tableSize)
    (_hlt : t.tableSize < UINT_MOD) :
    t.hash k < t.tableSize ∧
      (∀ t1 : CourseHashTable, t1.tableSize = t.tableSize → t1.hash k = t.hash k) ∧
      (t.buckets.length = t.tableSize →
        (∃ node, t.buckets[t.hash k]? = some node) ∧
        (∃ c, t.searchCourse k = .ok c) ∧
        ∀ (fuel : Nat) (c : Course), Insert fuel t c ≠ .error Fault.outOfRange) := by
  refine ⟨hash_lt hpos k, fun t1 h1 => by unfold hash; rw [h1], fun hlen => ⟨?_, ?_, ?_⟩⟩
  · have := hash_lt hpos k
    exact ⟨_, List.getElem?_eq_getElem (by omega)⟩
  · exact searchCourse_ok hlen hpos k
  · intro fuel c h
    have := Insert_not_outOfRange hlen hpos c fuel _ h
    exact absurd this (by decide)

set_option maxRecDepth 100000 in
/-- C13, at the table of scenario A and the course number `CS201`, which lies in bucket 18
of 31. -/
theorem hash_in_range_witness :
    (tableOf scenarioA).hash "CS201" = 18 ∧
      (tableOf scenarioA).hash "CS201" < (tableOf scenarioA).tableSize ∧
      (∀ t1 : CourseHashTable, t1.tableSize = (tableOf scenarioA).tableSize →
        t1.hash "CS201" = (tableOf scenarioA).hash "CS201") ∧
      ((tableOf scenarioA).buckets.length = (tableOf scenarioA).tableSize →
        (∃ node, (tableOf scenarioA).buckets[(tableOf scenarioA).hash "CS201"]? = some node) ∧
        (∃ c, (tableOf scenarioA).searchCourse "CS201" = .ok c) ∧
        ∀ (fuel : Nat) (c : Course),
          Insert fuel (tableOf scenarioA) c ≠ .error Fault.outOfRange) :=
  ⟨by decide, hash_in_range (tableOf scenarioA) "CS201" (by decide) (by decide)⟩
set_option maxRecDepth 100000 in
/-- C14 fails on the code. In the file `sameHashValueLines` the sixth line repeats the course
number of the first, and the five lines before it are valid. `loadCourses` does not return
false: the course numbers of the first five lines have one hash value, so the call of
`Insert` for the fifth line does not return (the defect of C7), and the run of `loadCourses`
gives no result with any amount of fuel. -/
theorem loadCourses_diverges :
    HasDuplicate sameHashValueLines ∧
      (sameHashValueLines.take 5).map parseLine = sameHashValue.map some ∧
      ∀ fuel, loadCourses fuel sameHashValueLines CourseHashTable.default
        = .error Fault.fuel := by
  refine ⟨⟨0, 5, "AaAaAa,One", "AaAaAa,Again", "AaAaAa", by decide, by decide, by decide,
    by decide, by decide, by decide⟩, by decide, fun fuel => ?_⟩
  cases fuel with
  | zero => decide
  | succ f =>
    have hall : (tableOf (sameHashValue.take 4)).allCourses = sameHashValue.take 4 := by decide
    have h5 : Insert (f + 1) (tableOf (sameHashValue.take 4)) ⟨"BBAaAa", "Five", []⟩
        = .error Fault.fuel :=
      Insert_same_hashValue (insertReachable_tableOf _).reachable.inv _
        (sameHashValue.take 4) (by decide) (by decide) (by rw [hall]; exact fun _ h => h)
        (by decide) (by rw [hall]; decide) (f + 1)
    have h1 : Insert (f + 1) CourseHashTable.default ⟨"AaAaAa", "One", []⟩
        = .ok (tableOf (sameHashValue.take 1), []) :=
      Insert_mono (Nat.le_add_left 1 f) (show Insert 1 _ _ = _ by decide)
    have h2 : Insert (f + 1) (tableOf (sameHashValue.take 1)) ⟨"AaAaBB", "Two", []⟩
        = .ok (tableOf (sameHashValue.take 2), []) :=
      Insert_mono (Nat.le_add_left 1 f) (show Insert 1 _ _ = _ by decide)
    have h3 : Insert (f + 1) (tableOf (sameHashValue.take 2)) ⟨"AaBBAa", "Three", []⟩
        = .ok (tableOf (sameHashValue.take 3), []) :=
      Insert_mono (Nat.le_add_left 1 f) (show Insert 1 _ _ = _ by decide)
    have h4 : Insert (f + 1) (tableOf (sameHashValue.take 3)) ⟨"AaBBBB", "Four", []⟩
        = .ok (tableOf (sameHashValue.take 4), []) :=
      Insert_mono (Nat.le_add_left 1 f) (show Insert 1 _ _ = _ by decide)
    unfold loadCourses sameHashValueLines
    rw [show CourseHashTable.default.Clear = CourseHashTable.default by decide,
      loadLoop_cons_ok (by decide) (show parseLine "AaAaAa,One" = some _ by decide)
        (by decide) h1,
      loadLoop_cons_ok (by decide) (show parseLine "AaAaBB,Two" = some _ by decide)
        (by decide) h2,
      loadLoop_cons_ok (by decide) (show parseLine "AaBBAa,Three" = some _ by decide)
        (by decide) h3,
      loadLoop_cons_ok (by decide) (show parseLine "AaBBBB,Four" = some _ by decide)
        (by decide) h4,
      loadLoop_cons_error (by decide) (show parseLine "BBAaAa,Five" = some _ by decide)
        (by decide) h5]
set_option maxRecDepth 100000 in
/-- C15 as stated fails. The line `CS101,Intro, ` has two non-empty leading fields and a third
field that is empty after trimming, so shorter than 4 characters and without a digit; the
loop over the prerequisites skips an empty field, and `loadCourses` accepts the file: it
returns true and the table holds the record. -/
theorem prereq_empty_token_accepted :
    splitCSV "CS101,Intro, " = ["CS101", "Intro", ""] ∧
      (("" : String).length < 4 ∨ containsDigit "" = false) ∧
      (∀ fuel, loadCourses (fuel + 1) ["CS101,Intro, "] CourseHashTable.default
        = .ok (true, tableOf [⟨"CS101", "Intro", []⟩])) ∧
      (tableOf [⟨"CS101", "Intro", []⟩]).Size = 1 := by
  refine ⟨by decide, by decide, fun fuel => ?_, by decide⟩
  have h1 : Insert (fuel + 1) CourseHashTable.default ⟨"CS101", "Intro", []⟩
      = .ok (tableOf [⟨"CS101", "Intro", []⟩], []) :=
    Insert_mono (Nat.le_add_left 1 fuel) (show Insert 1 _ _ = _ by decide)
  unfold loadCourses
  rw [show CourseHashTable.default.Clear = CourseHashTable.default by decide,
    loadLoop_cons_ok (by decide) (show parseLine "CS101,Intro, " = some _ by decide)
      (by decide) h1]
  rfl

/-- C15, amended. Take a file with a line that has at least two fields, the first two
non-empty, and after them a field that, trimmed, is not empty and is shorter than 4
characters or has no digit. For every table built by calls of `Insert` and `Clear`, a call
of `loadCourses` that returns has returned false and left the table empty; the only other
outcome is that a call of `Insert` for an earlier line does not return. -/
theorem prereq_validation (lines : List String) (line f0 f1 p : String) (more : List String)
    (ht : CourseHashTable) (hline : line ∈ lines) (hsplit : splitCSV line = f0 :: f1 :: more)
    (_h0 : f0 ≠ "") (_h1 : f1 ≠ "") (hp : p ∈ more) (hne : p ≠ "")
    (hbad : p.length < 4 ∨ containsDigit p = false) (hreach : Reachable ht) (fuel : Nat) :
    loadCourses fuel lines ht = .error Fault.fuel ∨
      ∃ t, loadCourses fuel lines ht = .ok (false, t) ∧ t.Size = 0 ∧ t.allCourses = [] := by
  apply loadCourses_of_not_accepted hreach.inv
  intro hacc
  have hl : line ≠ "" := by
    rintro rfl
    have : splitCSV "" = [] := by decide
    rw [this] at hsplit
    cases hsplit
  obtain ⟨c, hc, _⟩ := Accepted_mem lines [] hacc line hline hl
  unfold parseLine at hc
  simp only [hsplit, parsePrereqs_none hp hne hbad] at hc
  split_ifs at hc
  simp at hc

set_option maxRecDepth 100000 in
/-- C15 amended, at a file whose second line has the prerequisite token `CS1`: the call
returns false and the table is empty. -/
theorem prereq_validation_witness :
    loadCourses 1 ["CS101,Intro", "CS201,Data Structures,CS1"] (tableOf scenarioA)
        = .ok (false, CourseHashTable.default) ∧
      (loadCourses 1 ["CS101,Intro", "CS201,Data Structures,CS1"] (tableOf scenarioA)
          = .error Fault.fuel ∨
        ∃ t, loadCourses 1 ["CS101,Intro", "CS201,Data Structures,CS1"] (tableOf scenarioA)
            = .ok (false, t) ∧ t.Size = 0 ∧ t.allCourses = []) :=
  ⟨by decide,
    prereq_validation ["CS101,Intro", "CS201,Data Structures,CS1"]
      "CS201,Data Structures,CS1" "CS201" "Data Structures" "CS1" ["CS1"] (tableOf scenarioA)
      (by decide) (by decide) (by decide) (by decide) (by decide) (by decide) (by decide)
      (insertReachable_tableOf scenarioA).reachable 1⟩
/-- C16 as stated fails. The course number `CSCI100` has the polynomial value 61903065435,
which does not fit `unsigned int`: `hash` under capacity 31 is 23, the value reduced to
32 bits and then modulo 31, while the value modulo 31 is 17. -/
theorem hash_not_polyValue_mod :
    (∀ c ∈ ("CSCI100" : String).data, c.toNat < 128) ∧ polyValue "CSCI100" = 61903065435 ∧
      CourseHashTable.default.tableSize = 31 ∧ CourseHashTable.default.hash "CSCI100" = 23 ∧
      polyValue "CSCI100" % 31 = 17 ∧
      CourseHashTable.default.hash "CSCI100"
        ≠ polyValue "CSCI100" % CourseHashTable.default.tableSize := by
  refine ⟨by decide, by decide, by decide, by decide, by decide, by decide⟩

/-- C16, amended. For every course number of ASCII characters and every table of capacity
`m >= 1`, `hash` is the base-31 polynomial value of the character codes, reduced modulo
`2 ^ 32` (the accumulation in `unsigned int`) and then modulo `m`; it is the value modulo `m`
when the value is below `2 ^ 32`. -/
theorem hash_formula (t : CourseHashTable) (k : String)
    (hascii : ∀ c ∈ k.data, c.toNat < 128) (_hm : 1 ≤ t.tableSize) :
    t.hash k = (polyValue k % 2 ^ 32) % t.tableSize ∧
      (polyValue k < 2 ^ 32 → t.hash k = polyValue k % t.tableSize) := by
  have h : t.hash k = (polyValue k % 2 ^ 32) % t.tableSize := by
    unfold hash
    rw [hashValue_eq_polyValue_mod hascii]
    rfl
  exact ⟨h, fun hlt => by rw [h, Nat.mod_eq_of_lt hlt]⟩

set_option maxRecDepth 100000 in
/-- C16 amended, at `CSCI100` (value above `2 ^ 32`) and at `CS201` (value below) in the
default table. -/
theorem hash_formula_witness :
    CourseHashTable.default.hash "CSCI100" = 23 ∧ (61903065435 % 2 ^ 32) % 31 = 23 ∧
      CourseHashTable.default.hash "CSCI100"
        = (polyValue "CSCI100" % 2 ^ 32) % CourseHashTable.default.tableSize ∧
      (polyValue "CSCI100" < 2 ^ 32 → CourseHashTable.default.hash "CSCI100"
        = polyValue "CSCI100" % CourseHashTable.default.tableSize) ∧
      CourseHashTable.default.hash "CS201"
        = polyValue "CS201" % CourseHashTable.default.tableSize :=
  ⟨by decide, by decide,
    (hash_formula CourseHashTable.default "CSCI100" (by decide) (by decide)).1,
    (hash_formula CourseHashTable.default "CSCI100" (by decide) (by decide)).2,
    (hash_formula CourseHashTable.default "CS201" (by decide) (by decide)).2 (by decide)⟩
/-- C17 (table invariant). In every table built from the default table by calls of `Insert`
(with any record, so with those of non-empty course number) and `Clear`, `numElements` is
the number of occupied slots, that is occupied bucket heads plus chain nodes, and no two
stored records have the same course number. -/
theorem table_invariant {t : CourseHashTable} (hreach : Reachable t) :
    t.numElements = t.occupiedSlots ∧ (ids t.storedCourses).Nodup := by
  have h := hreach.inv.1
  rw [occupiedSlots_eq h, storedCourses_eq h]
  exact ⟨h.count, nodup_ids_allCourses h.length_eq h.bucket⟩

set_option maxRecDepth 100000 in
/-- C17, at the table of five records after its resize. -/
theorem table_invariant_witness :
    (tableOf sameBucket31).occupiedSlots = 5 ∧
      (tableOf sameBucket31).numElements = (tableOf sameBucket31).occupiedSlots ∧
      (ids (tableOf sameBucket31).storedCourses).Nodup :=
  ⟨by decide, table_invariant (insertReachable_tableOf sameBucket31).reachable⟩

/-- C18 (bucket placement). In every table built from the default table by calls of `Insert`
and `Clear`, a record stored in bucket `i`, in the head or in a chain node, has `hash` of its
course number, computed with the current capacity, equal to `i`, and the `key` stored with it
is `i`; and every stored record is found in the bucket of its `hash`. -/
theorem bucket_placement {t : CourseHashTable} (hreach : Reachable t) :
    (∀ (i : Nat) (node : Node), t.buckets[i]? = some node →
      (node.key ≠ UINT_MAX → t.hash node.course.courseNumber = i ∧ node.key = i) ∧
      ∀ n ∈ node.next, t.hash n.course.courseNumber = i ∧ n.key = i) ∧
    ∀ x ∈ t.storedCourses, ∃ node, t.buckets[t.hash x.courseNumber]? = some node ∧
      x ∈ bucketCourses node := by
  have h := hreach.inv.1
  constructor
  · intro i node hget
    have hb := h.bucket i node hget
    constructor
    · intro hk
      refine ⟨hb.placed _ ?_, hb.key_eq hk⟩
      rw [bucketCourses_of_ne hk]
      exact List.mem_cons_self _ _
    · intro n hn
      have hk : node.key ≠ UINT_MAX := by
        intro e
        rw [hb.next_nil e] at hn
        simp at hn
      refine ⟨hb.placed _ ?_, hb.next_key n hn⟩
      rw [bucketCourses_of_ne hk]
      exact List.mem_cons_of_mem _ (List.mem_map.2 ⟨n, hn, rfl⟩)
  · intro x hx
    rw [storedCourses_eq h] at hx
    exact mem_bucket_of_mem h.length_eq h.bucket hx

set_option maxRecDepth 100000 in
/-- C18, at the table of five records after its resize from 31 to 67 buckets: the record
`CSCI118`, which was in bucket 0 of 31, is in bucket 31 of 67. -/
theorem bucket_placement_witness :
    CourseHashTable.default.hash "CSCI118" = 0 ∧ (tableOf sameBucket31).hash "CSCI118" = 31 ∧
      ((tableOf sameBucket31).buckets[31]?).map (fun node => (node.course.courseNumber, node.key))
        = some ("CSCI118", 31) ∧
      ((∀ (i : Nat) (node : Node), (tableOf sameBucket31).buckets[i]? = some node →
        (node.key ≠ UINT_MAX →
          (tableOf sameBucket31).hash node.course.courseNumber = i ∧ node.key = i) ∧
        ∀ n ∈ node.next, (tableOf sameBucket31).hash n.course.courseNumber = i ∧ n.key = i) ∧
      ∀ x ∈ (tableOf sameBucket31).storedCourses,
        ∃ node, (tableOf sameBucket31).buckets[(tableOf sameBucket31).hash x.courseNumber]?
          = some node ∧ x ∈ bucketCourses node) :=
  ⟨by decide, by decide, by decide,
    bucket_placement (insertReachable_tableOf sameBucket31).reachable⟩

/-- C19 (capacity is always prime). In every table built from the default table by calls of
`Insert` and `Clear`, `tableSize` is a positive prime and `buckets` has exactly `tableSize`
entries; and whatever `reSize` computes as the next size from it, with `2 * tableSize`
narrowed to `unsigned int`, is a prime again. -/
theorem capacity_prime {t : CourseHashTable} (hreach : Reachable t) :
    t.tableSize.Prime ∧ 0 < t.tableSize ∧ t.buckets.length = t.tableSize ∧
      ∀ p, growStep t.tableSize = some p → p.Prime := by
  have h := hreach.inv.1
  refine ⟨h.prime, h.prime.pos, h.length_eq, fun p hp => ?_⟩
  exact (nextPrime_sound (Nat.mod_lt _ (by norm_num [UINT_MOD])) hp).1

set_option maxRecDepth 100000 in
/-- C19, at the table of five records that have met in one bucket twice: 137 buckets. -/
theorem capacity_prime_witness :
    (tableOf sameBucket31and67).tableSize = 137 ∧
      (tableOf sameBucket31and67).tableSize.Prime ∧ 0 < (tableOf sameBucket31and67).tableSize ∧
      (tableOf sameBucket31and67).buckets.length = (tableOf sameBucket31and67).tableSize ∧
      ∀ p, growStep (tableOf sameBucket31and67).tableSize = some p → p.Prime :=
  ⟨by decide, capacity_prime (insertReachable_tableOf sameBucket31and67).reachable⟩

/-- C20 (chain length bound). In every table built from the default table by calls of
`Insert` and `Clear`, so after each call of `Insert` that has returned, every bucket holds
at most 4 records: the head and at most 3 chain nodes. -/
theorem chain_length_bound {t : CourseHashTable} (hreach : Reachable t) :
    ∀ node ∈ t.buckets, (bucketCourses node).length ≤ 4 ∧ node.next.length ≤ 3 := by
  intro node hn
  have hb := hreach.inv.2 node hn
  have hM : maxChainLength = 4 := rfl
  refine ⟨by omega, ?_⟩
  obtain ⟨i, hi⟩ := List.mem_iff_getElem?.1 hn
  by_cases hk : node.key = UINT_MAX
  · rw [(hreach.inv.1.bucket i node hi).next_nil hk]
    simp
  · rw [bucketCourses_of_ne hk] at hb
    simp only [List.length_cons, List.length_map] at hb
    omega

set_option maxRecDepth 100000 in
/-- C20, at the table of the first four records of `sameBucket31`, whose bucket 0 is full,
and at the table after the fifth. -/
theorem chain_length_bound_witness :
    ((tableOf (sameBucket31.take 4)).buckets[0]?).map (fun node => node.next.length) = some 3 ∧
      (∀ node ∈ (tableOf (sameBucket31.take 4)).buckets,
        (bucketCourses node).length ≤ 4 ∧ node.next.length ≤ 3) ∧
      ∀ node ∈ (tableOf sameBucket31).buckets,
        (bucketCourses node).length ≤ 4 ∧ node.next.length ≤ 3 :=
  ⟨by decide, chain_length_bound (insertReachable_tableOf _).reachable,
    chain_length_bound (insertReachable_tableOf sameBucket31).reachable⟩
/-- C21 (snapshot content). Take a table built from the default table by calls of `Clear`
and of `Insert` with records of non-empty course number, the records that `Insert` is called
with. For every course number `k`, `searchCourse(k)` returns a record. It has found a record
when the record returned is other than the empty record, which is exactly when its
`courseNumber` is not empty, the test that the callers make. When it has found one, the list
of `printAll` has exactly one record with the course number `k`, and it is the record
returned; when `searchCourse(k)` returns the empty record, the list has no record with the
course number `k`. The length of the list is `Size()`. -/
theorem snapshot_content {t : CourseHashTable} (hreach : ReachableNonEmpty t) :
    (∀ k, ∃ c, t.searchCourse k = .ok c ∧ (c ≠ emptyCourse ↔ c.courseNumber ≠ "") ∧
      (c ≠ emptyCourse → withNumber k t.printAll = [c]) ∧
      (c = emptyCourse → withNumber k t.printAll = [])) ∧
    t.printAll.length = t.Size := by
  have h := hreach.toReachable.inv.1
  have hne := hreach.courseNumber_ne
  have hnd := nodup_ids_printAll h
  constructor
  · intro k
    rcases searchCourse_cases h k with ⟨x, hx, rfl, hs⟩ | ⟨hk, hs⟩
    · have hx0 : x.courseNumber ≠ "" := hne x hx
      have hxe : x ≠ emptyCourse := fun e => hx0 (by rw [e]; rfl)
      refine ⟨x, hs, ⟨fun _ => hx0, fun _ => hxe⟩, fun _ => ?_, fun e => absurd e hxe⟩
      exact withNumber_of_mem hnd ((mem_printAll x).2 hx)
    · refine ⟨emptyCourse, hs, ⟨fun e => absurd rfl e, fun e => absurd rfl e⟩,
        fun e => absurd rfl e, fun _ => ?_⟩
      apply withNumber_of_not_mem
      intro hin
      obtain ⟨y, hy, hyk⟩ := mem_ids.1 hin
      exact hk (mem_ids.2 ⟨y, (mem_printAll y).1 hy, hyk⟩)
  · unfold printAll Size
    rw [length_sortCourses, h.count]

theorem reachableNonEmpty_scenarioA : ReachableNonEmpty (tableOf scenarioA) := by
  have h1 : Returns CourseHashTable.default ⟨"CS101", "Intro", []⟩
      (tableOf [⟨"CS101", "Intro", []⟩]) [] := ⟨1, by decide⟩
  have h2 : Returns (tableOf [⟨"CS101", "Intro", []⟩])
      ⟨"CS201", "Data Structures", ["CS101"]⟩ (tableOf scenarioA) [] := ⟨1, by decide⟩
  exact ReachableNonEmpty.insert _
    (ReachableNonEmpty.insert _ ReachableNonEmpty.default (by decide) h1) (by decide) h2

set_option maxRecDepth 100000 in
/-- C21, at the table of scenario A: `CS201` is found and listed once, `CS301` is
not found and not listed, and the list has two records. -/
theorem snapshot_content_witness :
    (tableOf scenarioA).searchCourse "CS201" = .ok ⟨"CS201", "Data Structures", ["CS101"]⟩ ∧
      withNumber "CS201" (tableOf scenarioA).printAll
        = [⟨"CS201", "Data Structures", ["CS101"]⟩] ∧
      (tableOf scenarioA).searchCourse "CS301" = .ok emptyCourse ∧
      withNumber "CS301" (tableOf scenarioA).printAll = [] ∧
      ((∀ k, ∃ c, (tableOf scenarioA).searchCourse k = .ok c ∧
          (c ≠ emptyCourse ↔ c.courseNumber ≠ "") ∧
          (c ≠ emptyCourse → withNumber k (tableOf scenarioA).printAll = [c]) ∧
          (c = emptyCourse → withNumber k (tableOf scenarioA).printAll = [])) ∧
        (tableOf scenarioA).printAll.length = (tableOf scenarioA).Size) :=
  ⟨by decide, by decide, by decide, by decide, snapshot_content reachableNonEmpty_scenarioA⟩

/-- C22 (insert frame). Take a table built from the default table by calls of `Insert` and
`Clear`, a record `r` of non-empty course number and a course number `k` other than that of
`r`. When `Insert(r)` has returned, with or without a resize, `searchCourse(k)` returns what
it returned before the call: the same record, or the empty record as before. -/
theorem insert_frame {t t1 : CourseHashTable} {r : Course} {out : List Out}
    (hreach : Reachable t) (_hne : r.courseNumber ≠ "") (k : String)
    (hk : k ≠ r.courseNumber) (hret : Returns t r t1 out) :
    t1.searchCourse k = t.searchCourse k := by
  have hinv := hreach.inv
  obtain ⟨hinv1, hmem⟩ := hret.spec hinv
  rcases searchCourse_cases hinv.1 k with ⟨x, hx, rfl, hs⟩ | ⟨hnot, hs⟩
  · rw [hs]
    exact searchCourse_of_mem hinv1.1 ((hmem x).2 (Or.inr ⟨hx, hk⟩))
  · rw [hs]
    apply searchCourse_of_not_mem hinv1.1
    intro hin
    obtain ⟨y, hy, hyk⟩ := mem_ids.1 hin
    rcases (hmem y).1 hy with rfl | ⟨hy0, _⟩
    · exact hk hyk.symm
    · exact hnot (mem_ids.2 ⟨y, hy0, hyk⟩)

set_option maxRecDepth 100000 in
/-- C22, at the insertion that makes the default table resize from 31 to 67 buckets: a
stored course number and one that is not stored. -/
theorem insert_frame_witness :
    (tableOf (sameBucket31.take 4)).searchCourse "CSCI108"
        = .ok ⟨"CSCI108", "Programming I", []⟩ ∧
      (tableOf sameBucket31).tableSize = 67 ∧
      (tableOf sameBucket31).searchCourse "CSCI108"
        = (tableOf (sameBucket31.take 4)).searchCourse "CSCI108" ∧
      (tableOf sameBucket31).searchCourse "CSCI999"
        = (tableOf (sameBucket31.take 4)).searchCourse "CSCI999" :=
  ⟨by decide, by decide,
    @insert_frame (tableOf (sameBucket31.take 4)) (tableOf sameBucket31)
      ⟨"CSCI148", "Networks", ["CSCI128"]⟩ [Out.chainExceeds 5, Out.resizing 31 67]
      (insertReachable_tableOf _).reachable (by decide) "CSCI108" (by decide) ⟨2, by decide⟩,
    @insert_frame (tableOf (sameBucket31.take 4)) (tableOf sameBucket31)
      ⟨"CSCI148", "Networks", ["CSCI128"]⟩ [Out.chainExceeds 5, Out.resizing 31 67]
      (insertReachable_tableOf _).reachable (by decide) "CSCI999" (by decide) ⟨2, by decide⟩⟩

end CourseHashTable

end ProjectTwo
